import Mathlib

/-!
OptiCompiler: tokenizer, parser, optimizer, code generator and driver

A shallow embedding of `tokenizer_js.js`, `parser_js.js`, `optimizer_js.js` and
`compiler_js.js` (directory `public/day167_OptiCompiler`) and of
`machine_code_js.js` (directory `OptiCompiler`), together with the properties
proved about them.

Conventions of the embedding

* A JavaScript string is a `String`; scanning works on its list of characters.
  Positions and lengths count characters, which agrees with JavaScript's
  UTF-16 positions on every prefix the tokenizer accepts (all accepted
  characters lie in the Basic Multilingual Plane).
* A JavaScript number is a `JSNum`: a signed integer magnitude (so that `-0`
  exists), the two infinities and `NaN`.  The operators `+`, `-`, `*` and `/`
  round their exact result to the nearest double (53 significant bits, ties to
  even), so they are exact integer arithmetic as long as all values stay inside
  the safe-integer range `±(2^53 - 1)`.  A number is printed with all the
  digits of its magnitude, as `toString` does below `10^21`, and `parseInt`
  returns the exact value of the digits it reads.
* The plain object `symbolTable`, the `Map` `expressionCache` and the `Set`
  `usedVariables` are association lists / lists; only own properties are
  modelled, the members inherited from `Object.prototype` are not.
* A thrown exception is a value of `Thrown`; recursion that JavaScript performs
  on its call stack is bounded by a fuel argument, and `Run.outOfFuel` is the
  only outcome that does not correspond to a JavaScript outcome.
-/

namespace OptiCompiler

/-! ## Outcomes -/

/-- Exceptions the code can raise: `new Error(message)` thrown explicitly, and
the `TypeError` the runtime raises when a property of `undefined` is read. -/
inductive Thrown where
  | Error (message : String)
  | TypeError (message : String)
  deriving DecidableEq, Repr

/-- Outcome of running a piece of the program with bounded recursion depth. -/
inductive Run (α : Type) where
  | ok (a : α)
  | thrown (e : Thrown)
  | outOfFuel
  deriving DecidableEq, Repr

/-- Sequencing: the first exception (or fuel exhaustion) aborts everything
after it. -/
def Run.andThen {α β : Type} (x : Run α) (f : α → Run β) : Run β :=
  match x with
  | .ok a => f a
  | .thrown e => .thrown e
  | .outOfFuel => .outOfFuel

/-! ## Tokenizer (`tokenizer_js.js`) -/

/-- The `type` tags of `tokenPatterns`. -/
inductive TokenType where
  | KEYWORD | IDENTIFIER | NUMBER | OPERATOR | PUNCTUATION | WHITESPACE
  deriving DecidableEq, Repr

/-- The tag as the JavaScript string it is in the source. -/
def TokenType.text : TokenType → String
  | .KEYWORD => "KEYWORD"
  | .IDENTIFIER => "IDENTIFIER"
  | .NUMBER => "NUMBER"
  | .OPERATOR => "OPERATOR"
  | .PUNCTUATION => "PUNCTUATION"
  | .WHITESPACE => "WHITESPACE"

/-- A token object `{ type, value }`. -/
structure Token where
  type : TokenType
  value : String
  deriving DecidableEq, Repr

/-- Regex class `\w` (without the unicode flag): `[A-Za-z0-9_]`. -/
def isWordChar (c : Char) : Bool := c.isAlphanum || c == '_'

/-- Regex class `\d`: `[0-9]`. -/
def isDigitChar (c : Char) : Bool := c.isDigit

/-- Regex class `\s` of ECMAScript: white space and line terminators. -/
def isSpaceChar (c : Char) : Bool :=
  let n := c.toNat
  n == 9 || n == 10 || n == 11 || n == 12 || n == 13 || n == 32 || n == 0xA0 ||
  n == 0x1680 || (0x2000 ≤ n && n ≤ 0x200A) || n == 0x2028 || n == 0x2029 ||
  n == 0x202F || n == 0x205F || n == 0x3000 || n == 0xFEFF

/-- Regex assertion `\b` at a point preceded by a word character: it holds iff
the input ends there or continues with a non-word character. -/
def boundaryAfterWord (rest : List Char) : Bool :=
  match rest with
  | [] => true
  | c :: _ => !isWordChar c

/-- First alternative of `alts` (in order) that is a prefix of `rest` and
satisfies `ok` on what follows: the regex `^(a1|a2|...)` followed by an
assertion. -/
def firstAlternative (alts : List String) (ok : List Char → Bool) (rest : List Char) :
    Option (List Char) :=
  (alts.map String.toList).find?
    (fun a => a.isPrefixOf rest && ok (rest.drop a.length))

/-- Regex `/^(if|else|while|print)\b/`. -/
def matchKeyword (rest : List Char) : Option (List Char) :=
  firstAlternative ["if", "else", "while", "print"] boundaryAfterWord rest

/-- Regex `/^[a-zA-Z_][a-zA-Z0-9_]*/`. -/
def matchIdentifier (rest : List Char) : Option (List Char) :=
  match rest with
  | [] => none
  | c :: cs => if c.isAlpha || c == '_' then some (c :: cs.takeWhile isWordChar) else none

/-- Regex `/^\d+(\.\d+)?\b/`, backtracking included: the digit run is taken
whole (a shorter run is followed by a digit, where neither `\.` nor `\b`
matches); the fraction is taken whole when a boundary follows it, and dropped
otherwise, in which case `\b` holds between the last digit and the dot. -/
def matchNumber (rest : List Char) : Option (List Char) :=
  let digits := rest.takeWhile isDigitChar
  if digits.isEmpty then none
  else
    match rest.drop digits.length with
    | '.' :: more =>
      let fraction := more.takeWhile isDigitChar
      if !fraction.isEmpty && boundaryAfterWord (more.drop fraction.length)
      then some (digits ++ '.' :: fraction)
      else some digits
    | after => if boundaryAfterWord after then some digits else none

/-- Regex `/^(==|!=|<=|>=|\+|\-|\*|\/|=|<|>)/`. -/
def matchOperator (rest : List Char) : Option (List Char) :=
  firstAlternative ["==", "!=", "<=", ">=", "+", "-", "*", "/", "=", "<", ">"]
    (fun _ => true) rest

/-- Regex `/^([;\{\}\(\)])/`. -/
def matchPunctuation (rest : List Char) : Option (List Char) :=
  firstAlternative [";", "\x7b", "\x7d", "(", ")"] (fun _ => true) rest

/-- Regex `/^\s+/`. -/
def matchWhitespace (rest : List Char) : Option (List Char) :=
  let spaces := rest.takeWhile isSpaceChar
  if spaces.isEmpty then none else some spaces

/-- The array `tokenPatterns`, in its order. -/
def tokenPatterns : List (TokenType × (List Char → Option (List Char))) :=
  [ (.KEYWORD, matchKeyword),
    (.IDENTIFIER, matchIdentifier),
    (.NUMBER, matchNumber),
    (.OPERATOR, matchOperator),
    (.PUNCTUATION, matchPunctuation),
    (.WHITESPACE, matchWhitespace) ]

/-- The inner `for` loop of `tokenize`: the first pattern of `patterns` that
matches `rest`, as the object `{ type, value }`. -/
def firstMatchIn (patterns : List (TokenType × (List Char → Option (List Char))))
    (rest : List Char) : Option Token :=
  match patterns with
  | [] => none
  | (ty, regex) :: more =>
    match regex rest with
    | some text => some { type := ty, value := String.mk text }
    | none => firstMatchIn more rest

/-- The value of `match` after the inner loop, for the input `rest`. -/
def firstMatch (rest : List Char) : Option Token := firstMatchIn tokenPatterns rest

/-- The message of the error thrown at `position`, where `found` is
`code[position]`. -/
def lexErrorMessage (position : Nat) (found : Char) : String :=
  "Unexpected character at position " ++ toString position ++ ": " ++ String.singleton found

/-- The `while (position < code.length)` loop of `tokenize`; one unit of fuel
per iteration. -/
def tokenizeLoop (code : List Char) : Nat → Nat → List Token → Run (List Token)
  | 0, _, _ => .outOfFuel
  | fuel + 1, position, tokens =>
    match code.drop position with
    | [] => .ok tokens
    | c :: rest =>
      match firstMatch (c :: rest) with
      | some m =>
        tokenizeLoop code fuel (position + m.value.length)
          (if m.type ≠ .WHITESPACE then tokens ++ [m] else tokens)
      | none => .thrown (.Error (lexErrorMessage position c))

/-- The function `tokenize(code)`.  Every iteration advances `position` by at
least one, so `code.length + 1` iterations always suffice. -/
def tokenize (code : String) : Run (List Token) :=
  tokenizeLoop code.toList (code.length + 1) 0 []

/-! ## Abstract syntax and parser (`parser_js.js`) -/

/-- A JavaScript number as far as this program can produce one: a finite
integer value with a sign (`fin true 0` is `-0`), an infinity, or `NaN`. -/
inductive JSNum where
  | fin (neg : Bool) (mag : Nat)
  | inf (neg : Bool)
  | nan
  deriving DecidableEq, Repr

/-- Expression nodes.  `number` is a primitive number (a value for which
`typeof node === 'number'`); the other three are the objects
`{ type: 'number_literal', value }`, `{ type: 'identifier', value }` and
`{ type: 'binary_operation', operator, left, right }`.  The parser builds the
last three only; the optimizer's folded values use `number`, `identifier` and
`binary_operation`. -/
inductive Node where
  | number (v : JSNum)
  | number_literal (value : Nat)
  | identifier (value : String)
  | binary_operation (operator : String) (left right : Node)
  deriving DecidableEq, Repr

/-- Statement nodes `{ type: 'assignment', identifier, expression }`,
`{ type: 'print', expression }` and `{ type: 'if', condition, thenBlock }`. -/
inductive Stmt where
  | assignment (identifier : String) (expression : Node)
  | print (expression : Node)
  | if_ (condition : Node) (thenBlock : List Stmt)
  deriving Repr

mutual
/-- Decidable equality of statements. -/
def Stmt.decEq : (a b : Stmt) → Decidable (a = b)
  | .assignment i e, .assignment i2 e2 =>
    if h : i = i2 ∧ e = e2 then isTrue (by rw [h.1, h.2])
    else isFalse (by intro h2; cases h2; exact h ⟨rfl, rfl⟩)
  | .print e, .print e2 =>
    if h : e = e2 then isTrue (by rw [h]) else isFalse (by intro h2; cases h2; exact h rfl)
  | .if_ c b, .if_ c2 b2 =>
    match Stmt.decEqList b b2 with
    | isTrue hb =>
      if h : c = c2 then isTrue (by rw [h, hb])
      else isFalse (by intro h2; cases h2; exact h rfl)
    | isFalse hb => isFalse (by intro h2; cases h2; exact hb rfl)
  | .assignment _ _, .print _ => isFalse (by intro h; cases h)
  | .assignment _ _, .if_ _ _ => isFalse (by intro h; cases h)
  | .print _, .assignment _ _ => isFalse (by intro h; cases h)
  | .print _, .if_ _ _ => isFalse (by intro h; cases h)
  | .if_ _ _, .assignment _ _ => isFalse (by intro h; cases h)
  | .if_ _ _, .print _ => isFalse (by intro h; cases h)
/-- Decidable equality of statement lists. -/
def Stmt.decEqList : (a b : List Stmt) → Decidable (a = b)
  | [], [] => isTrue rfl
  | [], _ :: _ => isFalse (by intro h; cases h)
  | _ :: _, [] => isFalse (by intro h; cases h)
  | a :: as, b :: bs =>
    match Stmt.decEq a b, Stmt.decEqList as bs with
    | isTrue h1, isTrue h2 => isTrue (by rw [h1, h2])
    | isFalse h1, _ => isFalse (by intro h; cases h; exact h1 rfl)
    | _, isFalse h2 => isFalse (by intro h; cases h; exact h2 rfl)
end

instance : DecidableEq Stmt := Stmt.decEq

/-- The text `parseInt` is applied to is the value of a `NUMBER` token, which
starts with a digit: the result is the number written by its leading digits. -/
def parseInt (text : String) : Nat :=
  (text.toList.takeWhile isDigitChar).foldl (fun acc c => 10 * acc + (c.toNat - '0'.toNat)) 0

/-- What `consume` reports as found: the token, or `end of input`. -/
def describeFound (token : Option Token) : String :=
  match token with
  | some t => "'" ++ t.type.text ++ "' with value '" ++ t.value ++ "'"
  | none => "end of input"

/-- The message of the error thrown by `consume(type, value)`. -/
def consumeMessage (type : TokenType) (value : Option String) (token : Option Token) : String :=
  "Expected token type '" ++ type.text ++ "'" ++
    (match value with
     | some v => if v.isEmpty then "" else " with value '" ++ v ++ "'"
     | none => "") ++
    ", but got " ++ describeFound token

/-- The function `consume(type, value = null)` on the tokens from
`currentTokenIndex` on: the consumed token and the remaining tokens. -/
def consume (type : TokenType) (value : Option String) (tokens : List Token) :
    Run (Token × List Token) :=
  match tokens with
  | [] => .thrown (.Error (consumeMessage type value none))
  | token :: rest =>
    if token.type ≠ type ∨ (value ≠ none ∧ some token.value ≠ value) then
      .thrown (.Error (consumeMessage type value (some token)))
    else .ok (token, rest)

/-- The `type` of `peek()` as text, or `end of input`. -/
def describePeek (tokens : List Token) : String :=
  match tokens with
  | [] => "end of input"
  | t :: _ => t.type.text

/-- The loop condition of `parseExpression`: the next token is `+` or `-`. -/
def isAdditive (tokens : List Token) : Bool :=
  match tokens with
  | [] => false
  | t :: _ => t.type = .OPERATOR && (t.value = "+" || t.value = "-")

/-- The loop condition of `parseTerm`: the next token is `*` or `/`. -/
def isMultiplicative (tokens : List Token) : Bool :=
  match tokens with
  | [] => false
  | t :: _ => t.type = .OPERATOR && (t.value = "*" || t.value = "/")

/-- The branch test of `parseStatement` for an assignment: an identifier
followed by the operator `=`. -/
def startsAssignment (tokens : List Token) : Bool :=
  match tokens with
  | t :: t1 :: _ => t.type = .IDENTIFIER && t1.type = .OPERATOR && t1.value = "="
  | _ => false

/-- The test `peek() && peek().type === 'KEYWORD' && peek().value === word`. -/
def startsKeyword (word : String) (tokens : List Token) : Bool :=
  match tokens with
  | [] => false
  | t :: _ => t.type = .KEYWORD && t.value = word

/-- The message of the `TypeError` raised when `peek().type` is evaluated at
the end of the input. -/
def undefinedTypeMessage : String := "Cannot read properties of undefined (reading 'type')"

mutual
/-- The function `parseExpression()`. -/
def parseExpression : Nat → List Token → Run (Node × List Token)
  | 0, _ => .outOfFuel
  | fuel + 1, tokens =>
    (parseTerm fuel tokens).andThen fun r => parseExpressionLoop fuel r.1 r.2
/-- The `while` loop of `parseExpression`, entered with the current `left`. -/
def parseExpressionLoop : Nat → Node → List Token → Run (Node × List Token)
  | 0, _, _ => .outOfFuel
  | fuel + 1, left, tokens =>
    if isAdditive tokens then
      (consume .OPERATOR none tokens).andThen fun op =>
      (parseTerm fuel op.2).andThen fun r =>
      parseExpressionLoop fuel (.binary_operation op.1.value left r.1) r.2
    else .ok (left, tokens)
/-- The function `parseTerm()`. -/
def parseTerm : Nat → List Token → Run (Node × List Token)
  | 0, _ => .outOfFuel
  | fuel + 1, tokens =>
    (parseFactor fuel tokens).andThen fun r => parseTermLoop fuel r.1 r.2
/-- The `while` loop of `parseTerm`, entered with the current `left`. -/
def parseTermLoop : Nat → Node → List Token → Run (Node × List Token)
  | 0, _, _ => .outOfFuel
  | fuel + 1, left, tokens =>
    if isMultiplicative tokens then
      (consume .OPERATOR none tokens).andThen fun op =>
      (parseFactor fuel op.2).andThen fun r =>
      parseTermLoop fuel (.binary_operation op.1.value left r.1) r.2
    else .ok (left, tokens)
/-- The function `parseFactor()`. -/
def parseFactor : Nat → List Token → Run (Node × List Token)
  | 0, _ => .outOfFuel
  | fuel + 1, tokens =>
    match tokens with
    | [] => .thrown (.Error ("Expected number, identifier or parentheses, but got " ++
        describePeek tokens))
    | t :: _ =>
      if t.type = .NUMBER then
        (consume .NUMBER none tokens).andThen fun c =>
        .ok (.number_literal (parseInt c.1.value), c.2)
      else if t.type = .IDENTIFIER then
        (consume .IDENTIFIER none tokens).andThen fun c => .ok (.identifier c.1.value, c.2)
      else if t.type = .PUNCTUATION ∧ t.value = "(" then
        (consume .PUNCTUATION (some "(") tokens).andThen fun c1 =>
        (parseExpression fuel c1.2).andThen fun e =>
        (consume .PUNCTUATION (some ")") e.2).andThen fun c2 => .ok (e.1, c2.2)
      else .thrown (.Error ("Expected number, identifier or parentheses, but got " ++
        describePeek tokens))
end

mutual
/-- The function `parseStatement()`. -/
def parseStatement : Nat → List Token → Run (Stmt × List Token)
  | 0, _ => .outOfFuel
  | fuel + 1, tokens =>
    if startsAssignment tokens then
      (consume .IDENTIFIER none tokens).andThen fun c1 =>
      (consume .OPERATOR (some "=") c1.2).andThen fun c2 =>
      (parseExpression fuel c2.2).andThen fun e =>
      (consume .PUNCTUATION (some ";") e.2).andThen fun c3 =>
      .ok (.assignment c1.1.value e.1, c3.2)
    else if startsKeyword "print" tokens then
      (consume .KEYWORD (some "print") tokens).andThen fun c1 =>
      (consume .PUNCTUATION (some "(") c1.2).andThen fun c2 =>
      (parseExpression fuel c2.2).andThen fun e =>
      (consume .PUNCTUATION (some ")") e.2).andThen fun c3 =>
      (consume .PUNCTUATION (some ";") c3.2).andThen fun c4 =>
      .ok (.print e.1, c4.2)
    else if startsKeyword "if" tokens then
      (consume .KEYWORD (some "if") tokens).andThen fun c1 =>
      (consume .PUNCTUATION (some "(") c1.2).andThen fun c2 =>
      (parseExpression fuel c2.2).andThen fun e =>
      (consume .PUNCTUATION (some ")") e.2).andThen fun c3 =>
      (consume .PUNCTUATION (some "\x7b") c3.2).andThen fun c4 =>
      (parseBlock fuel [] c4.2).andThen fun b =>
      (consume .PUNCTUATION (some "\x7d") b.2).andThen fun c5 =>
      .ok (.if_ e.1 b.1, c5.2)
    else .thrown (.Error ("Could not parse statement starting with " ++ describePeek tokens))
/-- The `while` loop of `parseBlock()`, entered with the `statements` pushed so
far.  Its condition is
`peek() && peek().type !== 'PUNCTUATION' || (peek().type === 'PUNCTUATION' && peek().value !== '}')`:
at the end of the input the left operand of `||` is `undefined`, so the right
operand is evaluated and reading `peek().type` raises a `TypeError`. -/
def parseBlock : Nat → List Stmt → List Token → Run (List Stmt × List Token)
  | 0, _, _ => .outOfFuel
  | fuel + 1, statements, tokens =>
    match tokens with
    | [] => .thrown (.TypeError undefinedTypeMessage)
    | t :: _ =>
      if t.type ≠ .PUNCTUATION ∨ (t.type = .PUNCTUATION ∧ t.value ≠ "\x7d") then
        (parseStatement fuel tokens).andThen fun s =>
        parseBlock fuel (statements ++ [s.1]) s.2
      else .ok (statements, tokens)
end

/-- The top-level loop `while (currentTokenIndex < tokens.length)` of `parse`,
entered with the statements pushed to `program` so far. -/
def parseProgram : Nat → List Stmt → List Token → Run (List Stmt)
  | 0, _, _ => .outOfFuel
  | fuel + 1, program, tokens =>
    match tokens with
    | [] => .ok program
    | _ :: _ =>
      (parseStatement fuel tokens).andThen fun s => parseProgram fuel (program ++ [s.1]) s.2

/-- Recursion depth granted to the parser on `tokens`. -/
def parseFuel (tokens : List Token) : Nat := 4 * tokens.length + 8

/-- The function `parse(tokens)`. -/
def parse (tokens : List Token) : Run (List Stmt) :=
  parseProgram (parseFuel tokens) [] tokens

/-- Tokenize, then parse: the first two stages of the pipeline. -/
def parseSource (code : String) : Run (List Stmt) :=
  (tokenize code).andThen parse

/-! ## JavaScript numbers -/

/-- Position of the leading binary digit of `n`, found by at most `fuel`
halvings (`0` for `n ≤ 1`). -/
def log2Within : Nat → Nat → Nat
  | 0, _ => 0
  | fuel + 1, n => if n < 2 then 0 else log2Within fuel (n / 2) + 1

/-- The integer part of the binary logarithm of `n`. -/
def floorLog2 (n : Nat) : Nat := log2Within n n

/-- The integer `n` rounded to the nearest double, ties to the even
significand: the result of an arithmetic operation whose exact value is `n`.
Integers below `2^53` are doubles; above, one keeps 53 significant bits. -/
def roundNat (n : Nat) : Nat :=
  let e := floorLog2 n - 52
  let m0 := n / 2 ^ e
  let rem := n % 2 ^ e
  let m := if 2 ^ e < 2 * rem ∨ (2 * rem = 2 ^ e ∧ m0 % 2 = 1) then m0 + 1 else m0
  m * 2 ^ e

/-- The quotient `a / b` of two positive integers rounded to the nearest
double, ties to the even significand, as the operator `/` computes it: the
result `(m, up, down)` stands for the double `m * 2^up / 2^down`, where `m` is
the significand (53 bits) of the rounded quotient and one of the two shifts is
zero. -/
def roundQuotient (a b : Nat) : Nat × Nat × Nat :=
  let la := floorLog2 a
  let lb := floorLog2 b
  let d := if b * 2 ^ (la - lb) ≤ a * 2 ^ (lb - la) then lb + 52 else lb + 53
  let num := a * 2 ^ (d - la)
  let den := b * 2 ^ (la - d)
  let m0 := num / den
  let rem := num % den
  let m := if den < 2 * rem ∨ (2 * rem = den ∧ m0 % 2 = 1) then m0 + 1 else m0
  (m, la - d, d - la)

/-- The value `Math.floor(a / b)` for positive integers `a`, `b`: the floor of
the rounded quotient. -/
def quotientFloor (a b : Nat) : Nat :=
  let r := roundQuotient a b
  r.1 * 2 ^ r.2.1 / 2 ^ r.2.2

/-- The value `-Math.floor(-(a / b))` for positive integers `a`, `b`: the
ceiling of the rounded quotient. -/
def quotientCeil (a b : Nat) : Nat :=
  let r := roundQuotient a b
  (r.1 * 2 ^ r.2.1 + 2 ^ r.2.2 - 1) / 2 ^ r.2.2

namespace JSNum

/-- The number with integer value `i` (`+0` for `i = 0`). -/
def ofInt (i : Int) : JSNum := .fin (decide (i < 0)) i.natAbs

/-- The number with value `n`. -/
def ofNat (n : Nat) : JSNum := .fin false n

/-- The integer value of a finite number (`0` for both zeros). -/
def toInt? : JSNum → Option Int
  | .fin neg mag => some (if neg then -(mag : Int) else (mag : Int))
  | _ => none

/-- The number of sign `neg` whose exact magnitude is `n`, rounded to a double;
a magnitude that rounds to `2^1024` or more gives an infinity. -/
def rounded (neg : Bool) (n : Nat) : JSNum :=
  if 2 ^ 1024 ≤ roundNat n then .inf neg else .fin neg (roundNat n)

/-- Unary minus (used by subtraction). -/
def negate : JSNum → JSNum
  | .fin neg mag => .fin (!neg) mag
  | .inf neg => .inf (!neg)
  | .nan => .nan

/-- The operator `+` on numbers. -/
def add : JSNum → JSNum → JSNum
  | .nan, _ => .nan
  | _, .nan => .nan
  | .inf s, .inf t => if s = t then .inf s else .nan
  | .inf s, .fin _ _ => .inf s
  | .fin _ _, .inf t => .inf t
  | .fin s a, .fin t b =>
    let r : Int := (if s then -(a : Int) else a) + (if t then -(b : Int) else b)
    if r = 0 then .fin (s && t) 0 else rounded (decide (r < 0)) r.natAbs

/-- The operator `-` on numbers. -/
def sub (x y : JSNum) : JSNum := add x (negate y)

/-- The operator `*` on numbers. -/
def mul : JSNum → JSNum → JSNum
  | .nan, _ => .nan
  | _, .nan => .nan
  | .inf s, .inf t => .inf (xor s t)
  | .inf s, .fin t b => if b = 0 then .nan else .inf (xor s t)
  | .fin s a, .inf t => if a = 0 then .nan else .inf (xor s t)
  | .fin s a, .fin t b => rounded (xor s t) (a * b)

/-- The expression `Math.floor(left / right)`: the quotient, rounded to a
double by `/`, then rounded toward negative infinity by `Math.floor`; a zero
divisor gives an infinity, or `NaN` for `0 / 0`. -/
def floorDiv : JSNum → JSNum → JSNum
  | .nan, _ => .nan
  | _, .nan => .nan
  | .inf _, .inf _ => .nan
  | .inf s, .fin t _ => .inf (xor s t)
  | .fin s _, .inf t => .fin (xor s t) 0
  | .fin s a, .fin t b =>
    if b = 0 then (if a = 0 then .nan else .inf (xor s t))
    else if a = 0 then .fin (xor s t) 0
    else if s = t then .fin false (quotientFloor a b)
    else .fin true (quotientCeil a b)

/-- The comparison `left === right` on numbers. -/
def strictEq : JSNum → JSNum → Bool
  | .fin s a, .fin t b => a = b && (a = 0 || s = t)
  | .inf s, .inf t => s = t
  | _, _ => false

/-- The comparison `left < right` on numbers. -/
def lt : JSNum → JSNum → Bool
  | .nan, _ => false
  | _, .nan => false
  | .inf s, .inf t => s && !t
  | .inf s, .fin _ _ => s
  | .fin _ _, .inf t => !t
  | .fin s a, .fin t b =>
    decide ((if s then -(a : Int) else a) < (if t then -(b : Int) else b))

/-- The comparison `left <= right` on numbers. -/
def le (x y : JSNum) : Bool := lt x y || strictEq x y

/-- Truthiness of a number in a condition: `0`, `-0` and `NaN` are falsy. -/
def truthy : JSNum → Bool
  | .fin _ mag => mag ≠ 0
  | .inf _ => true
  | .nan => false

/-- The conversion of a number to a string, as done by `toString()` and by
template literals. -/
def toString : JSNum → String
  | .fin neg mag => if mag = 0 then "0" else (if neg then "-" else "") ++ Nat.repr mag
  | .inf neg => if neg then "-Infinity" else "Infinity"
  | .nan => "NaN"

/-- The numbers `1` and `0` produced by the comparison cases. -/
def ofBool (b : Bool) : JSNum := if b then ofNat 1 else ofNat 0

end JSNum

/-! ## Optimizer (`optimizer_js.js`) -/

/-- The variables of `optimize` that its inner functions share. -/
structure OptState where
  optimizedCode : String
  symbolTable : List (String × Node)
  usedVariables : List String
  expressionCache : List (String × Node)
  deriving DecidableEq, Repr

/-- The state at the start of `optimize`. -/
def OptState.initial : OptState :=
  { optimizedCode := "", symbolTable := [], usedVariables := [], expressionCache := [] }

/-- Reading `table[key]` / `map.get(key)`: the most recent binding of `key`. -/
def lookupKey (key : String) (table : List (String × Node)) : Option Node :=
  match table with
  | [] => none
  | (k, v) :: more => if k = key then some v else lookupKey key more

/-- Writing `table[key] = value` / `map.set(key, value)`. -/
def setKey (key : String) (value : Node) (table : List (String × Node)) :
    List (String × Node) :=
  (key, value) :: table

/-- The call `usedVariables.add(name)`: a set in insertion order. -/
def addUsed (name : String) (used : List String) : List String :=
  if name ∈ used then used else used ++ [name]

/-- The function `getExpressionKey(node)`.  A `number_literal` node reaches the
last line, `JSON.stringify(node)`. -/
def getExpressionKey : Node → String
  | .number v => v.toString
  | .identifier value => value
  | .binary_operation operator left right =>
    "(" ++ getExpressionKey left ++ operator ++ getExpressionKey right ++ ")"
  | .number_literal value =>
    "\x7b\"type\":\"number_literal\",\"value\":" ++ Nat.repr value ++ "\x7d"

/-- The `switch (node.operator)` of `fullEvaluate` for two numeric operands. -/
def foldBinary (operator : String) (left right : JSNum) : Node :=
  if operator = "+" then .number (left.add right)
  else if operator = "-" then .number (left.sub right)
  else if operator = "*" then .number (left.mul right)
  else if operator = "/" then .number (left.floorDiv right)
  else if operator = "==" then .number (JSNum.ofBool (left.strictEq right))
  else if operator = "!=" then .number (JSNum.ofBool (!left.strictEq right))
  else if operator = "<" then .number (JSNum.ofBool (left.lt right))
  else if operator = ">" then .number (JSNum.ofBool (right.lt left))
  else if operator = "<=" then .number (JSNum.ofBool (left.le right))
  else if operator = ">=" then .number (JSNum.ofBool (right.le left))
  else .binary_operation operator (.number left) (.number right)

/-- The result of a binary operation whose operands evaluated to `left` and
`right`: folded when both are numbers, rebuilt otherwise. -/
def combine (operator : String) (left right : Node) : Node :=
  match left, right with
  | .number a, .number b => foldBinary operator a b
  | _, _ => .binary_operation operator left right

/-- The function `fullEvaluate(node)`; the fuel bounds the depth of the
recursion. -/
def fullEvaluate : Nat → Node → OptState → Run (Node × OptState)
  | 0, _, _ => .outOfFuel
  | fuel + 1, node, st =>
    let exprKey := getExpressionKey node
    match lookupKey exprKey st.expressionCache with
    | some cached => .ok (cached, st)
    | none =>
      let computed : Run (Node × OptState) :=
        match node with
        | .number_literal value => .ok (.number (JSNum.ofNat value), st)
        | .identifier value =>
          let st1 := { st with usedVariables := addUsed value st.usedVariables }
          match lookupKey value st1.symbolTable with
          | some bound => fullEvaluate fuel bound st1
          | none => .ok (node, st1)
        | .binary_operation operator left right =>
          (fullEvaluate fuel left st).andThen fun l =>
          (fullEvaluate fuel right l.2).andThen fun r =>
          .ok (combine operator l.1 r.1, r.2)
        | .number _ => .ok (node, st)
      computed.andThen fun res =>
        .ok (res.1, { res.2 with expressionCache := setKey exprKey res.1 res.2.expressionCache })

mutual
/-- The function `analyzeUsage(node)` (first pass). -/
def analyzeUsage (fuel : Nat) : Stmt → OptState → Run OptState
  | .assignment identifier expression, st =>
    (fullEvaluate fuel expression st).andThen fun v =>
    .ok { v.2 with symbolTable := setKey identifier v.1 v.2.symbolTable }
  | .print expression, st =>
    (fullEvaluate fuel expression st).andThen fun v => .ok v.2
  | .if_ condition thenBlock, st =>
    (fullEvaluate fuel condition st).andThen fun c =>
    match c.1 with
    | .number n => if n.truthy then analyzeUsageEach fuel thenBlock c.2 else .ok c.2
    | _ => analyzeUsageEach fuel thenBlock c.2
/-- The call `block.forEach(analyzeUsage)`. -/
def analyzeUsageEach (fuel : Nat) : List Stmt → OptState → Run OptState
  | [], st => .ok st
  | s :: more, st => (analyzeUsage fuel s st).andThen fun st1 => analyzeUsageEach fuel more st1
end

/-- What `formatExpression` returns: a number or a string. -/
inductive Formatted where
  | number (v : JSNum)
  | text (s : String)
  deriving DecidableEq, Repr

/-- Conversion of a formatted value inside a template literal. -/
def Formatted.toString : Formatted → String
  | .number v => v.toString
  | .text s => s

/-- The function `formatExpression(expr)`. -/
def formatExpression (st : OptState) : Node → Formatted
  | .number v => .number v
  | .identifier value =>
    match lookupKey value st.symbolTable with
    | some (.number v) => .number v
    | _ => .text value
  | .binary_operation operator left right =>
    match lookupKey (getExpressionKey (.binary_operation operator left right))
        st.expressionCache with
    | some (.number cachedValue) => .number cachedValue
    | _ =>
      let l := formatExpression st left
      let r := formatExpression st right
      match l, r with
      | .number a, .number b =>
        if operator = "+" then .number (a.add b)
        else if operator = "-" then .number (a.sub b)
        else if operator = "*" then .number (a.mul b)
        else if operator = "/" then .number (a.floorDiv b)
        else .text (l.toString ++ " " ++ operator ++ " " ++ r.toString)
      | _, _ => .text (l.toString ++ " " ++ operator ++ " " ++ r.toString)
  | .number_literal _ => .text ""

/-- Appending `text` to `optimizedCode`. -/
def emit (text : String) (st : OptState) : OptState :=
  { st with optimizedCode := st.optimizedCode ++ text }

mutual
/-- The function `generateOptimizedCode(node)` (second pass). -/
def generateOptimizedCode (fuel : Nat) : Stmt → OptState → Run OptState
  | .assignment identifier expression, st =>
    (fullEvaluate fuel expression st).andThen fun v =>
    if identifier ∈ v.2.usedVariables then
      match v.1 with
      | .number n => .ok (emit (identifier ++ " = " ++ n.toString ++ ";\n") v.2)
      | value =>
        .ok (emit (identifier ++ " = " ++ (formatExpression v.2 value).toString ++ ";\n") v.2)
    else .ok v.2
  | .print expression, st =>
    (fullEvaluate fuel expression st).andThen fun v =>
    match v.1 with
    | .number n => .ok (emit ("print(" ++ n.toString ++ ");\n") v.2)
    | .identifier name =>
      match lookupKey name v.2.symbolTable with
      | some (.number idValue) => .ok (emit ("print(" ++ idValue.toString ++ ");\n") v.2)
      | _ => .ok (emit ("print(" ++ name ++ ");\n") v.2)
    | value => .ok (emit ("print(" ++ (formatExpression v.2 value).toString ++ ");\n") v.2)
  | .if_ condition thenBlock, st =>
    (fullEvaluate fuel condition st).andThen fun c =>
    match c.1 with
    | .number n => if n.truthy then generateOptimizedCodeEach fuel thenBlock c.2 else .ok c.2
    | cond =>
      (generateOptimizedCodeEach fuel thenBlock
        (emit ("if (" ++ (formatExpression c.2 cond).toString ++ ") \x7b\n") c.2)).andThen
        fun st1 => .ok (emit "\x7d\n" st1)
/-- The call `block.forEach(generateOptimizedCode)`. -/
def generateOptimizedCodeEach (fuel : Nat) : List Stmt → OptState → Run OptState
  | [], st => .ok st
  | s :: more, st =>
    (generateOptimizedCode fuel s st).andThen fun st1 => generateOptimizedCodeEach fuel more st1
end

/-- Number of nodes of an expression. -/
def Node.size : Node → Nat
  | .binary_operation _ left right => left.size + right.size + 1
  | _ => 1

mutual
/-- Number of nodes of a statement, expressions included. -/
def Stmt.size : Stmt → Nat
  | .assignment _ expression => expression.size + 1
  | .print expression => expression.size + 1
  | .if_ condition thenBlock => condition.size + 1 + programSize thenBlock
/-- Number of nodes of a list of statements. -/
def programSize : List Stmt → Nat
  | [] => 0
  | s :: more => s.size + programSize more
end

/-- The object returned by `optimize`. -/
structure OptResult where
  optimizedCode : String
  symbolTable : List (String × Node)
  usedVariables : List String
  deriving DecidableEq, Repr

/-- The body of `optimize(ast)` with the recursion depth of `fullEvaluate`
bounded by `fuel`: both passes, then the returned object. -/
def optimizeWith (fuel : Nat) (ast : List Stmt) : Run OptResult :=
  (analyzeUsageEach fuel ast OptState.initial).andThen fun st1 =>
  (generateOptimizedCodeEach fuel ast st1).andThen fun st2 =>
  .ok { optimizedCode := st2.optimizedCode, symbolTable := st2.symbolTable,
        usedVariables := st2.usedVariables }

/-- Recursion depth granted to `fullEvaluate` while optimizing `ast`. -/
def optimizeFuel (ast : List Stmt) : Nat := programSize ast + 2

/-- The function `optimize(ast)`. -/
def optimize (ast : List Stmt) : Run OptResult := optimizeWith (optimizeFuel ast) ast

/-- Tokenize, parse, optimize: the optimized text of a source text. -/
def optimizeSource (code : String) : Run OptResult :=
  (parseSource code).andThen optimize


/-- Successive matches: `Scans input ms rest` holds when the loop of `tokenize`,
started on `input`, matches the objects `ms` one after the other and then
stands before `rest`. -/
inductive Scans : List Char → List Token → List Char → Prop where
  | done (input : List Char) : Scans input [] input
  | step {input : List Char} {m : Token} {ms : List Token} {rest : List Char} :
      firstMatch input = some m → Scans (input.drop m.value.length) ms rest →
      Scans input (m :: ms) rest

/-- Total length of the texts of `ms`. -/
def matchedLength (ms : List Token) : Nat := (ms.map fun m => m.value.length).sum

/-- What `tokenize` pushes for the matches `ms`: those that are not white
space. -/
def keptTokens (ms : List Token) : List Token :=
  ms.filter fun m => m.type ≠ .WHITESPACE

/-- `CacheExtends c c2`: every binding that `c` has, `c2` has too. -/
def CacheExtends (c c2 : List (String × Node)) : Prop :=
  ∀ k v, lookupKey k c = some v → lookupKey k c2 = some v

/-- The identifier names at the leaves of an expression. -/
def Node.identifiers : Node → List String
  | .identifier value => [value]
  | .binary_operation _ left right => left.identifiers ++ right.identifiers
  | _ => []

/-- Every identifier leaf of `node` has an entry in `cache`. -/
def LeavesCached (cache : List (String × Node)) (node : Node) : Prop :=
  ∀ y ∈ node.identifiers, lookupKey y cache ≠ none

/-- The invariant behind termination: every value stored in the symbol table
or in the expression cache has all its identifier leaves in the cache. -/
def StoredLeavesCached (st : OptState) : Prop :=
  (∀ p ∈ st.symbolTable, LeavesCached st.expressionCache p.2) ∧
  (∀ p ∈ st.expressionCache, LeavesCached st.expressionCache p.2)

/-- The part of `fullEvaluate` between the cache lookup and the final
`expressionCache.set`: the chain of `if`s on `node.type`, with the recursive
calls made at depth `fuel`. -/
def evaluateMiss (fuel : Nat) (node : Node) (st : OptState) : Run (Node × OptState) :=
  match node with
  | .number_literal value => .ok (.number (JSNum.ofNat value), st)
  | .identifier value =>
    match lookupKey value st.symbolTable with
    | some bound => fullEvaluate fuel bound { st with usedVariables := addUsed value st.usedVariables }
    | none => .ok (node, { st with usedVariables := addUsed value st.usedVariables })
  | .binary_operation operator left right =>
    (fullEvaluate fuel left st).andThen fun l =>
    (fullEvaluate fuel right l.2).andThen fun r =>
    .ok (combine operator l.1 r.1, r.2)
  | .number _ => .ok (node, st)

/-- The final `expressionCache.set(exprKey, result)` of `fullEvaluate`. -/
def storeResult (node : Node) (res : Node × OptState) : Node × OptState :=
  (res.1, { res.2 with
            expressionCache := setKey (getExpressionKey node) res.1 res.2.expressionCache })

/-! ## The shape of the optimized text -/

/-- One word of the text `formatExpression` returns: a number, the name of an
identifier node, an operator, or the empty text written for a node of any
other type. -/
inductive Word where
  | number (v : JSNum)
  | name (value : String)
  | operator (value : String)
  | empty
  deriving DecidableEq, Repr

/-- The text of a word. -/
def Word.text : Word → String
  | .number v => v.toString
  | .name value => value
  | .operator value => value
  | .empty => ""

/-- Words separated by single spaces. -/
def joinWords : List String → String
  | [] => ""
  | [w] => w
  | w :: w2 :: more => w ++ " " ++ joinWords (w2 :: more)

/-- The words of the text that `formatExpression` returns, in order:
`formatExpression` with each template `left operator right` kept as a list
instead of being concatenated. -/
def formatWords (st : OptState) : Node → List Word
  | .number v => [.number v]
  | .identifier value =>
    match lookupKey value st.symbolTable with
    | some (.number v) => [.number v]
    | _ => [.name value]
  | .binary_operation operator left right =>
    match lookupKey (getExpressionKey (.binary_operation operator left right))
        st.expressionCache with
    | some (.number cachedValue) => [.number cachedValue]
    | _ =>
      match formatExpression st left, formatExpression st right with
      | .number a, .number b =>
        if operator = "+" then [.number (a.add b)]
        else if operator = "-" then [.number (a.sub b)]
        else if operator = "*" then [.number (a.mul b)]
        else if operator = "/" then [.number (a.floorDiv b)]
        else formatWords st left ++ [.operator operator] ++ formatWords st right
      | _, _ => formatWords st left ++ [.operator operator] ++ formatWords st right
  | .number_literal _ => [.empty]

/-- The names among a list of words. -/
def wordNames (words : List Word) : List String :=
  words.filterMap fun w => match w with
    | .name value => some value
    | _ => none

/-- A line of the optimized text, by the statement of `generateOptimizedCode`
that appends it. -/
inductive Line where
  | assign (identifier : String) (words : List Word)
  | print (words : List Word)
  | ifOpen (words : List Word)
  | close
  deriving DecidableEq, Repr

/-- The text of a line, newline included. -/
def Line.text : Line → String
  | .assign identifier words =>
    identifier ++ " = " ++ joinWords (words.map Word.text) ++ ";\n"
  | .print words => "print(" ++ joinWords (words.map Word.text) ++ ");\n"
  | .ifOpen words => "if (" ++ joinWords (words.map Word.text) ++ ") \x7b\n"
  | .close => "\x7d\n"

/-- The text of a list of lines. -/
def renderLines : List Line → String
  | [] => ""
  | l :: more => l.text ++ renderLines more

/-- The names a line reads: the names among its words. -/
def Line.reads : Line → List String
  | .assign _ words => wordNames words
  | .print words => wordNames words
  | .ifOpen words => wordNames words
  | .close => []

/-- Every identifier leaf of a value stored in the symbol table or in the
expression cache is in the used-variables set. -/
def StoredLeavesUsed (st : OptState) : Prop :=
  (∀ p ∈ st.symbolTable, ∀ y ∈ p.2.identifiers, y ∈ st.usedVariables) ∧
  (∀ p ∈ st.expressionCache, ∀ y ∈ p.2.identifiers, y ∈ st.usedVariables)

mutual
/-- The identifier names that occur in the expressions of a statement. -/
def Stmt.identifiers : Stmt → List String
  | .assignment _ expression => expression.identifiers
  | .print expression => expression.identifiers
  | .if_ condition thenBlock => condition.identifiers ++ programIdentifiers thenBlock
/-- The identifier names that occur in the expressions of a list of
statements. -/
def programIdentifiers : List Stmt → List String
  | [] => []
  | s :: more => s.identifiers ++ programIdentifiers more
end

/-- How the used-variables set changes from `st` to `st1` while expressions
with identifiers `e` are evaluated: the invariant holds afterwards, nothing is
removed, and only names of `e` are added. -/
def UsedStep (e : List String) (st st1 : OptState) : Prop :=
  StoredLeavesUsed st1 ∧ (∀ y ∈ st.usedVariables, y ∈ st1.usedVariables) ∧
  (∀ y ∈ st1.usedVariables, y ∈ st.usedVariables ∨ y ∈ e)


/-- A line as the second pass writes it: `}`, or a line whose words are what
`formatExpression` writes, in some state, for a value all of whose identifier
leaves are in `used`; an assignment line moreover assigns an identifier that is
in `used`. -/
def Line.WrittenFor (used : List String) (l : Line) : Prop :=
  l = .close ∨
  ∃ (vst : OptState) (v : Node), (∀ y ∈ v.identifiers, y ∈ used) ∧
    ((∃ identifier, identifier ∈ used ∧ l = .assign identifier (formatWords vst v)) ∨
      l = .print (formatWords vst v) ∨ l = .ifOpen (formatWords vst v))

/-- What the second pass appends between `st` and `st1`: the text of `lines`,
each written for the used-variables set of `st1`. -/
def Appends (lines : List Line) (st st1 : OptState) : Prop :=
  st1.optimizedCode = st.optimizedCode ++ renderLines lines ∧
  ∀ l ∈ lines, l.WrittenFor st1.usedVariables

/-! ## JavaScript string functions used by the code generator -/

/-- The method `s.split(sep)` for a one-character separator. -/
def splitChar (sep : Char) : List Char → List (List Char)
  | [] => [[]]
  | c :: cs =>
    if c = sep then [] :: splitChar sep cs
    else
      match splitChar sep cs with
      | [] => [[c]]
      | part :: parts => (c :: part) :: parts

/-- The method `s.trim()`: white space and line terminators are removed at both
ends. -/
def trimChars (s : List Char) : List Char :=
  ((s.dropWhile isSpaceChar).reverse.dropWhile isSpaceChar).reverse

/-- The method `s.trim()` on strings. -/
def jsTrim (s : String) : String := String.mk (trimChars s.toList)

/-- The method `s.substring(start, end)`: both indices are clamped to
`[0, s.length]` and swapped when the first is the larger one. -/
def jsSubstring (s : String) (start stop : Int) : String :=
  let a := min start.toNat s.length
  let b := min stop.toNat s.length
  String.mk ((s.toList.drop (min a b)).take (max a b - min a b))

/-- The method `s.startsWith(p)`. -/
def jsStartsWith (s p : String) : Bool := p.toList.isPrefixOf s.toList

/-- The method `s.includes(c)` for a one-character string. -/
def jsIncludes (s : String) (c : Char) : Bool := s.toList.contains c

/-- The method `s.replace(c, '')` for a one-character string: the first
occurrence is removed. -/
def removeFirst (c : Char) : List Char → List Char
  | [] => []
  | d :: ds => if d = c then ds else d :: removeFirst c ds

/-- The grammar `DecimalDigits ExponentPart?` once the digits before the
exponent have been read: nothing, or `e`/`E`, an optional sign and digits. -/
def isExponentPart (s : List Char) : Bool :=
  match s with
  | [] => true
  | c :: rest =>
    (c = 'e' || c = 'E') &&
      (match rest with
       | '+' :: ds => !ds.isEmpty && ds.all isDigitChar
       | '-' :: ds => !ds.isEmpty && ds.all isDigitChar
       | ds => !ds.isEmpty && ds.all isDigitChar)

/-- The grammar `StrUnsignedDecimalLiteral`:
`Infinity`, `digits . digits? exponent?`, `. digits exponent?`,
`digits exponent?`. -/
def isUnsignedDecimal (s : List Char) : Bool :=
  s = "Infinity".toList ||
  (let whole := s.takeWhile isDigitChar
   match s.drop whole.length with
   | '.' :: more =>
     let fraction := more.takeWhile isDigitChar
     (!whole.isEmpty || !fraction.isEmpty) && isExponentPart (more.drop fraction.length)
   | after => !whole.isEmpty && isExponentPart after)

/-- The grammar `NonDecimalIntegerLiteral`: `0b`, `0o` or `0x` (either case)
followed by at least one digit of that base. -/
def isNonDecimalInteger (s : List Char) : Bool :=
  match s with
  | '0' :: p :: ds =>
    !ds.isEmpty &&
      (((p = 'b' || p = 'B') && ds.all fun c => c = '0' || c = '1') ||
       ((p = 'o' || p = 'O') && ds.all fun c => '0' ≤ c && c ≤ '7') ||
       ((p = 'x' || p = 'X') && ds.all fun c =>
          isDigitChar c || ('a' ≤ c && c ≤ 'f') || ('A' ≤ c && c ≤ 'F')))
  | _ => false

/-- The call `isNaN(s)` on a string: `Number(s)` is `NaN` unless `s`, trimmed,
is empty or a `StrNumericLiteral`. -/
def jsIsNaN (s : String) : Bool :=
  let t := trimChars s.toList
  !(t.isEmpty || isNonDecimalInteger t ||
    (match t with
     | '+' :: u => isUnsignedDecimal u
     | '-' :: u => isUnsignedDecimal u
     | u => isUnsignedDecimal u))

/-! ## Code generator (`machine_code_js.js`) -/

/-- One line appended to `machineCode`, by the template that produces it.  The
destination of `LOAD`, of an arithmetic instruction and of `MOV` is the number
of the register: `registerCount`, or `0` for the `R0` of a `print` line. -/
inductive Instr where
  | LOAD (destination : Nat) (value : String)
  | PRINT (register : String)
  | ARITH (opcode : String) (destination : Nat) (left right : String)
  | MOV (destination : Nat) (source : String)
  | conditionComment (condition : String)
  | CMP (condition : String)
  | JZ (label : Nat)
  | blockComment
  | endLabel (label : Nat)
  deriving DecidableEq, Repr

/-- The text `R${n}`. -/
def registerName (n : Nat) : String := "R" ++ toString n

/-- The text of an appended line, newline included. -/
def Instr.text : Instr → String
  | .LOAD destination value => "LOAD " ++ registerName destination ++ ", " ++ value ++ "\n"
  | .PRINT register => "PRINT " ++ register ++ "\n"
  | .ARITH opcode destination left right =>
    opcode ++ " " ++ registerName destination ++ ", " ++ left ++ ", " ++ right ++ "\n"
  | .MOV destination source => "MOV " ++ registerName destination ++ ", " ++ source ++ "\n"
  | .conditionComment condition => "// Condition: " ++ condition ++ "\n"
  | .CMP condition => "CMP " ++ condition ++ "\n"
  | .JZ label => "JZ end_if_" ++ toString label ++ "\n"
  | .blockComment => "// If block starts\n"
  | .endLabel label => "end_if_" ++ toString label ++ ":\n"

/-- The register an instruction writes, if it writes one. -/
def Instr.destination? : Instr → Option Nat
  | .LOAD destination _ => some destination
  | .ARITH _ destination _ _ => some destination
  | .MOV destination _ => some destination
  | _ => none

/-- The local variables of `generateMachineCode`. -/
structure GenState where
  machineCode : List Instr
  registerCount : Nat
  symbolTable : List (String × String)
  deriving DecidableEq, Repr

/-- The state before the loop. -/
def GenState.initial : GenState := { machineCode := [], registerCount := 1, symbolTable := [] }

/-- The expression `symbolTable[name] || 'R0'`. -/
def registerOf (name : String) (table : List (String × String)) : String :=
  match table with
  | [] => "R0"
  | (k, r) :: more => if k = name then r else registerOf name more

/-- The `switch (operator)` that chooses the opcode; `opcode` stays `undefined`
for any other text. -/
def opcodeOf (operator : String) : String :=
  if operator = "+" then "ADD"
  else if operator = "-" then "SUB"
  else if operator = "*" then "MUL"
  else if operator = "/" then "DIV"
  else "undefined"

/-- The test `[+\-*/]` of the split pattern. -/
def isOperatorChar (c : Char) : Bool := c = '+' || c = '-' || c = '*' || c = '/'

/-- The first three elements of `cleanExpression.split(/([+\-*/])/)` for a text
that contains an operator: the text before the first operator, the operator,
and the text up to the next operator. -/
def splitOperator (s : List Char) : String × String × String :=
  let left := s.takeWhile fun c => !isOperatorChar c
  match s.drop left.length with
  | [] => (String.mk left, "", "")
  | op :: rest => (String.mk left, String.singleton op,
      String.mk (rest.takeWhile fun c => !isOperatorChar c))

/-- The branch of the loop body for a line with `line.startsWith('print')`. -/
def genPrint (st : GenState) (line : String) : GenState :=
  let value := jsSubstring line 6 ((line.length : Int) - 2)
  if !jsIsNaN value then
    { st with machineCode := st.machineCode ++ [.LOAD 0 value, .PRINT "R0"] }
  else
    { st with machineCode := st.machineCode ++ [.PRINT (registerOf value st.symbolTable)] }

/-- The branch of the loop body for a line with `line.includes('=')`. -/
def genAssign (st : GenState) (line : String) : GenState :=
  let parts := (splitChar '=' line.toList).map fun part => String.mk (trimChars part)
  let variableName := parts.headD ""
  let expression := (parts.drop 1).headD ""
  let cleanExpression := String.mk (removeFirst ';' expression.toList)
  if !jsIsNaN cleanExpression then
    { machineCode := st.machineCode ++ [.LOAD st.registerCount cleanExpression],
      symbolTable := (variableName, registerName st.registerCount) :: st.symbolTable,
      registerCount := st.registerCount + 1 }
  else if jsIncludes cleanExpression '+' || jsIncludes cleanExpression '-' ||
      jsIncludes cleanExpression '*' || jsIncludes cleanExpression '/' then
    let parts := splitOperator cleanExpression.toList
    let left := jsTrim parts.1
    let operator := jsTrim parts.2.1
    let right := jsTrim parts.2.2
    let leftRegister := if !jsIsNaN left then left else registerOf left st.symbolTable
    let rightRegister := if !jsIsNaN right then right else registerOf right st.symbolTable
    let st1 : GenState :=
      if !jsIsNaN left then
        { st with machineCode := st.machineCode ++ [.LOAD st.registerCount left],
                  registerCount := st.registerCount + 1 }
      else st
    let st2 : GenState :=
      if !jsIsNaN right then
        { st1 with machineCode := st1.machineCode ++ [.LOAD st1.registerCount right],
                   registerCount := st1.registerCount + 1 }
      else st1
    { machineCode := st2.machineCode ++
        [.ARITH (opcodeOf operator) st2.registerCount leftRegister rightRegister],
      symbolTable := (variableName, registerName st2.registerCount) :: st2.symbolTable,
      registerCount := st2.registerCount + 1 }
  else
    { machineCode := st.machineCode ++
        [.MOV st.registerCount (registerOf cleanExpression st.symbolTable)],
      symbolTable := (variableName, registerName st.registerCount) :: st.symbolTable,
      registerCount := st.registerCount + 1 }

/-- The branch of the loop body for a line with `line.startsWith('if')`. -/
def genIf (st : GenState) (line : String) : GenState :=
  let condition := jsTrim (jsSubstring line 3 ((line.length : Int) - 3))
  { st with
    machineCode := st.machineCode ++
      [.conditionComment condition, .CMP condition, .JZ st.registerCount, .blockComment,
       .endLabel st.registerCount],
    registerCount := st.registerCount + 1 }

/-- The body of the loop `for (const line of lines)`. -/
def genLine (st : GenState) (line : String) : GenState :=
  if jsStartsWith line "print" then genPrint st line
  else if jsIncludes line '=' then genAssign st line
  else if jsStartsWith line "if" then genIf st line
  else st

/-- The array `lines`: the text split at newlines, blank lines removed. -/
def codeLines (optimizedCode : String) : List String :=
  ((splitChar '\n' optimizedCode.toList).map String.mk).filter fun line =>
    jsTrim line ≠ ""

/-- The state after the loop over `lines`. -/
def genLines (st : GenState) (lines : List String) : GenState :=
  lines.foldl genLine st

/-- The listing `generateMachineCode` builds, line by line. -/
def machineInstructions (optimizedCode : String) : List Instr :=
  (genLines GenState.initial (codeLines optimizedCode)).machineCode

/-- The function `generateMachineCode(optimizedCode)`. -/
def generateMachineCode (optimizedCode : String) : String :=
  String.join ((machineInstructions optimizedCode).map Instr.text)

/-- The registers other than `R0` that a listing writes, in order. -/
def freshDestinations (listing : List Instr) : List Nat :=
  (listing.filterMap Instr.destination?).filter fun k => k ≠ 0

/-! ## The driver (`compiler_js.js`) -/

/-- A hexadecimal digit, lower case, as `JSON.stringify` writes it. -/
def hexDigitChar (n : Nat) : Char :=
  if n < 10 then Char.ofNat (48 + n) else Char.ofNat (87 + n)

/-- The escape `JSON.stringify` writes for a character inside a string. -/
def jsonEscape (c : Char) : List Char :=
  if c = '"' then ['\\', '"']
  else if c = '\\' then ['\\', '\\']
  else if c.toNat = 8 then ['\\', 'b']
  else if c.toNat = 12 then ['\\', 'f']
  else if c.toNat = 10 then ['\\', 'n']
  else if c.toNat = 13 then ['\\', 'r']
  else if c.toNat = 9 then ['\\', 't']
  else if c.toNat < 32 then
    ['\\', 'u', '0', '0', hexDigitChar (c.toNat / 16), hexDigitChar (c.toNat % 16)]
  else [c]

/-- The call `JSON.stringify(s)` for a string. -/
def jsonString (s : String) : String :=
  "\"" ++ String.mk (s.toList.flatMap jsonEscape) ++ "\""

/-- The call `JSON.stringify(v)` for a number: non-finite numbers give `null`. -/
def jsonNumber (v : JSNum) : String :=
  match v with
  | .fin _ _ => v.toString
  | _ => "null"

/-- Indentation of `n` spaces. -/
def spaces (n : Nat) : String := String.mk (List.replicate n ' ')

/-- Items separated by `,` and a newline, each one indented by `indent`. -/
def jsonItems (indent : Nat) : List String → String
  | [] => ""
  | [item] => spaces indent ++ item
  | item :: more => spaces indent ++ item ++ ",\n" ++ jsonItems indent more

/-- An object with the given properties (values already serialized), written
with a gap of two spaces at nesting depth `indent`. -/
def jsonObject (indent : Nat) (properties : List (String × String)) : String :=
  "\x7b\n" ++ jsonItems (indent + 2)
    (properties.map fun p => jsonString p.1 ++ ": " ++ p.2) ++ "\n" ++ spaces indent ++ "\x7d"

/-- An array of serialized elements, written with a gap of two spaces at nesting
depth `indent`. -/
def jsonArray (indent : Nat) (elements : List String) : String :=
  if elements.isEmpty then "[]"
  else "[\n" ++ jsonItems (indent + 2) elements ++ "\n" ++ spaces indent ++ "]"

/-- The serialization of a token object. -/
def jsonToken (indent : Nat) (t : Token) : String :=
  jsonObject indent [("type", jsonString t.type.text), ("value", jsonString t.value)]

/-- The serialization of an expression node. -/
def jsonNode (indent : Nat) : Node → String
  | .number v => jsonNumber v
  | .number_literal value =>
    jsonObject indent [("type", jsonString "number_literal"), ("value", Nat.repr value)]
  | .identifier value =>
    jsonObject indent [("type", jsonString "identifier"), ("value", jsonString value)]
  | .binary_operation operator left right =>
    jsonObject indent [("type", jsonString "binary_operation"),
      ("operator", jsonString operator), ("left", jsonNode (indent + 2) left),
      ("right", jsonNode (indent + 2) right)]

mutual
/-- The serialization of a statement node. -/
def jsonStmt (indent : Nat) : Stmt → String
  | .assignment identifier expression =>
    jsonObject indent [("type", jsonString "assignment"),
      ("identifier", jsonString identifier), ("expression", jsonNode (indent + 2) expression)]
  | .print expression =>
    jsonObject indent [("type", jsonString "print"),
      ("expression", jsonNode (indent + 2) expression)]
  | .if_ condition thenBlock =>
    jsonObject indent [("type", jsonString "if"),
      ("condition", jsonNode (indent + 2) condition),
      ("thenBlock", jsonArray (indent + 2) (jsonStmts (indent + 4) thenBlock))]
/-- The serializations of the statements of a list. -/
def jsonStmts (indent : Nat) : List Stmt → List String
  | [] => []
  | s :: more => jsonStmt indent s :: jsonStmts indent more
end

/-- The call `JSON.stringify(tokens, null, 2)`. -/
def jsonTokens (tokens : List Token) : String :=
  jsonArray 0 (tokens.map (jsonToken 2))

/-- The call `JSON.stringify(ast, null, 2)`. -/
def jsonAst (ast : List Stmt) : String := jsonArray 0 (jsonStmts 2 ast)

/-- The property `error.message`. -/
def Thrown.message : Thrown → String
  | .Error message => message
  | .TypeError message => message

/-- The `innerText` of the five output elements. -/
structure Display where
  tokensOutput : String
  astOutput : String
  optimizedOutput : String
  machineCodeOutput : String
  compilerOutput : String
  deriving DecidableEq, Repr

/-- The five elements after they have been cleared at the start of
`compileCode`. -/
def Display.cleared : Display :=
  { tokensOutput := "", astOutput := "", optimizedOutput := "", machineCodeOutput := "",
    compilerOutput := "" }

/-- The assignment in the `catch` block. -/
def Display.fail (d : Display) (e : Thrown) : Display :=
  { d with compilerOutput := "Compilation Error:\n" ++ e.message }

/-- The function `compileCode()`, as a function from the value of the input
element to the texts of the five output elements. -/
def compileCode (codeInput : String) : Run Display :=
  let sourceCode := jsTrim codeInput
  let d0 := Display.cleared
  match tokenize sourceCode with
  | .outOfFuel => .outOfFuel
  | .thrown e => .ok (d0.fail e)
  | .ok tokens =>
    let d1 := { d0 with tokensOutput := jsonTokens tokens }
    match parse tokens with
    | .outOfFuel => .outOfFuel
    | .thrown e => .ok (d1.fail e)
    | .ok ast =>
      let d2 := { d1 with astOutput := jsonAst ast }
      match optimize ast with
      | .outOfFuel => .outOfFuel
      | .thrown e => .ok (d2.fail e)
      | .ok optimizationResult =>
        let d3 := { d2 with optimizedOutput := optimizationResult.optimizedCode }
        let machineCode := generateMachineCode optimizationResult.optimizedCode
        let d4 := { d3 with machineCodeOutput := machineCode }
        .ok { d4 with compilerOutput := "Compilation Successful!" }

/-! ## Factors, as the parser reads them -/

/-- The tokens `tokens` are a factor with tree `a`: with enough recursion depth
`parseFactor` reads exactly `tokens` and returns `a`, whatever follows them. -/
def IsFactor (tokens : List Token) (a : Node) : Prop :=
  ∃ N, ∀ rest, parseFactor N (tokens ++ rest) = .ok (a, rest)

/-- An operator token. -/
def operatorToken (value : String) : Token := ⟨.OPERATOR, value⟩

/-- A punctuation token. -/
def punctuationToken (value : String) : Token := ⟨.PUNCTUATION, value⟩

/-! ## Expressions as the parser builds them -/

/-- The text of an `IDENTIFIER` token: it matches `[a-zA-Z_][a-zA-Z0-9_]*`. -/
def isIdentifierName (name : String) : Bool :=
  match name.toList with
  | [] => false
  | c :: cs => (c.isAlpha || c == '_') && cs.all isWordChar

/-- The operators `parseExpression` and `parseTerm` put into a tree. -/
def isArithmeticOperator (operator : String) : Bool :=
  operator = "+" || operator = "-" || operator = "*" || operator = "/"

/-- An expression as `parseExpression` builds it: number literals, identifiers
with the text of an `IDENTIFIER` token, and binary operations with one of the
operators `+`, `-`, `*`, `/`. -/
def Node.isParsed : Node → Bool
  | .number _ => false
  | .number_literal _ => true
  | .identifier value => isIdentifierName value
  | .binary_operation operator left right =>
    isArithmeticOperator operator && left.isParsed && right.isParsed

/-- The number written by a list of decimal digits (the value `parseInt`
computes). -/
def digitsValue (digits : List Char) : Nat :=
  digits.foldl (fun acc c => 10 * acc + (c.toNat - '0'.toNat)) 0

/-! ## Expressions over identifiers that are never assigned -/

/-- An integer of the safe range `±(2^53 - 1)`, in which `Number` arithmetic
is exact. -/
def isSafeInteger (v : Int) : Bool := decide (v.natAbs < 2 ^ 53)

/-- The value of a variable in an environment, the most recent assignment
first. -/
def lookupValue (name : String) : List (String × Int) → Option Int
  | [] => none
  | (k, v) :: more => if k = name then some v else lookupValue name more

/-- The standard meaning of the four operators on integers; `/` is floor
division and has no value for a zero divisor. -/
def applyOperator (operator : String) (a b : Int) : Option Int :=
  if operator = "+" then some (a + b)
  else if operator = "-" then some (a - b)
  else if operator = "*" then some (a * b)
  else if operator = "/" then (if b = 0 then none else some ⌊(a : ℚ) / b⌋)
  else none

/-- The value of an expression under the standard semantics, as long as every
value met is a safe integer; there is no value when a variable is read before
it is assigned or a divisor is zero.  A folded number stands for itself. -/
def Node.value (env : List (String × Int)) : Node → Option Int
  | .number v => v.toInt?.filter isSafeInteger
  | .number_literal n => (some (n : Int)).filter isSafeInteger
  | .identifier name => (lookupValue name env).filter isSafeInteger
  | .binary_operation operator left right =>
    match left.value env, right.value env with
    | some a, some b => (applyOperator operator a b).filter isSafeInteger
    | _, _ => none

mutual
/-- Standard execution of a statement from the environment `env`: the
environment afterwards and the integers printed. -/
def Stmt.run : Stmt → List (String × Int) → Option (List (String × Int) × List Int)
  | .assignment identifier expression, env =>
    match expression.value env with
    | some v => some ((identifier, v) :: env, [])
    | none => none
  | .print expression, env =>
    match expression.value env with
    | some v => some (env, [v])
    | none => none
  | .if_ condition thenBlock, env =>
    match condition.value env with
    | some v => if v = 0 then some (env, []) else runProgram thenBlock env
    | none => none
/-- Standard execution of a list of statements, in order. -/
def runProgram : List Stmt → List (String × Int) → Option (List (String × Int) × List Int)
  | [], env => some (env, [])
  | s :: more, env =>
    match s.run env with
    | some r1 =>
      match runProgram more r1.1 with
      | some r2 => some (r2.1, r1.2 ++ r2.2)
      | none => none
    | none => none
end

mutual
/-- Every expression of the statement is one the parser builds. -/
def Stmt.isParsed : Stmt → Bool
  | .assignment _ expression => expression.isParsed
  | .print expression => expression.isParsed
  | .if_ condition thenBlock => condition.isParsed && programParsed thenBlock
/-- Every expression of the program is one the parser builds. -/
def programParsed : List Stmt → Bool
  | [] => true
  | s :: more => s.isParsed && programParsed more
end

mutual
/-- The targets of the assignment statements of a statement, nested ones
included. -/
def Stmt.assigned : Stmt → List String
  | .assignment identifier _ => [identifier]
  | .print _ => []
  | .if_ _ thenBlock => programAssigned thenBlock
/-- The targets of the assignment statements of a program. -/
def programAssigned : List Stmt → List String
  | [] => []
  | s :: more => s.assigned ++ programAssigned more
end

/-- A node `fullEvaluate` is applied to: an expression of the program, or a
folded number taken from the symbol table. -/
def Node.isOperand : Node → Bool
  | .number _ => true
  | .number_literal _ => true
  | .identifier value => isIdentifierName value
  | .binary_operation operator left right =>
    isArithmeticOperator operator && left.isParsed && right.isParsed

/-- The optimizer state agrees with the environment `env` of the standard
semantics: every variable of `env` is bound to a number with its value, and
every cache entry holds a number with the value of an expression that has the
entry's key and whose identifiers are marked used. -/
def Agrees (st : OptState) (env : List (String × Int)) : Prop :=
  (∀ x v, lookupValue x env = some v →
    ∃ r, lookupKey x st.symbolTable = some (.number r) ∧ r.toInt? = some v) ∧
  (∀ k c, lookupKey k st.expressionCache = some c →
    ∃ r v n, c = .number r ∧ r.toInt? = some v ∧ n.isOperand = true ∧
      getExpressionKey n = k ∧ n.value env = some v ∧
      ∀ y ∈ n.identifiers, y ∈ st.usedVariables)

/-- The integer a print line shows, for a line `print(v);` of one number. -/
def Line.printed : Line → Option Int
  | .print [.number r] => r.toInt?
  | _ => none

/-- Every value of `env` is kept in `env1`. -/
def EnvExtends (env env1 : List (String × Int)) : Prop :=
  ∀ y u, lookupValue y env = some u → lookupValue y env1 = some u

/-- A line the second pass writes for a folded value: `x = v;` for a variable
of `used`, or `print(v);`, where `v` is a finite number. -/
def Line.WrittenNumeric (used : List String) (l : Line) : Prop :=
  (∃ x r v, l = .assign x [.number r] ∧ r.toInt? = some v ∧ x ∈ used) ∨
  (∃ r v, l = .print [.number r] ∧ r.toInt? = some v)

/-! ## Texts of print lines -/

theorem firstAlternative_sound {alts : List String} {ok : List Char → Bool}
    {input a : List Char} (h : firstAlternative alts ok input = some a)
    (hne : ∀ x ∈ alts, x.toList ≠ []) : a <+: input ∧ a ≠ [] := by
  unfold firstAlternative at h
  have hp := List.find?_some h
  have hm := List.mem_of_find?_eq_some h
  simp only [Bool.and_eq_true, List.isPrefixOf_iff_prefix] at hp
  refine ⟨hp.1, ?_⟩
  rcases List.mem_map.1 hm with ⟨x, hx, rfl⟩
  exact hne x hx

theorem matchKeyword_sound {input a : List Char} (h : matchKeyword input = some a) :
    a <+: input ∧ a ≠ [] :=
  firstAlternative_sound h (by decide)

theorem matchOperator_sound {input a : List Char} (h : matchOperator input = some a) :
    a <+: input ∧ a ≠ [] :=
  firstAlternative_sound h (by decide)

theorem matchPunctuation_sound {input a : List Char} (h : matchPunctuation input = some a) :
    a <+: input ∧ a ≠ [] :=
  firstAlternative_sound h (by decide)

theorem matchIdentifier_sound {input a : List Char} (h : matchIdentifier input = some a) :
    a <+: input ∧ a ≠ [] := by
  unfold matchIdentifier at h
  cases input with
  | nil => simp at h
  | cons c cs =>
    simp only at h
    split at h
    · cases h
      exact ⟨List.prefix_cons_inj c |>.2 (List.takeWhile_prefix _), by simp⟩
    · simp at h

theorem matchWhitespace_sound {input a : List Char} (h : matchWhitespace input = some a) :
    a <+: input ∧ a ≠ [] := by
  unfold matchWhitespace at h
  simp only at h
  split at h
  · simp at h
  · rename_i hne
    cases h
    exact ⟨List.takeWhile_prefix _, by simpa using hne⟩

theorem matchNumber_sound {input a : List Char} (h : matchNumber input = some a) :
    a <+: input ∧ a ≠ [] := by
  unfold matchNumber at h
  simp only at h
  split at h
  · simp at h
  · rename_i hne
    have hd : List.takeWhile isDigitChar input ≠ [] := by simpa using hne
    have hpre : List.takeWhile isDigitChar input <+: input := List.takeWhile_prefix _
    split at h
    · rename_i more hdrop
      split at h
      · cases h
        have h1 : input = List.takeWhile isDigitChar input ++ '.' :: more := by
          rw [← hdrop]; exact (List.prefix_iff_eq_append.1 hpre).symm
        obtain ⟨t, ht⟩ : List.takeWhile isDigitChar more <+: more := List.takeWhile_prefix _
        refine ⟨⟨t, ?_⟩, by simp⟩
        calc List.takeWhile isDigitChar input ++ '.' :: List.takeWhile isDigitChar more ++ t
            = List.takeWhile isDigitChar input ++ '.' :: (List.takeWhile isDigitChar more ++ t) := by
              simp
          _ = List.takeWhile isDigitChar input ++ '.' :: more := by rw [ht]
          _ = input := h1.symm
      · cases h; exact ⟨hpre, hd⟩
    · split at h
      · cases h; exact ⟨hpre, hd⟩
      · simp at h

theorem firstMatchIn_sound (patterns : List (TokenType × (List Char → Option (List Char))))
    (hp : ∀ p ∈ patterns, ∀ input a, p.2 input = some a → a <+: input ∧ a ≠ [])
    {input : List Char} {m : Token} (h : firstMatchIn patterns input = some m) :
    m.value.toList <+: input ∧ 0 < m.value.length := by
  induction patterns with
  | nil => simp [firstMatchIn] at h
  | cons p more ih =>
    obtain ⟨ty, regex⟩ := p
    unfold firstMatchIn at h
    split at h
    · rename_i text htext
      cases h
      have := hp (ty, regex) (List.mem_cons_self _ _) input text htext
      refine ⟨this.1, ?_⟩
      show 0 < text.length
      exact List.length_pos.2 this.2
    · exact ih (fun p hpm => hp p (List.mem_cons_of_mem _ hpm)) h

theorem firstMatch_sound {input : List Char} {m : Token} (h : firstMatch input = some m) :
    m.value.toList <+: input ∧ 0 < m.value.length := by
  refine firstMatchIn_sound tokenPatterns ?_ h
  intro p hp input a ha
  simp only [tokenPatterns, List.mem_cons, List.mem_singleton, List.not_mem_nil, or_false] at hp
  rcases hp with rfl | rfl | rfl | rfl | rfl | rfl
  · exact matchKeyword_sound ha
  · exact matchIdentifier_sound ha
  · exact matchNumber_sound ha
  · exact matchOperator_sound ha
  · exact matchPunctuation_sound ha
  · exact matchWhitespace_sound ha

theorem length_toList (s : String) : s.toList.length = s.length := String.length_data s

theorem firstMatch_split {input : List Char} {m : Token} (h : firstMatch input = some m) :
    input = m.value.toList ++ input.drop m.value.length :=
  (List.prefix_iff_eq_append.1 (firstMatch_sound h).1).symm

theorem Scans.input_eq {input : List Char} {ms : List Token} {rest : List Char}
    (h : Scans input ms rest) :
    input = (ms.map fun m => m.value.toList).flatten ++ rest := by
  induction h with
  | done input => simp
  | step hm _ ih =>
    rw [List.map_cons, List.flatten_cons, List.append_assoc, ← ih]
    exact firstMatch_split hm

theorem Scans.length_eq {input : List Char} {ms : List Token} {rest : List Char}
    (h : Scans input ms rest) : input.length = matchedLength ms + rest.length := by
  induction h with
  | done input => simp [matchedLength]
  | @step _ m _ _ hm _ ih =>
    have h1 := congrArg List.length (firstMatch_split hm)
    simp only [List.length_append] at h1
    have h2 : m.value.toList.length = m.value.length := length_toList _
    simp only [matchedLength, List.map_cons, List.sum_cons] at ih ⊢
    omega

theorem Scans.count_le {input : List Char} {ms : List Token} {rest : List Char}
    (h : Scans input ms rest) : ms.length + rest.length ≤ input.length := by
  induction h with
  | done input => simp
  | @step input m _ _ hm _ ih =>
    have h1 := (firstMatch_sound hm).2
    have h2 : (input.drop m.value.length).length = input.length - m.value.length :=
      List.length_drop _ _
    have h3 := congrArg List.length (firstMatch_split hm)
    simp only [List.length_append, length_toList] at h3
    simp only [List.length_cons]
    omega

theorem scans_exists_aux : ∀ (n : Nat) (input : List Char), input.length ≤ n →
    ∃ ms final, Scans input ms final ∧ (final = [] ∨ firstMatch final = none) := by
  intro n
  induction n with
  | zero =>
    intro input h
    have : input = [] := List.length_eq_zero.1 (Nat.le_zero.1 h)
    exact ⟨[], input, Scans.done input, Or.inl this⟩
  | succ n ih =>
    intro input h
    cases hm : firstMatch input with
    | none => exact ⟨[], input, Scans.done input, Or.inr hm⟩
    | some m =>
      have h1 := (firstMatch_sound hm).2
      have h3 := congrArg List.length (firstMatch_split hm)
      simp only [List.length_append, length_toList] at h3
      have hlt : (input.drop m.value.length).length ≤ n := by
        rw [List.length_drop]; omega
      obtain ⟨ms, final, hs, hf⟩ := ih (input.drop m.value.length) hlt
      exact ⟨m :: ms, final, Scans.step hm hs, hf⟩

theorem scans_exists (input : List Char) :
    ∃ ms final, Scans input ms final ∧ (final = [] ∨ firstMatch final = none) :=
  scans_exists_aux input.length input (Nat.le_refl _)

theorem tokenizeLoop_of_scans (code : List Char) {input : List Char} {ms : List Token}
    {final : List Char} (hs : Scans input ms final) :
    ∀ (fuel position : Nat) (tokens : List Token), code.drop position = input →
      ms.length < fuel → (final = [] ∨ firstMatch final = none) →
      tokenizeLoop code fuel position tokens =
        match final with
        | [] => .ok (tokens ++ keptTokens ms)
        | c :: _ => .thrown (.Error (lexErrorMessage (position + matchedLength ms) c)) := by
  induction hs with
  | done input =>
    intro fuel position tokens hdrop hfuel hfinal
    obtain ⟨fuel, rfl⟩ : ∃ f, fuel = f + 1 := ⟨fuel - 1, by have := Nat.lt_of_le_of_lt (Nat.zero_le _) hfuel; omega⟩
    unfold tokenizeLoop
    rw [hdrop]
    cases input with
    | nil => simp [keptTokens]
    | cons c rest =>
      have hnone : firstMatch (c :: rest) = none := by
        rcases hfinal with h | h
        · cases h
        · exact h
      simp [hnone, matchedLength]
  | @step input m ms final hm _ ih =>
    intro fuel position tokens hdrop hfuel hfinal
    obtain ⟨fuel, rfl⟩ : ∃ f, fuel = f + 1 := ⟨fuel - 1, by have := Nat.lt_of_le_of_lt (Nat.zero_le _) hfuel; omega⟩
    have hpos := (firstMatch_sound hm).2
    have hsplit := firstMatch_split hm
    unfold tokenizeLoop
    rw [hdrop]
    cases input with
    | nil =>
      have := congrArg List.length hsplit
      simp only [List.length_append, length_toList, List.length_nil] at this
      omega
    | cons c rest =>
      simp only [hm]
      have hd : code.drop (position + m.value.length) = (c :: rest).drop m.value.length := by
        rw [← hdrop, List.drop_drop, Nat.add_comm]
      have := ih fuel (position + m.value.length)
        (if m.type ≠ .WHITESPACE then tokens ++ [m] else tokens) hd
        (by simp only [List.length_cons] at hfuel; omega) hfinal
      rw [this]
      cases final with
      | nil =>
        simp only [keptTokens, List.filter_cons]
        by_cases hw : m.type = .WHITESPACE <;> simp [hw]
      | cons c2 rest2 =>
        simp only [matchedLength, List.map_cons, List.sum_cons, Nat.add_assoc]

theorem tokenize_of_scans {code : String} {ms : List Token} {final : List Char}
    (hs : Scans code.toList ms final) (hf : final = [] ∨ firstMatch final = none) :
    tokenize code =
      match final with
      | [] => .ok (keptTokens ms)
      | c :: _ => .thrown (.Error (lexErrorMessage (matchedLength ms) c)) := by
  have hlen := hs.count_le
  have h := tokenizeLoop_of_scans code.toList hs (code.length + 1) 0 [] rfl
    (by rw [← length_toList]; show ms.length < code.toList.length + 1; omega) hf
  unfold tokenize
  rw [h]
  cases final <;> simp

theorem firstMatch_eq_none_iff (input : List Char) :
    firstMatch input = none ↔
      matchKeyword input = none ∧ matchIdentifier input = none ∧ matchNumber input = none ∧
      matchOperator input = none ∧ matchPunctuation input = none ∧
      matchWhitespace input = none := by
  unfold firstMatch tokenPatterns
  simp only [firstMatchIn]
  cases matchKeyword input <;> cases matchIdentifier input <;> cases matchNumber input <;>
    cases matchOperator input <;> cases matchPunctuation input <;>
    cases matchWhitespace input <;> simp

theorem keptTokens_no_whitespace (ms : List Token) :
    ∀ t ∈ keptTokens ms, t.type ≠ .WHITESPACE := by
  intro t ht
  have := (List.mem_filter.1 ht).2
  simpa using this

theorem Scans.flatten_length {input : List Char} {ms : List Token} {rest : List Char}
    (h : Scans input ms rest) :
    (ms.map fun m => m.value.toList).flatten.length = matchedLength ms := by
  have h1 := congrArg List.length h.input_eq
  have h2 := h.length_eq
  simp only [List.length_append] at h1
  omega

/-- C8: whitespace is discarded by the tokenizer.  Whenever `tokenize` succeeds,
no token of the result has type `WHITESPACE`, and the tokens are, in source
order, the non-whitespace ones among the successive matches whose texts
concatenate to the source; `"x = 5;"` gives exactly
`[IDENTIFIER x, OPERATOR =, NUMBER 5, PUNCTUATION ;]`. -/
theorem tokenize_discards_whitespace :
    (∀ (code : String) (tokens : List Token), tokenize code = .ok tokens →
      (∀ t ∈ tokens, t.type ≠ .WHITESPACE) ∧
      ∃ ms : List Token, Scans code.toList ms [] ∧ tokens = keptTokens ms ∧
        (ms.map fun m => m.value.toList).flatten = code.toList) ∧
    tokenize "x = 5;" =
      .ok [⟨.IDENTIFIER, "x"⟩, ⟨.OPERATOR, "="⟩, ⟨.NUMBER, "5"⟩, ⟨.PUNCTUATION, ";"⟩] := by
  refine ⟨?_, by decide!⟩
  intro code tokens h
  obtain ⟨ms, final, hs, hf⟩ := scans_exists code.toList
  have hres := tokenize_of_scans hs hf
  rw [h] at hres
  cases final with
  | cons c rest => simp at hres
  | nil =>
    simp only [Run.ok.injEq] at hres
    subst hres
    refine ⟨keptTokens_no_whitespace ms, ms, hs, rfl, ?_⟩
    have := hs.input_eq
    simpa using this.symm

theorem tokenize_discards_whitespace_witness :
    tokenize "a  = 1 ;" = .ok [⟨.IDENTIFIER, "a"⟩, ⟨.OPERATOR, "="⟩, ⟨.NUMBER, "1"⟩,
        ⟨.PUNCTUATION, ";"⟩] ∧
      ∀ t ∈ [(⟨.IDENTIFIER, "a"⟩ : Token), ⟨.OPERATOR, "="⟩, ⟨.NUMBER, "1"⟩,
        ⟨.PUNCTUATION, ";"⟩], t.type ≠ .WHITESPACE :=
  ⟨by decide, (tokenize_discards_whitespace.1 "a  = 1 ;" _ (by decide!)).1⟩

/-- C9: lexical errors.  `tokenize` throws exactly when scanning reaches a point
`c :: rest` of the source at which none of the six patterns matches; the error
names the position of that point, which is the total length of the matches
before it and lies inside the source; the only other outcome is a token list;
`"x = 5 @"` fails at position 6. -/
theorem tokenize_fails_iff :
    (∀ (code : String) (e : Thrown), tokenize code = .thrown e ↔
      ∃ (ms : List Token) (c : Char) (rest : List Char),
        Scans code.toList ms (c :: rest) ∧
        (matchKeyword (c :: rest) = none ∧ matchIdentifier (c :: rest) = none ∧
          matchNumber (c :: rest) = none ∧ matchOperator (c :: rest) = none ∧
          matchPunctuation (c :: rest) = none ∧ matchWhitespace (c :: rest) = none) ∧
        matchedLength ms < code.length ∧
        code.toList.drop (matchedLength ms) = c :: rest ∧
        e = .Error (lexErrorMessage (matchedLength ms) c)) ∧
    (∀ code : String, tokenize code ≠ .outOfFuel) ∧
    tokenize "x = 5 @" = .thrown (.Error "Unexpected character at position 6: @") := by
  refine ⟨?_, ?_, by decide!⟩
  · intro code e
    constructor
    · intro h
      obtain ⟨ms, final, hs, hf⟩ := scans_exists code.toList
      have hres := tokenize_of_scans hs hf
      rw [h] at hres
      cases final with
      | nil => simp at hres
      | cons c rest =>
        simp only [Run.thrown.injEq] at hres
        have hnone : firstMatch (c :: rest) = none := by
          rcases hf with h | h
          · cases h
          · exact h
        have hlen := hs.length_eq
        have hin := hs.input_eq
        have hfl := hs.flatten_length
        refine ⟨ms, c, rest, hs, (firstMatch_eq_none_iff _).1 hnone, ?_, ?_, hres⟩
        · rw [← length_toList, hlen]; simp
        · rw [hin, ← hfl, List.drop_left]
    · rintro ⟨ms, c, rest, hs, hnone, -, -, rfl⟩
      exact tokenize_of_scans hs (Or.inr ((firstMatch_eq_none_iff _).2 hnone))
  · intro code h
    obtain ⟨ms, final, hs, hf⟩ := scans_exists code.toList
    have hres := tokenize_of_scans hs hf
    rw [h] at hres
    cases final <;> simp at hres

/-! ## Basic facts about `Run` and `fullEvaluate` -/

theorem Run.andThen_eq_ok {α β : Type} {x : Run α} {f : α → Run β} {b : β} :
    x.andThen f = .ok b ↔ ∃ a, x = .ok a ∧ f a = .ok b := by
  cases x <;> simp [Run.andThen]

theorem lookupKey_setKey (key key2 : String) (value : Node) (table : List (String × Node)) :
    lookupKey key2 (setKey key value table) =
      if key = key2 then some value else lookupKey key2 table := by
  simp [setKey, lookupKey]

theorem fullEvaluate_hit (fuel : Nat) (node : Node) (st : OptState) (cached : Node)
    (h : lookupKey (getExpressionKey node) st.expressionCache = some cached) :
    fullEvaluate (fuel + 1) node st = .ok (cached, st) := by
  simp [fullEvaluate, h]

theorem fullEvaluate_binary_miss (fuel : Nat) (operator : String) (left right : Node)
    (st st1 st2 : OptState) (lv rv : Node)
    (hmiss : lookupKey (getExpressionKey (.binary_operation operator left right))
      st.expressionCache = none)
    (hl : fullEvaluate fuel left st = .ok (lv, st1))
    (hr : fullEvaluate fuel right st1 = .ok (rv, st2)) :
    fullEvaluate (fuel + 1) (.binary_operation operator left right) st =
      .ok (combine operator lv rv,
        { st2 with
          expressionCache := setKey (getExpressionKey (.binary_operation operator left right))
            (combine operator lv rv) st2.expressionCache }) := by
  simp [fullEvaluate, hmiss, hl, hr, Run.andThen]

theorem fullEvaluate_frame : ∀ (fuel : Nat) (node : Node) (st : OptState) (v : Node)
    (st1 : OptState), fullEvaluate fuel node st = .ok (v, st1) →
    st1.optimizedCode = st.optimizedCode ∧ st1.symbolTable = st.symbolTable := by
  intro fuel
  induction fuel with
  | zero => intro node st v st1 h; simp [fullEvaluate] at h
  | succ fuel ih =>
    intro node st v st1 h
    unfold fullEvaluate at h
    simp only at h
    split at h
    · cases h; exact ⟨rfl, rfl⟩
    · obtain ⟨res, hres, hfin⟩ := Run.andThen_eq_ok.1 h
      cases hfin
      cases node with
      | number n => simp at hres; cases hres; exact ⟨rfl, rfl⟩
      | number_literal n => simp at hres; cases hres; exact ⟨rfl, rfl⟩
      | identifier name =>
        simp only at hres
        split at hres
        · have := ih _ _ _ _ hres
          exact this
        · cases hres; exact ⟨rfl, rfl⟩
      | binary_operation op l r =>
        simp only at hres
        obtain ⟨lres, hl, hres⟩ := Run.andThen_eq_ok.1 hres
        obtain ⟨rres, hr, hres⟩ := Run.andThen_eq_ok.1 hres
        cases hres
        have h1 := ih _ _ _ _ hl
        have h2 := ih _ _ _ _ hr
        exact ⟨h2.1.trans h1.1, h2.2.trans h1.2⟩

theorem CacheExtends.refl (c : List (String × Node)) : CacheExtends c c := fun _ _ h => h

theorem CacheExtends.trans {a b c : List (String × Node)} (h1 : CacheExtends a b)
    (h2 : CacheExtends b c) : CacheExtends a c := fun k v h => h2 k v (h1 k v h)

theorem fullEvaluate_cache : ∀ (fuel : Nat) (node : Node) (st : OptState) (v : Node)
    (st1 : OptState), fullEvaluate fuel node st = .ok (v, st1) →
    lookupKey (getExpressionKey node) st1.expressionCache = some v ∧
    CacheExtends st.expressionCache st1.expressionCache := by
  intro fuel
  induction fuel with
  | zero => intro node st v st1 h; simp [fullEvaluate] at h
  | succ fuel ih =>
    intro node st v st1 h
    unfold fullEvaluate at h
    simp only at h
    split at h
    · rename_i cached hc
      cases h; exact ⟨hc, CacheExtends.refl _⟩
    · rename_i hmiss
      obtain ⟨res, hres, hfin⟩ := Run.andThen_eq_ok.1 h
      cases hfin
      refine ⟨by simp [lookupKey_setKey], ?_⟩
      have hinner : CacheExtends st.expressionCache res.2.expressionCache := by
        cases node with
        | number n => simp at hres; cases hres; exact CacheExtends.refl _
        | number_literal n => simp at hres; cases hres; exact CacheExtends.refl _
        | identifier name =>
          simp only at hres
          split at hres
          · exact (ih _ _ _ _ hres).2
          · cases hres; exact CacheExtends.refl _
        | binary_operation op l r =>
          simp only at hres
          obtain ⟨lres, hl, hres⟩ := Run.andThen_eq_ok.1 hres
          obtain ⟨rres, hr, hres⟩ := Run.andThen_eq_ok.1 hres
          cases hres
          exact (ih _ _ _ _ hl).2.trans (ih _ _ _ _ hr).2
      intro k w hk
      rw [lookupKey_setKey]
      split
      · rename_i heq
        subst heq
        rw [hmiss] at hk
        cases hk
      · exact hinner k w hk

mutual
theorem analyzeUsage_cache (fuel : Nat) : ∀ (s : Stmt) (st st1 : OptState),
    analyzeUsage fuel s st = .ok st1 → CacheExtends st.expressionCache st1.expressionCache
  | .assignment identifier expression, st, st1, h => by
    unfold analyzeUsage at h
    obtain ⟨v, hv, hfin⟩ := Run.andThen_eq_ok.1 h
    cases hfin
    exact (fullEvaluate_cache _ _ _ _ _ hv).2
  | .print expression, st, st1, h => by
    unfold analyzeUsage at h
    obtain ⟨v, hv, hfin⟩ := Run.andThen_eq_ok.1 h
    cases hfin
    exact (fullEvaluate_cache _ _ _ _ _ hv).2
  | .if_ condition thenBlock, st, st1, h => by
    unfold analyzeUsage at h
    obtain ⟨c, hc, hfin⟩ := Run.andThen_eq_ok.1 h
    have h1 := (fullEvaluate_cache _ _ _ _ _ hc).2
    split at hfin
    · split at hfin
      · exact h1.trans (analyzeUsageEach_cache fuel thenBlock _ _ hfin)
      · cases hfin; exact h1
    · exact h1.trans (analyzeUsageEach_cache fuel thenBlock _ _ hfin)
theorem analyzeUsageEach_cache (fuel : Nat) : ∀ (block : List Stmt) (st st1 : OptState),
    analyzeUsageEach fuel block st = .ok st1 →
    CacheExtends st.expressionCache st1.expressionCache
  | [], st, st1, h => by
    unfold analyzeUsageEach at h
    cases h; exact CacheExtends.refl _
  | s :: more, st, st1, h => by
    unfold analyzeUsageEach at h
    obtain ⟨st2, h2, hfin⟩ := Run.andThen_eq_ok.1 h
    exact (analyzeUsage_cache fuel s _ _ h2).trans (analyzeUsageEach_cache fuel more _ _ hfin)
end

theorem Run.ok_andThen {α β : Type} (a : α) (f : α → Run β) : (Run.ok a).andThen f = f a :=
  rfl

theorem fullEvaluate_fuel_pos {fuel : Nat} {node : Node} {st : OptState}
    {r : Node × OptState} (h : fullEvaluate fuel node st = .ok r) : ∃ f, fuel = f + 1 := by
  cases fuel with
  | zero => simp [fullEvaluate] at h
  | succ f => exact ⟨f, rfl⟩

/-- A cached expression is served from the cache in any later state. -/
theorem fullEvaluate_replay (st2 : OptState) {fuel : Nat} {node : Node} {st st1 : OptState}
    {v : Node} (h : fullEvaluate fuel node st = .ok (v, st1))
    (hext : CacheExtends st1.expressionCache st2.expressionCache) :
    fullEvaluate fuel node st2 = .ok (v, st2) := by
  obtain ⟨f, rfl⟩ := fullEvaluate_fuel_pos h
  exact fullEvaluate_hit f node st2 v (hext _ _ (fullEvaluate_cache _ _ _ _ _ h).1)

mutual
theorem generateOptimizedCode_readonly (fuel : Nat) : ∀ (s : Stmt) (st st1 : OptState),
    analyzeUsage fuel s st = .ok st1 → ∀ st2 : OptState,
    CacheExtends st1.expressionCache st2.expressionCache →
    ∃ text, generateOptimizedCode fuel s st2 = .ok { st2 with optimizedCode := text }
  | .assignment identifier expression, st, st1, h, st2, hext => by
    unfold analyzeUsage at h
    obtain ⟨v, hv, hfin⟩ := Run.andThen_eq_ok.1 h
    cases hfin
    have hrep := fullEvaluate_replay st2 hv hext
    unfold generateOptimizedCode
    rw [hrep]
    simp only [Run.andThen]
    split
    · split
      · exact ⟨_, rfl⟩
      · exact ⟨_, rfl⟩
    · exact ⟨st2.optimizedCode, rfl⟩
  | .print expression, st, st1, h, st2, hext => by
    unfold analyzeUsage at h
    obtain ⟨v, hv, hfin⟩ := Run.andThen_eq_ok.1 h
    cases hfin
    have hrep := fullEvaluate_replay st2 hv hext
    unfold generateOptimizedCode
    rw [hrep]
    simp only [Run.andThen]
    split
    · exact ⟨_, rfl⟩
    · split
      · exact ⟨_, rfl⟩
      · exact ⟨_, rfl⟩
    · exact ⟨_, rfl⟩
  | .if_ condition thenBlock, st, st1, h, st2, hext => by
    unfold analyzeUsage at h
    obtain ⟨c, hc, hfin⟩ := Run.andThen_eq_ok.1 h
    have hblock : ∀ st3, analyzeUsageEach fuel thenBlock c.2 = .ok st3 →
        CacheExtends c.2.expressionCache st3.expressionCache :=
      fun st3 h3 => analyzeUsageEach_cache fuel thenBlock _ _ h3
    unfold generateOptimizedCode
    obtain ⟨cv, cst⟩ := c
    simp only at hfin hblock
    split at hfin
    · rename_i n
      split at hfin
      · rename_i htrue
        have hrep := fullEvaluate_replay st2 hc ((hblock _ hfin).trans hext)
        rw [hrep]
        simp only [Run.andThen, htrue, if_true]
        exact generateOptimizedCodeEach_readonly fuel thenBlock _ _ hfin st2 hext
      · rename_i hfalse
        cases hfin
        have hrep := fullEvaluate_replay st2 hc hext
        rw [hrep]
        simp only [Run.andThen, hfalse]
        exact ⟨st2.optimizedCode, rfl⟩
    · rename_i hnot
      have hrep := fullEvaluate_replay st2 hc ((hblock _ hfin).trans hext)
      rw [hrep, Run.ok_andThen]
      obtain ⟨text, ht⟩ := generateOptimizedCodeEach_readonly fuel thenBlock _ _ hfin
        (emit ("if (" ++ (formatExpression st2 cv).toString ++ ") \x7b\n") st2) hext
      cases cv with
      | number n => exact absurd rfl (hnot n)
      | number_literal n => simp only; rw [ht, Run.ok_andThen]; exact ⟨_, rfl⟩
      | identifier n => simp only; rw [ht, Run.ok_andThen]; exact ⟨_, rfl⟩
      | binary_operation o l r => simp only; rw [ht, Run.ok_andThen]; exact ⟨_, rfl⟩
theorem generateOptimizedCodeEach_readonly (fuel : Nat) : ∀ (block : List Stmt)
    (st st1 : OptState), analyzeUsageEach fuel block st = .ok st1 → ∀ st2 : OptState,
    CacheExtends st1.expressionCache st2.expressionCache →
    ∃ text, generateOptimizedCodeEach fuel block st2 = .ok { st2 with optimizedCode := text }
  | [], st, st1, h, st2, hext => by
    unfold generateOptimizedCodeEach
    exact ⟨st2.optimizedCode, rfl⟩
  | s :: more, st, st1, h, st2, hext => by
    unfold analyzeUsageEach at h
    obtain ⟨stm, hm, hfin⟩ := Run.andThen_eq_ok.1 h
    have hext1 := (analyzeUsageEach_cache fuel more _ _ hfin).trans hext
    obtain ⟨text, ht⟩ := generateOptimizedCode_readonly fuel s _ _ hm st2 hext1
    unfold generateOptimizedCodeEach
    rw [ht]
    simp only [Run.andThen]
    obtain ⟨text2, ht2⟩ := generateOptimizedCodeEach_readonly fuel more _ _ hfin
      { st2 with optimizedCode := text } hext
    rw [ht2]
    exact ⟨text2, rfl⟩
end

mutual
theorem generateOptimizedCode_cache (fuel : Nat) : ∀ (s : Stmt) (st st1 : OptState),
    generateOptimizedCode fuel s st = .ok st1 →
    CacheExtends st.expressionCache st1.expressionCache
  | .assignment identifier expression, st, st1, h => by
    unfold generateOptimizedCode at h
    obtain ⟨v, hv, hfin⟩ := Run.andThen_eq_ok.1 h
    have h1 := (fullEvaluate_cache _ _ _ _ _ hv).2
    split at hfin
    · split at hfin <;> (cases hfin; exact h1)
    · cases hfin; exact h1
  | .print expression, st, st1, h => by
    unfold generateOptimizedCode at h
    obtain ⟨v, hv, hfin⟩ := Run.andThen_eq_ok.1 h
    have h1 := (fullEvaluate_cache _ _ _ _ _ hv).2
    split at hfin
    · cases hfin; exact h1
    · split at hfin <;> (cases hfin; exact h1)
    · cases hfin; exact h1
  | .if_ condition thenBlock, st, st1, h => by
    unfold generateOptimizedCode at h
    obtain ⟨c, hc, hfin⟩ := Run.andThen_eq_ok.1 h
    have h1 := (fullEvaluate_cache _ _ _ _ _ hc).2
    split at hfin
    · split at hfin
      · exact h1.trans (generateOptimizedCodeEach_cache fuel thenBlock _ _ hfin)
      · cases hfin; exact h1
    · obtain ⟨st2, h2, hfin⟩ := Run.andThen_eq_ok.1 hfin
      cases hfin
      have h3 := generateOptimizedCodeEach_cache fuel thenBlock _ _ h2
      exact h1.trans h3
theorem generateOptimizedCodeEach_cache (fuel : Nat) : ∀ (block : List Stmt)
    (st st1 : OptState), generateOptimizedCodeEach fuel block st = .ok st1 →
    CacheExtends st.expressionCache st1.expressionCache
  | [], st, st1, h => by
    unfold generateOptimizedCodeEach at h
    cases h; exact CacheExtends.refl _
  | s :: more, st, st1, h => by
    unfold generateOptimizedCodeEach at h
    obtain ⟨st2, h2, hfin⟩ := Run.andThen_eq_ok.1 h
    exact (generateOptimizedCode_cache fuel s _ _ h2).trans
      (generateOptimizedCodeEach_cache fuel more _ _ hfin)
end

/-- C13: cache entries survive reassignment.  A cached key is answered from the
cache with the state unchanged; every call of `fullEvaluate` leaves its result
under the key of its argument and keeps all earlier bindings, and so does
every statement of either pass, assignments included; for
`x = 1; print(x); x = 2; print(x);` both prints are `print(1);` while the
symbol table ends with `x` bound to `2`. -/
theorem cache_survives_reassignment :
    (∀ (fuel : Nat) (node : Node) (st : OptState) (cached : Node),
      lookupKey (getExpressionKey node) st.expressionCache = some cached →
      fullEvaluate (fuel + 1) node st = .ok (cached, st)) ∧
    (∀ (fuel : Nat) (node : Node) (st st1 : OptState) (v : Node),
      fullEvaluate fuel node st = .ok (v, st1) →
      lookupKey (getExpressionKey node) st1.expressionCache = some v ∧
      CacheExtends st.expressionCache st1.expressionCache) ∧
    (∀ (fuel : Nat) (s : Stmt) (st st1 : OptState),
      (analyzeUsage fuel s st = .ok st1 ∨ generateOptimizedCode fuel s st = .ok st1) →
      CacheExtends st.expressionCache st1.expressionCache) ∧
    (optimizeSource "x = 1; print(x); x = 2; print(x);" =
      .ok { optimizedCode := "x = 1;\nprint(1);\nx = 2;\nprint(1);\n",
            symbolTable := [("x", .number (.fin false 2)), ("x", .number (.fin false 1))],
            usedVariables := ["x"] }) ∧
    lookupKey "x" [("x", .number (.fin false 2)), ("x", .number (.fin false 1))] =
      some (.number (.fin false 2)) := by
  refine ⟨fullEvaluate_hit, ?_, ?_, by decide!, by decide!⟩
  · intro fuel node st st1 v h
    exact fullEvaluate_cache fuel node st v st1 h
  · intro fuel s st st1 h
    rcases h with h | h
    · exact analyzeUsage_cache fuel s st st1 h
    · exact generateOptimizedCode_cache fuel s st st1 h

theorem cache_survives_reassignment_witness :
    fullEvaluate 1 (.identifier "x")
        { OptState.initial with expressionCache := [("x", .number (.fin false 1))],
                                symbolTable := [("x", .number (.fin false 2))] } =
      .ok (.number (.fin false 1),
        { OptState.initial with expressionCache := [("x", .number (.fin false 1))],
                                symbolTable := [("x", .number (.fin false 2))] }) :=
  cache_survives_reassignment.1 0 (.identifier "x") _ _ (by decide!)

/-- C14: pass 2 is read-only on the analysis state.  If pass 1 succeeds on a
statement, pass 2 on the same statement in any state that still has the cache
entries of pass 1 returns that state with only `optimizedCode` changed, so
every `fullEvaluate` call of pass 2 is a cache hit; hence `optimize` returns
the symbol table and used-variable list of the end of pass 1. -/
theorem second_pass_read_only :
    (∀ (fuel : Nat) (s : Stmt) (st st1 st2 : OptState),
      analyzeUsage fuel s st = .ok st1 →
      CacheExtends st1.expressionCache st2.expressionCache →
      ∃ text, generateOptimizedCode fuel s st2 = .ok { st2 with optimizedCode := text }) ∧
    (∀ (fuel : Nat) (ast : List Stmt) (st1 : OptState),
      analyzeUsageEach fuel ast OptState.initial = .ok st1 →
      ∃ text, generateOptimizedCodeEach fuel ast st1 =
          .ok { st1 with optimizedCode := text } ∧
        optimizeWith fuel ast =
          .ok { optimizedCode := text, symbolTable := st1.symbolTable,
                usedVariables := st1.usedVariables }) := by
  refine ⟨fun fuel s st st1 st2 h hext =>
    generateOptimizedCode_readonly fuel s st st1 h st2 hext, ?_⟩
  intro fuel ast st1 h
  obtain ⟨text, ht⟩ := generateOptimizedCodeEach_readonly fuel ast _ _ h st1
    (CacheExtends.refl _)
  refine ⟨text, ht, ?_⟩
  unfold optimizeWith
  rw [h, Run.ok_andThen, ht, Run.ok_andThen]

theorem second_pass_read_only_witness :
    ∃ text, generateOptimizedCodeEach 3 [.print (.identifier "a")]
        { OptState.initial with usedVariables := ["a"],
                                expressionCache := [("a", .identifier "a")] } =
      .ok { optimizedCode := text, symbolTable := [], usedVariables := ["a"],
            expressionCache := [("a", .identifier "a")] } ∧
      optimizeWith 3 [.print (.identifier "a")] =
        .ok { optimizedCode := text, symbolTable := [], usedVariables := ["a"] } :=
  second_pass_read_only.2 3 [.print (.identifier "a")]
    { OptState.initial with usedVariables := ["a"],
                            expressionCache := [("a", .identifier "a")] } (by decide!)

/-! ## Numbers -/

theorem floor_natCast_div (m n : ℕ) (hn : 0 < n) : ⌊(m : ℚ) / n⌋ = ((m / n : ℕ) : ℤ) := by
  rw [Int.floor_eq_iff]
  have hn' : (0 : ℚ) < n := by exact_mod_cast hn
  have h1 := Nat.div_add_mod m n
  have h2 := Nat.mod_lt m hn
  generalize m / n = q at *
  generalize m % n = r at *
  subst h1
  constructor
  · rw [le_div_iff₀ hn']
    push_cast
    nlinarith
  · rw [div_lt_iff₀ hn']
    have : (r : ℚ) < n := by exact_mod_cast h2
    push_cast
    nlinarith

theorem floor_neg_natCast_div (m n : ℕ) (hn : 0 < n) (hm : 0 < m) :
    ⌊-((m : ℚ) / n)⌋ = -(((m + n - 1) / n : ℕ) : ℤ) := by
  rw [Int.floor_eq_iff]
  have hn' : (0 : ℚ) < n := by exact_mod_cast hn
  have h1 := Nat.div_add_mod (m + n - 1) n
  have h2 := Nat.mod_lt (m + n - 1) hn
  generalize (m + n - 1) / n = q at *
  generalize (m + n - 1) % n = r at *
  have h3 : (n : ℚ) * q + r = m + n - 1 := by
    have : ((n * q + r : ℕ) : ℚ) = ((m + n - 1 : ℕ) : ℚ) := by rw [h1]
    rw [Nat.cast_sub (by omega)] at this
    push_cast at this
    exact this
  have h4 : (r : ℚ) < n := by exact_mod_cast h2
  have h5 : (r : ℚ) + 1 ≤ n := by exact_mod_cast h2
  have h6 : (0 : ℚ) ≤ r := by exact_mod_cast Nat.zero_le r
  constructor
  · push_cast
    rw [neg_le_neg_iff, div_le_iff₀ hn']
    nlinarith
  · push_cast
    rw [show -(q : ℚ) + 1 = -((q : ℚ) - 1) by ring, neg_lt_neg_iff, lt_div_iff₀ hn']
    nlinarith

theorem log2Within_spec : ∀ (fuel n : Nat), n ≤ fuel → 0 < n →
    2 ^ log2Within fuel n ≤ n ∧ n < 2 ^ (log2Within fuel n + 1) := by
  intro fuel
  induction fuel with
  | zero => intro n h1 h2; omega
  | succ f ih =>
    intro n h1 h2
    rw [log2Within]
    split
    · constructor <;> simp <;> omega
    · have h3 := ih (n / 2) (by omega) (by omega)
      rw [Nat.pow_succ, Nat.pow_succ]
      constructor <;> omega

theorem floorLog2_le {n : Nat} (h : 0 < n) : 2 ^ floorLog2 n ≤ n :=
  (log2Within_spec n n (Nat.le_refl n) h).1

theorem lt_floorLog2 {n : Nat} (h : 0 < n) : n < 2 ^ (floorLog2 n + 1) :=
  (log2Within_spec n n (Nat.le_refl n) h).2

theorem floorLog2_lt {n k : Nat} (h : 0 < n) (hk : n < 2 ^ k) : floorLog2 n < k := by
  by_contra hc
  have h1 : 2 ^ k ≤ 2 ^ floorLog2 n := Nat.pow_le_pow_right (by decide) (by omega)
  have h2 := floorLog2_le h
  omega

theorem floorLog2_zero : floorLog2 0 = 0 := rfl

theorem roundNat_of_lt {n : Nat} (h : n < 2 ^ 53) : roundNat n = n := by
  have he : floorLog2 n - 52 = 0 := by
    rcases Nat.eq_zero_or_pos n with rfl | hpos
    · rfl
    · have := floorLog2_lt hpos h
      omega
  simp [roundNat, he, Nat.mod_one]

/-- The scaled quotient is normalised. -/
theorem roundQuotient_norm {a b : Nat} (ha : 0 < a) (hb : 0 < b) (h : a < 2 ^ 53) :
    ∃ s, floorLog2 a - (if b * 2 ^ (floorLog2 a - floorLog2 b) ≤
          a * 2 ^ (floorLog2 b - floorLog2 a) then floorLog2 b + 52 else floorLog2 b + 53) = 0 ∧
      (if b * 2 ^ (floorLog2 a - floorLog2 b) ≤
          a * 2 ^ (floorLog2 b - floorLog2 a) then floorLog2 b + 52 else floorLog2 b + 53) -
        floorLog2 a = s ∧ 2 ^ 52 * b ≤ a * 2 ^ s := by
  have hla := floorLog2_lt ha h
  have ha1 := floorLog2_le ha
  have hb2 := lt_floorLog2 hb
  generalize floorLog2 a = la at *
  generalize floorLog2 b = lb at *
  split
  · rename_i hc
    refine ⟨_, by omega, rfl, ?_⟩
    rcases Nat.le_total lb la with hle | hle
    · have e1 : lb - la = 0 := by omega
      rw [e1, pow_zero, mul_one] at hc
      have e2 : (2 : Nat) ^ 52 = 2 ^ (la - lb) * 2 ^ (lb + 52 - la) := by
        rw [← pow_add]; congr 1; omega
      calc 2 ^ 52 * b = (b * 2 ^ (la - lb)) * 2 ^ (lb + 52 - la) := by rw [e2]; ring
        _ ≤ a * 2 ^ (lb + 52 - la) := Nat.mul_le_mul_right _ hc
    · have e1 : la - lb = 0 := by omega
      rw [e1, pow_zero, mul_one] at hc
      have e2 : (2 : Nat) ^ (lb + 52 - la) = 2 ^ (lb - la) * 2 ^ 52 := by
        rw [← pow_add]; congr 1; omega
      calc 2 ^ 52 * b ≤ 2 ^ 52 * (a * 2 ^ (lb - la)) := Nat.mul_le_mul_left _ hc
        _ = a * 2 ^ (lb + 52 - la) := by rw [e2]; ring
  · refine ⟨_, by omega, rfl, ?_⟩
    have e2 : (2 : Nat) ^ la * 2 ^ (lb + 53 - la) = 2 ^ 52 * 2 ^ (lb + 1) := by
      rw [← pow_add, ← pow_add]; congr 1; omega
    calc 2 ^ 52 * b ≤ 2 ^ 52 * 2 ^ (lb + 1) := Nat.mul_le_mul_left _ (Nat.le_of_lt hb2)
      _ = 2 ^ la * 2 ^ (lb + 53 - la) := e2.symm
      _ ≤ a * 2 ^ (lb + 53 - la) := Nat.mul_le_mul_right _ ha1

theorem scaled_lt {a b P : Nat} (hP : 0 < P) (h : a < 2 ^ 53) (hnorm : 2 ^ 52 * b ≤ a * P) :
    b < 2 * P := by
  by_contra hc
  have h1 : 2 ^ 52 * (2 * P) ≤ 2 ^ 52 * b := Nat.mul_le_mul_left _ (by omega)
  have h2 : a * P < 2 ^ 53 * P := Nat.mul_lt_mul_of_pos_right h hP
  have h3 : (2 : Nat) ^ 52 * (2 * P) = 2 ^ 53 * P := by ring
  omega

theorem floor_rounded {a b P : Nat} (hb : 0 < b) (hP : 0 < P) (h : a < 2 ^ 53)
    (hnorm : 2 ^ 52 * b ≤ a * P) :
    (if b < 2 * (a * P % b) ∨ (2 * (a * P % b) = b ∧ a * P / b % 2 = 1)
      then a * P / b + 1 else a * P / b) / P = a / b := by
  have hlt := scaled_lt hP h hnorm
  have h0 : a * P / b / P = a / b := by
    rw [Nat.div_div_eq_div_mul, Nat.mul_div_mul_right _ _ hP]
  split
  · rename_i hround
    have hrem : b ≤ 2 * (a * P % b) := by rcases hround with h1 | h1 <;> omega
    rw [Nat.succ_div, h0]
    rw [if_neg, Nat.add_zero]
    rintro ⟨c, hc⟩
    have hdm := Nat.div_add_mod (a * P) b
    have hml := Nat.mod_lt (a * P) hb
    generalize a * P % b = rem at *
    generalize a * P / b = m0 at *
    have h1 : b * (P * c) = b * m0 + b := by rw [← hc]; ring
    have h2 : P ∣ b - rem := by
      have e : b - rem = b * (P * c) - a * P := by omega
      rw [e]
      exact Nat.dvd_sub' (Dvd.intro _ (by ring : P * (b * c) = b * (P * c)))
        (Dvd.intro_left _ rfl)
    have h3 : P ≤ b - rem := Nat.le_of_dvd (by omega) h2
    omega
  · exact h0

theorem ceil_rounded {a b P : Nat} (hb : 0 < b) (hP : 0 < P) (h : a < 2 ^ 53)
    (hnorm : 2 ^ 52 * b ≤ a * P) :
    ((if b < 2 * (a * P % b) ∨ (2 * (a * P % b) = b ∧ a * P / b % 2 = 1)
      then a * P / b + 1 else a * P / b) + P - 1) / P = (a + b - 1) / b := by
  have hlt := scaled_lt hP h hnorm
  have hq := Nat.div_add_mod a b
  have hr := Nat.mod_lt a hb
  have hdm := Nat.div_add_mod (a * P) b
  have hml := Nat.mod_lt (a * P) hb
  -- bounds on the truncated scaled quotient
  have hlow : a / b * P ≤ a * P / b := by
    rw [Nat.le_div_iff_mul_le hb]
    calc a / b * P * b = (b * (a / b)) * P := by ring
      _ ≤ a * P := Nat.mul_le_mul_right _ (by omega)
  have hupp : a * P / b < (a / b + 1) * P := by
    rw [Nat.div_lt_iff_lt_mul hb]
    calc a * P < (b * (a / b) + b) * P := Nat.mul_lt_mul_of_pos_right (by omega) hP
      _ = (a / b + 1) * P * b := by ring
  rcases Nat.eq_zero_or_pos (a % b) with hz | hpos
  · -- exact quotient
    have ha : a = b * (a / b) := by omega
    have e1 : a * P = b * (a / b * P) := by
      calc a * P = (b * (a / b)) * P := by rw [← ha]
        _ = b * (a / b * P) := by ring
    have e2 : a * P % b = 0 := by rw [e1]; exact Nat.mul_mod_right _ _
    have e3 : a * P / b = a / b * P := by rw [e1]; exact Nat.mul_div_cancel_left _ hb
    have e4 : (a + b - 1) / b = a / b := by
      apply Nat.div_eq_of_lt_le <;> [skip; skip]
      · rw [Nat.mul_comm]; omega
      · have : (a / b + 1) * b = b * (a / b) + b := by ring
        omega
    rw [e2, e3, e4, if_neg (by omega)]
    apply Nat.div_eq_of_lt_le
    · omega
    · have : (a / b + 1) * P = a / b * P + P := by ring
      omega
  · have e4 : (a + b - 1) / b = a / b + 1 := by
      apply Nat.div_eq_of_lt_le
      · have : (a / b + 1) * b = b * (a / b) + b := by ring
        omega
      · have : (a / b + 1 + 1) * b = b * (a / b) + b + b := by ring
        omega
    rw [e4]
    have hP2 : (a / b + 1) * P = a / b * P + P := by ring
    have hP3 : (a / b + 1 + 1) * P = a / b * P + P + P := by ring
    have key : a / b * P < (if b < 2 * (a * P % b) ∨ (2 * (a * P % b) = b ∧ a * P / b % 2 = 1)
        then a * P / b + 1 else a * P / b) := by
      split
      · omega
      · rename_i hno
        rcases Nat.lt_or_ge (a / b * P) (a * P / b) with h1 | h1
        · exact h1
        · exfalso
          have e5 : a * P / b = a / b * P := by omega
          have e6 : a * P % b = a % b * P := by
            have : a * P = b * (a / b * P) + a % b * P := by
              calc a * P = (b * (a / b) + a % b) * P := by rw [hq]
                _ = b * (a / b * P) + a % b * P := by ring
            rw [e5] at hdm
            omega
          have e7 : P ≤ a % b * P := Nat.le_mul_of_pos_left _ hpos
          apply hno
          left
          omega
    have upper : (if b < 2 * (a * P % b) ∨ (2 * (a * P % b) = b ∧ a * P / b % 2 = 1)
        then a * P / b + 1 else a * P / b) ≤ a / b * P + P := by
      split <;> omega
    apply Nat.div_eq_of_lt_le <;> omega

theorem quotientFloor_safe {a b : Nat} (ha : 0 < a) (hb : 0 < b) (h : a < 2 ^ 53) :
    quotientFloor a b = a / b := by
  obtain ⟨s, h1, h2, h3⟩ := roundQuotient_norm ha hb h
  simp only [quotientFloor, roundQuotient, h1, h2, pow_zero, mul_one]
  exact floor_rounded hb (Nat.two_pow_pos _) h h3

theorem quotientCeil_safe {a b : Nat} (ha : 0 < a) (hb : 0 < b) (h : a < 2 ^ 53) :
    quotientCeil a b = (a + b - 1) / b := by
  obtain ⟨s, h1, h2, h3⟩ := roundQuotient_norm ha hb h
  simp only [quotientCeil, roundQuotient, h1, h2, pow_zero, mul_one]
  exact ceil_rounded hb (Nat.two_pow_pos _) h h3


theorem JSNum.floorDiv_toInt (x y : JSNum) (a b : Int) (hx : x.toInt? = some a)
    (hy : y.toInt? = some b) (hb : b ≠ 0) (hsafe : a.natAbs < 2 ^ 53) :
    (x.floorDiv y).toInt? = some ⌊(a : ℚ) / b⌋ := by
  cases x with
  | inf s => simp [JSNum.toInt?] at hx
  | nan => simp [JSNum.toInt?] at hx
  | fin s m =>
    cases y with
    | inf t => simp [JSNum.toInt?] at hy
    | nan => simp [JSNum.toInt?] at hy
    | fin t n =>
      simp only [JSNum.toInt?, Option.some.injEq] at hx hy
      have hn : n ≠ 0 := by
        rintro rfl
        apply hb
        rw [← hy]
        cases t <;> simp
      have hn0 : 0 < n := Nat.pos_of_ne_zero hn
      have hm53 : m < 2 ^ 53 := by
        rw [← hx] at hsafe
        cases s <;> simpa using hsafe
      simp only [JSNum.floorDiv, hn, if_false]
      by_cases hm : m = 0
      · subst hm
        have ha : a = 0 := by rw [← hx]; cases s <;> simp
        subst ha
        simp [JSNum.toInt?]
      · have hm0 : 0 < m := Nat.pos_of_ne_zero hm
        simp only [hm, if_false, quotientFloor_safe hm0 hn0 hm53,
          quotientCeil_safe hm0 hn0 hm53]
        subst hx hy
        cases s <;> cases t <;>
          simp only [JSNum.toInt?, if_true, if_false, Bool.false_eq_true, ↓reduceIte,
            Option.some.injEq, reduceCtorEq, Int.cast_neg, Int.cast_natCast]
        · rw [floor_natCast_div m n hn0]
        · rw [div_neg, floor_neg_natCast_div m n hn0 hm0]
        · rw [neg_div, floor_neg_natCast_div m n hn0 hm0]
        · rw [neg_div_neg_eq, floor_natCast_div m n hn0]

theorem JSNum.floorDiv_zero (x : JSNum) (t : Bool) :
    (x.floorDiv (.fin t 0)).toInt? = none := by
  cases x with
  | inf s => simp [JSNum.floorDiv, JSNum.toInt?]
  | nan => simp [JSNum.floorDiv, JSNum.toInt?]
  | fin s m =>
    by_cases hm : m = 0 <;> simp [JSNum.floorDiv, JSNum.toInt?, hm]

theorem JSNum.truthy_iff (c : JSNum) (n : Int) (h : c.toInt? = some n) :
    c.truthy = true ↔ n ≠ 0 := by
  cases c with
  | inf s => simp [JSNum.toInt?] at h
  | nan => simp [JSNum.toInt?] at h
  | fin s m =>
    simp only [JSNum.toInt?, Option.some.injEq] at h
    subst h
    cases s <;> simp [JSNum.truthy]

/-- C10 (failing input): the tokens of `if (1) { print(1);` end inside a block
whose closing brace is missing; `parse` does not throw the `Error` of `consume`
that names `end of input` but a `TypeError`, raised by the loop condition of
`parseBlock` when it reads `peek().type` at the end of the input.  Other
premature ends (`x = 1 +`, `print(1`) do produce the `end of input` message. -/
theorem parse_unclosed_block :
    parseSource "if (1) \x7b print(1);" = .thrown (.TypeError undefinedTypeMessage) ∧
    (∀ (fuel : Nat) (statements : List Stmt),
      parseBlock (fuel + 1) statements [] = .thrown (.TypeError undefinedTypeMessage)) ∧
    parseSource "x = 1 +" =
      .thrown (.Error "Expected number, identifier or parentheses, but got end of input") ∧
    parseSource "print(1" =
      .thrown (.Error
        "Expected token type 'PUNCTUATION' with value ')', but got end of input") := by
  refine ⟨by decide!, ?_, by decide!, by decide!⟩
  intro fuel statements
  simp [parseBlock]

/-- C4: branch folding.  When the condition of an `if` statement folds to a
number `c`, evaluating it emits nothing, and the second pass emits for the
statement exactly what it emits for the statements of the block when `c` is
truthy, and nothing when `c` is falsy; no `if (...) {` line and no `}` line is
added.  The first pass visits the block under the same test.  An integer
constant is truthy exactly when it is not `0`.  `if (1) { print(1); }`
optimizes to `print(1);` and `if (0) { print(1); }` to the empty text. -/
theorem branch_folding :
    (∀ (fuel : Nat) (condition : Node) (thenBlock : List Stmt) (st st1 : OptState)
      (c : JSNum), fullEvaluate fuel condition st = .ok (.number c, st1) →
      st1.optimizedCode = st.optimizedCode ∧
      (c.truthy = true →
        generateOptimizedCode fuel (.if_ condition thenBlock) st =
          generateOptimizedCodeEach fuel thenBlock st1 ∧
        analyzeUsage fuel (.if_ condition thenBlock) st =
          analyzeUsageEach fuel thenBlock st1) ∧
      (c.truthy = false →
        generateOptimizedCode fuel (.if_ condition thenBlock) st = .ok st1 ∧
        analyzeUsage fuel (.if_ condition thenBlock) st = .ok st1)) ∧
    (∀ (c : JSNum) (n : Int), c.toInt? = some n → (c.truthy = true ↔ n ≠ 0)) ∧
    optimizeSource "if (1) \x7b print(1); \x7d" =
      .ok { optimizedCode := "print(1);\n", symbolTable := [], usedVariables := [] } ∧
    optimizeSource "if (0) \x7b print(1); \x7d" =
      .ok { optimizedCode := "", symbolTable := [], usedVariables := [] } := by
  refine ⟨?_, JSNum.truthy_iff, by decide!, by decide!⟩
  intro fuel condition thenBlock st st1 c h
  refine ⟨(fullEvaluate_frame _ _ _ _ _ h).1, ?_, ?_⟩
  · intro ht
    constructor
    · unfold generateOptimizedCode
      rw [h, Run.ok_andThen]
      simp [ht]
    · unfold analyzeUsage
      rw [h, Run.ok_andThen]
      simp [ht]
  · intro hf
    constructor
    · unfold generateOptimizedCode
      rw [h, Run.ok_andThen]
      simp [hf]
    · unfold analyzeUsage
      rw [h, Run.ok_andThen]
      simp [hf]

theorem branch_folding_witness :
    (generateOptimizedCode 1 (.if_ (.number (.fin false 0)) [.print (.number_literal 1)])
        OptState.initial =
      .ok { OptState.initial with
            expressionCache := [("0", .number (.fin false 0))] }) ∧
    analyzeUsage 1 (.if_ (.number (.fin false 0)) [.print (.number_literal 1)])
        OptState.initial =
      .ok { OptState.initial with
            expressionCache := [("0", .number (.fin false 0))] } :=
  (branch_folding.1 1 (.number (.fin false 0)) [.print (.number_literal 1)]
    OptState.initial _ (.fin false 0) (by decide!)).2.2 (by decide)

theorem combine_division (x y : JSNum) :
    combine "/" (.number x) (.number y) = .number (x.floorDiv y) := by
  simp [combine, foldBinary]

/-- C5 (counterexample): `optimize` does not fail on `x = 7 / 0;`; it returns
normally with `x` bound to the number `Infinity`. -/
theorem division_by_zero_returns :
    optimizeSource "x = 7 / 0;" =
      .ok { optimizedCode := "", symbolTable := [("x", .number (.inf false))],
            usedVariables := [] } := by
  decide!

/-- C5 (amended): folding a division whose divisor folds to zero is not a
failure: `fullEvaluate` returns the numeric constant `Math.floor(left / 0)`,
which is an infinity or `NaN` and never an integer, and stores it in the cache;
`x = 7 / 0; print(x);` optimizes to `x = Infinity;` and `print(Infinity);`. -/
theorem division_by_zero_folds :
    (∀ (fuel : Nat) (left right : Node) (st st1 st2 : OptState) (x : JSNum) (t : Bool),
      lookupKey (getExpressionKey (.binary_operation "/" left right))
        st.expressionCache = none →
      fullEvaluate fuel left st = .ok (.number x, st1) →
      fullEvaluate fuel right st1 = .ok (.number (.fin t 0), st2) →
      fullEvaluate (fuel + 1) (.binary_operation "/" left right) st =
        .ok (.number (x.floorDiv (.fin t 0)),
          { st2 with
            expressionCache := setKey (getExpressionKey (.binary_operation "/" left right))
              (.number (x.floorDiv (.fin t 0))) st2.expressionCache }) ∧
      (x.floorDiv (.fin t 0)).toInt? = none) ∧
    optimizeSource "x = 7 / 0; print(x);" =
      .ok { optimizedCode := "x = Infinity;\nprint(Infinity);\n",
            symbolTable := [("x", .number (.inf false))], usedVariables := ["x"] } := by
  refine ⟨?_, by decide!⟩
  intro fuel left right st st1 st2 x t hmiss hl hr
  refine ⟨?_, JSNum.floorDiv_zero x t⟩
  rw [fullEvaluate_binary_miss fuel "/" left right st st1 st2 _ _ hmiss hl hr,
    combine_division]

theorem division_by_zero_folds_witness :
    ((JSNum.fin false 7).floorDiv (.fin false 0)).toInt? = none :=
  (division_by_zero_folds.1 1 (.number_literal 7) (.number_literal 0) OptState.initial
    { OptState.initial with
      expressionCache := [(getExpressionKey (.number_literal 7), .number (.fin false 7))] }
    { OptState.initial with
      expressionCache := [(getExpressionKey (.number_literal 0), .number (.fin false 0)),
        (getExpressionKey (.number_literal 7), .number (.fin false 7))] }
    (.fin false 7) false (by decide!) (by decide!) (by decide!)).2

/-- C6 (counterexample): with `b = 2^52 + 1` and `a = 3 * b - 1`, both exact
doubles, the quotient `a / b` is rounded to `3` by the operator `/` before
`Math.floor` is applied: the division folds to `3`, and the floor of `a / b` is
`2`. -/
theorem floor_division_rounds :
    optimizeSource "x = 13510798882111490 / 4503599627370497; print(x);" =
      .ok { optimizedCode := "x = 3;\nprint(3);\n",
            symbolTable := [("x", .number (.fin false 3))], usedVariables := ["x"] } ∧
    ⌊((13510798882111490 : Int) : ℚ) / (4503599627370497 : Int)⌋ = 2 := by
  refine ⟨by decide!, ?_⟩
  rw [Int.floor_eq_iff]
  norm_num

/-- C6 (amended): floor division inside the safe-integer range.  When the
operands of a `/` operation fold to the integers `a` and `b ≠ 0` with
`|a| < 2^53` (and the operation is not answered from the cache), `fullEvaluate`
returns a number whose value is the floor of `a / b`; `7 / 2` folds to `3`,
`(0 - 7) / 2` to `-4`, and optimizing `x = 7 / 2;` leaves `x` bound to `3` in
the symbol table. -/
theorem floor_division :
    (∀ (fuel : Nat) (left right : Node) (st st1 st2 : OptState) (x y : JSNum) (a b : Int),
      lookupKey (getExpressionKey (.binary_operation "/" left right))
        st.expressionCache = none →
      fullEvaluate fuel left st = .ok (.number x, st1) →
      fullEvaluate fuel right st1 = .ok (.number y, st2) →
      x.toInt? = some a → y.toInt? = some b → b ≠ 0 → a.natAbs < 2 ^ 53 →
      ∃ (q : JSNum) (st3 : OptState),
        fullEvaluate (fuel + 1) (.binary_operation "/" left right) st =
          .ok (.number q, st3) ∧
        q.toInt? = some ⌊(a : ℚ) / b⌋) ∧
    (optimizeSource "x = 7 / 2;" =
      .ok { optimizedCode := "", symbolTable := [("x", .number (.fin false 3))],
            usedVariables := [] }) ∧
    (optimizeSource "x = (0 - 7) / 2; print(x);" =
      .ok { optimizedCode := "x = -4;\nprint(-4);\n",
            symbolTable := [("x", .number (.fin true 4))], usedVariables := ["x"] }) := by
  refine ⟨?_, by decide!, by decide!⟩
  intro fuel left right st st1 st2 x y a b hmiss hl hr hx hy hb hsafe
  have h := fullEvaluate_binary_miss fuel "/" left right st st1 st2 _ _ hmiss hl hr
  rw [combine_division] at h
  exact ⟨x.floorDiv y, _, h, JSNum.floorDiv_toInt x y a b hx hy hb hsafe⟩

theorem floor_division_witness :
    ∃ (q : JSNum) (st3 : OptState),
      fullEvaluate 2 (.binary_operation "/" (.number_literal 7) (.number_literal 2))
          OptState.initial = .ok (.number q, st3) ∧
      q.toInt? = some ⌊((7 : Int) : ℚ) / (2 : Int)⌋ :=
  floor_division.1 1 (.number_literal 7) (.number_literal 2) OptState.initial
    { OptState.initial with
      expressionCache := [(getExpressionKey (.number_literal 7), .number (.fin false 7))] }
    { OptState.initial with
      expressionCache := [(getExpressionKey (.number_literal 2), .number (.fin false 2)),
        (getExpressionKey (.number_literal 7), .number (.fin false 7))] }
    (.fin false 7) (.fin false 2) 7 2 (by decide!) (by decide!) (by decide!) (by decide)
    (by decide) (by decide) (by decide)

/-! ## Termination of the optimizer -/

theorem fullEvaluate_succ (fuel : Nat) (node : Node) (st : OptState) :
    fullEvaluate (fuel + 1) node st =
      match lookupKey (getExpressionKey node) st.expressionCache with
      | some cached => .ok (cached, st)
      | none => (evaluateMiss fuel node st).andThen fun res => .ok (storeResult node res) := by
  cases node <;> rfl

theorem fullEvaluate_miss (fuel : Nat) (node : Node) (st : OptState)
    (h : lookupKey (getExpressionKey node) st.expressionCache = none) :
    fullEvaluate (fuel + 1) node st =
      (evaluateMiss fuel node st).andThen fun res => .ok (storeResult node res) := by
  rw [fullEvaluate_succ, h]

theorem fullEvaluate_mono : ∀ (fuel : Nat) (node : Node) (st : OptState)
    (x : Node × OptState), fullEvaluate fuel node st = .ok x →
    ∀ fuel2, fuel ≤ fuel2 → fullEvaluate fuel2 node st = .ok x := by
  intro fuel
  induction fuel with
  | zero => intro node st x h; simp [fullEvaluate] at h
  | succ f ih =>
    intro node st x h fuel2 hle
    obtain ⟨f2, rfl⟩ : ∃ f2, fuel2 = f2 + 1 := ⟨fuel2 - 1, by omega⟩
    have hf : f ≤ f2 := by omega
    rw [fullEvaluate_succ] at h ⊢
    cases hc : lookupKey (getExpressionKey node) st.expressionCache with
    | some c => rw [hc] at h; exact h
    | none =>
      rw [hc] at h
      simp only at h ⊢
      obtain ⟨res, hres, hfin⟩ := Run.andThen_eq_ok.1 h
      have hres2 : evaluateMiss f2 node st = .ok res := by
        cases node with
        | number n => exact hres
        | number_literal n => exact hres
        | identifier name =>
          simp only [evaluateMiss] at hres ⊢
          split at hres
          · exact ih _ _ _ hres f2 hf
          · exact hres
        | binary_operation op l r =>
          simp only [evaluateMiss] at hres ⊢
          obtain ⟨lres, hl, hres⟩ := Run.andThen_eq_ok.1 hres
          obtain ⟨rres, hr, hres⟩ := Run.andThen_eq_ok.1 hres
          rw [ih _ _ _ hl f2 hf, Run.ok_andThen, ih _ _ _ hr f2 hf, Run.ok_andThen]
          exact hres
      rw [hres2, Run.ok_andThen]
      exact hfin

theorem lookupKey_mem {key : String} {table : List (String × Node)} {v : Node}
    (h : lookupKey key table = some v) : (key, v) ∈ table := by
  induction table with
  | nil => simp [lookupKey] at h
  | cons p more ih =>
    obtain ⟨k, w⟩ := p
    simp only [lookupKey] at h
    split at h
    · rename_i hk
      cases h
      subst hk
      exact List.mem_cons_self _ _
    · exact List.mem_cons_of_mem _ (ih h)

theorem LeavesCached.of_extends {c c2 : List (String × Node)} {node : Node}
    (hext : CacheExtends c c2) (h : LeavesCached c node) : LeavesCached c2 node := by
  intro y hy
  have := h y hy
  cases hl : lookupKey y c with
  | none => exact absurd hl this
  | some v => rw [hext y v hl]; simp

theorem LeavesCached.setKey {c : List (String × Node)} {node : Node} (key : String)
    (value : Node) (h : LeavesCached c node) : LeavesCached (setKey key value c) node := by
  intro y hy
  rw [lookupKey_setKey]
  split
  · simp
  · exact h y hy

theorem foldBinary_identifiers (operator : String) (x y : JSNum) :
    (foldBinary operator x y).identifiers = [] := by
  unfold foldBinary
  repeat' split
  all_goals rfl

theorem combine_identifiers (operator : String) (a b : Node) :
    ∀ y ∈ (combine operator a b).identifiers, y ∈ a.identifiers ∨ y ∈ b.identifiers := by
  intro y hy
  cases a with
  | number x =>
    cases b with
    | number z => simp only [combine, foldBinary_identifiers, List.not_mem_nil] at hy
    | number_literal n => exact List.mem_append.1 hy
    | identifier n => exact List.mem_append.1 hy
    | binary_operation o l r => exact List.mem_append.1 hy
  | number_literal n => exact List.mem_append.1 hy
  | identifier n => exact List.mem_append.1 hy
  | binary_operation o l r => exact List.mem_append.1 hy

theorem LeavesCached.combine {c : List (String × Node)} {a b : Node} (operator : String)
    (ha : LeavesCached c a) (hb : LeavesCached c b) :
    LeavesCached c (combine operator a b) := by
  intro y hy
  rcases combine_identifiers operator a b y hy with h | h
  · exact ha y h
  · exact hb y h

theorem StoredLeavesCached.store {st : OptState} (key : String) (value : Node)
    (h : StoredLeavesCached st)
    (hv : LeavesCached (setKey key value st.expressionCache) value) :
    StoredLeavesCached { st with expressionCache := setKey key value st.expressionCache } := by
  constructor
  · intro p hp
    exact (h.1 p hp).setKey key value
  · intro p hp
    simp only [setKey, List.mem_cons] at hp
    rcases hp with rfl | hp
    · exact hv
    · exact (h.2 p hp).setKey key value

theorem StoredLeavesCached.used {st : OptState} (used : List String)
    (h : StoredLeavesCached st) : StoredLeavesCached { st with usedVariables := used } := h

theorem fullEvaluate_invariant : ∀ (fuel : Nat) (node : Node) (st : OptState) (r : Node)
    (st1 : OptState), fullEvaluate fuel node st = .ok (r, st1) → StoredLeavesCached st →
    StoredLeavesCached st1 ∧ LeavesCached st1.expressionCache r := by
  intro fuel
  induction fuel with
  | zero => intro node st r st1 h; simp [fullEvaluate] at h
  | succ f ih =>
    intro node st r st1 h hinv
    rw [fullEvaluate_succ] at h
    cases hc : lookupKey (getExpressionKey node) st.expressionCache with
    | some c =>
      rw [hc] at h
      cases h
      exact ⟨hinv, hinv.2 _ (lookupKey_mem hc)⟩
    | none =>
      rw [hc] at h
      simp only at h
      obtain ⟨res, hres, hfin⟩ := Run.andThen_eq_ok.1 h
      cases hfin
      have key : StoredLeavesCached res.2 ∧
          LeavesCached (setKey (getExpressionKey node) res.1 res.2.expressionCache) res.1 := by
        cases node with
        | number n =>
          cases hres
          exact ⟨hinv, fun y hy => by simp [Node.identifiers] at hy⟩
        | number_literal n =>
          cases hres
          exact ⟨hinv, fun y hy => by simp [Node.identifiers] at hy⟩
        | identifier name =>
          simp only [evaluateMiss] at hres
          split at hres
          · have := ih _ _ _ _ hres (hinv.used _)
            exact ⟨this.1, this.2.setKey _ _⟩
          · cases hres
            refine ⟨hinv.used _, ?_⟩
            intro y hy
            simp only [Node.identifiers, List.mem_singleton] at hy
            subst hy
            simp [getExpressionKey, lookupKey_setKey]
        | binary_operation op l r =>
          simp only [evaluateMiss] at hres
          obtain ⟨lres, hl, hres⟩ := Run.andThen_eq_ok.1 hres
          obtain ⟨rres, hr, hres⟩ := Run.andThen_eq_ok.1 hres
          cases hres
          have h1 := ih _ _ _ _ hl hinv
          have h2 := ih _ _ _ _ hr h1.1
          have hext := (fullEvaluate_cache _ _ _ _ _ hr).2
          exact ⟨h2.1, (LeavesCached.combine op (h1.2.of_extends hext) h2.2).setKey _ _⟩
      exact ⟨key.1.store _ _ key.2, key.2⟩

theorem fullEvaluate_binary_terminates (operator : String) (left right : Node) (st : OptState)
    (hinv : StoredLeavesCached st)
    (hl : ∃ N x, fullEvaluate N left st = .ok x)
    (hr : ∀ st1, StoredLeavesCached st1 →
      CacheExtends st.expressionCache st1.expressionCache →
      ∃ N x, fullEvaluate N right st1 = .ok x) :
    ∃ N x, fullEvaluate N (.binary_operation operator left right) st = .ok x := by
  cases hc : lookupKey (getExpressionKey (.binary_operation operator left right))
      st.expressionCache with
  | some c => exact ⟨1, _, fullEvaluate_hit 0 _ st c hc⟩
  | none =>
    obtain ⟨N1, ⟨r1, st1⟩, h1⟩ := hl
    have hi1 := fullEvaluate_invariant _ _ _ _ _ h1 hinv
    obtain ⟨N2, ⟨r2, st2⟩, h2⟩ := hr st1 hi1.1 (fullEvaluate_cache _ _ _ _ _ h1).2
    exact ⟨max N1 N2 + 1, _, fullEvaluate_binary_miss (max N1 N2) operator left right st st1 st2 r1 r2 hc
      (fullEvaluate_mono _ _ _ _ h1 _ (le_max_left _ _))
      (fullEvaluate_mono _ _ _ _ h2 _ (le_max_right _ _))⟩

theorem value_terminates : ∀ (w : Node) (st : OptState), StoredLeavesCached st →
    LeavesCached st.expressionCache w → ∃ N x, fullEvaluate N w st = .ok x := by
  intro w
  induction w with
  | number n =>
    intro st _ _
    cases hc : lookupKey (getExpressionKey (.number n)) st.expressionCache with
    | some c => exact ⟨1, _, fullEvaluate_hit 0 _ st c hc⟩
    | none => exact ⟨1, _, by rw [fullEvaluate_miss 0 _ st hc]; rfl⟩
  | number_literal n =>
    intro st _ _
    cases hc : lookupKey (getExpressionKey (.number_literal n)) st.expressionCache with
    | some c => exact ⟨1, _, fullEvaluate_hit 0 _ st c hc⟩
    | none => exact ⟨1, _, by rw [fullEvaluate_miss 0 _ st hc]; rfl⟩
  | identifier name =>
    intro st _ hl
    cases hc : lookupKey (getExpressionKey (.identifier name)) st.expressionCache with
    | some c => exact ⟨1, _, fullEvaluate_hit 0 _ st c hc⟩
    | none => exact absurd hc (hl name (by simp [Node.identifiers]))
  | binary_operation op l r ihl ihr =>
    intro st hinv hl
    have hll : LeavesCached st.expressionCache l := fun y hy =>
      hl y (by simp [Node.identifiers, hy])
    have hlr : LeavesCached st.expressionCache r := fun y hy =>
      hl y (by simp [Node.identifiers, hy])
    exact fullEvaluate_binary_terminates op l r st hinv (ihl st hinv hll)
      (fun st1 hinv1 hext => ihr st1 hinv1 (hlr.of_extends hext))

/-- With enough fuel `fullEvaluate` returns on every expression, in every state
that satisfies the invariant. -/
theorem fullEvaluate_terminates : ∀ (e : Node) (st : OptState), StoredLeavesCached st →
    ∃ N x, fullEvaluate N e st = .ok x := by
  intro e
  induction e with
  | number n =>
    intro st _
    cases hc : lookupKey (getExpressionKey (.number n)) st.expressionCache with
    | some c => exact ⟨1, _, fullEvaluate_hit 0 _ st c hc⟩
    | none => exact ⟨1, _, by rw [fullEvaluate_miss 0 _ st hc]; rfl⟩
  | number_literal n =>
    intro st _
    cases hc : lookupKey (getExpressionKey (.number_literal n)) st.expressionCache with
    | some c => exact ⟨1, _, fullEvaluate_hit 0 _ st c hc⟩
    | none => exact ⟨1, _, by rw [fullEvaluate_miss 0 _ st hc]; rfl⟩
  | identifier name =>
    intro st hinv
    cases hc : lookupKey (getExpressionKey (.identifier name)) st.expressionCache with
    | some c => exact ⟨1, _, fullEvaluate_hit 0 _ st c hc⟩
    | none =>
      cases hb : lookupKey name st.symbolTable with
      | none =>
        have h : fullEvaluate 1 (.identifier name) st = .ok (storeResult (.identifier name)
            (.identifier name, { st with usedVariables := addUsed name st.usedVariables })) := by
          rw [fullEvaluate_miss 0 _ st hc]
          simp only [evaluateMiss, hb]
          rfl
        exact ⟨1, _, h⟩
      | some bound =>
        have hlc : LeavesCached st.expressionCache bound := hinv.1 _ (lookupKey_mem hb)
        obtain ⟨N, x, hx⟩ := value_terminates bound
          { st with usedVariables := addUsed name st.usedVariables } (hinv.used _) hlc
        have h : fullEvaluate (N + 1) (.identifier name) st =
            .ok (storeResult (.identifier name) x) := by
          rw [fullEvaluate_miss N _ st hc]
          simp only [evaluateMiss, hb, hx]
          rfl
        exact ⟨N + 1, _, h⟩
  | binary_operation op l r ihl ihr =>
    intro st hinv
    exact fullEvaluate_binary_terminates op l r st hinv (ihl st hinv)
      (fun st1 hinv1 _ => ihr st1 hinv1)

mutual
theorem analyzeUsage_mono (fuel fuel2 : Nat) (hle : fuel ≤ fuel2) :
    ∀ (s : Stmt) (st st1 : OptState), analyzeUsage fuel s st = .ok st1 →
    analyzeUsage fuel2 s st = .ok st1
  | .assignment identifier expression, st, st1, h => by
    unfold analyzeUsage at h ⊢
    obtain ⟨v, hv, hfin⟩ := Run.andThen_eq_ok.1 h
    rw [fullEvaluate_mono _ _ _ _ hv _ hle, Run.ok_andThen]
    exact hfin
  | .print expression, st, st1, h => by
    unfold analyzeUsage at h ⊢
    obtain ⟨v, hv, hfin⟩ := Run.andThen_eq_ok.1 h
    rw [fullEvaluate_mono _ _ _ _ hv _ hle, Run.ok_andThen]
    exact hfin
  | .if_ condition thenBlock, st, st1, h => by
    unfold analyzeUsage at h ⊢
    obtain ⟨c, hc, hfin⟩ := Run.andThen_eq_ok.1 h
    rw [fullEvaluate_mono _ _ _ _ hc _ hle, Run.ok_andThen]
    obtain ⟨cv, cst⟩ := c
    cases cv with
    | number n =>
      simp only at hfin ⊢
      split
      · rename_i ht
        rw [if_pos ht] at hfin
        exact analyzeUsageEach_mono fuel fuel2 hle thenBlock _ _ hfin
      · rename_i hf
        rw [if_neg hf] at hfin
        exact hfin
    | number_literal n => exact analyzeUsageEach_mono fuel fuel2 hle thenBlock _ _ hfin
    | identifier n => exact analyzeUsageEach_mono fuel fuel2 hle thenBlock _ _ hfin
    | binary_operation o l r => exact analyzeUsageEach_mono fuel fuel2 hle thenBlock _ _ hfin
theorem analyzeUsageEach_mono (fuel fuel2 : Nat) (hle : fuel ≤ fuel2) :
    ∀ (block : List Stmt) (st st1 : OptState), analyzeUsageEach fuel block st = .ok st1 →
    analyzeUsageEach fuel2 block st = .ok st1
  | [], st, st1, h => by
    unfold analyzeUsageEach at h ⊢
    exact h
  | s :: more, st, st1, h => by
    unfold analyzeUsageEach at h ⊢
    obtain ⟨st2, h2, hfin⟩ := Run.andThen_eq_ok.1 h
    rw [analyzeUsage_mono fuel fuel2 hle s _ _ h2, Run.ok_andThen]
    exact analyzeUsageEach_mono fuel fuel2 hle more _ _ hfin
end

theorem StoredLeavesCached.initial : StoredLeavesCached OptState.initial :=
  ⟨fun p hp => by simp [OptState.initial] at hp, fun p hp => by simp [OptState.initial] at hp⟩

theorem StoredLeavesCached.assign {st : OptState} (identifier : String) (value : Node)
    (h : StoredLeavesCached st) (hv : LeavesCached st.expressionCache value) :
    StoredLeavesCached { st with symbolTable := setKey identifier value st.symbolTable } := by
  constructor
  · intro p hp
    simp only [setKey, List.mem_cons] at hp
    rcases hp with rfl | hp
    · exact hv
    · exact h.1 p hp
  · exact h.2

mutual
theorem analyzeUsage_invariant (fuel : Nat) : ∀ (s : Stmt) (st st1 : OptState),
    analyzeUsage fuel s st = .ok st1 → StoredLeavesCached st → StoredLeavesCached st1
  | .assignment identifier expression, st, st1, h, hinv => by
    unfold analyzeUsage at h
    obtain ⟨v, hv, hfin⟩ := Run.andThen_eq_ok.1 h
    cases hfin
    have := fullEvaluate_invariant _ _ _ _ _ hv hinv
    exact this.1.assign identifier v.1 this.2
  | .print expression, st, st1, h, hinv => by
    unfold analyzeUsage at h
    obtain ⟨v, hv, hfin⟩ := Run.andThen_eq_ok.1 h
    cases hfin
    exact (fullEvaluate_invariant _ _ _ _ _ hv hinv).1
  | .if_ condition thenBlock, st, st1, h, hinv => by
    unfold analyzeUsage at h
    obtain ⟨c, hc, hfin⟩ := Run.andThen_eq_ok.1 h
    have h1 := (fullEvaluate_invariant _ _ _ _ _ hc hinv).1
    split at hfin
    · split at hfin
      · exact analyzeUsageEach_invariant fuel thenBlock _ _ hfin h1
      · cases hfin; exact h1
    · exact analyzeUsageEach_invariant fuel thenBlock _ _ hfin h1
theorem analyzeUsageEach_invariant (fuel : Nat) : ∀ (block : List Stmt) (st st1 : OptState),
    analyzeUsageEach fuel block st = .ok st1 → StoredLeavesCached st → StoredLeavesCached st1
  | [], st, st1, h, hinv => by
    unfold analyzeUsageEach at h
    cases h; exact hinv
  | s :: more, st, st1, h, hinv => by
    unfold analyzeUsageEach at h
    obtain ⟨st2, h2, hfin⟩ := Run.andThen_eq_ok.1 h
    exact analyzeUsageEach_invariant fuel more _ _ hfin
      (analyzeUsage_invariant fuel s _ _ h2 hinv)
end

mutual
theorem analyzeUsage_terminates : ∀ (s : Stmt) (st : OptState), StoredLeavesCached st →
    ∃ N st1, analyzeUsage N s st = .ok st1
  | .assignment identifier expression, st, hinv => by
    obtain ⟨N, x, hx⟩ := fullEvaluate_terminates expression st hinv
    exact ⟨N, _, by unfold analyzeUsage; rw [hx, Run.ok_andThen]⟩
  | .print expression, st, hinv => by
    obtain ⟨N, x, hx⟩ := fullEvaluate_terminates expression st hinv
    exact ⟨N, _, by unfold analyzeUsage; rw [hx, Run.ok_andThen]⟩
  | .if_ condition thenBlock, st, hinv => by
    obtain ⟨N, ⟨cv, cst⟩, hx⟩ := fullEvaluate_terminates condition st hinv
    have h1 := (fullEvaluate_invariant _ _ _ _ _ hx hinv).1
    obtain ⟨N2, st2, h2⟩ := analyzeUsageEach_terminates thenBlock cst h1
    have hx2 := fullEvaluate_mono _ _ _ _ hx (max N N2) (le_max_left _ _)
    have hb2 := analyzeUsageEach_mono N2 (max N N2) (le_max_right _ _) thenBlock _ _ h2
    cases cv with
    | number n =>
      by_cases ht : n.truthy = true
      · exact ⟨max N N2, st2, by
          unfold analyzeUsage; rw [hx2, Run.ok_andThen]; simp only [ht, if_true]; exact hb2⟩
      · exact ⟨max N N2, cst, by
          unfold analyzeUsage; rw [hx2, Run.ok_andThen]; simp [ht]⟩
    | number_literal n =>
      exact ⟨max N N2, st2, by unfold analyzeUsage; rw [hx2, Run.ok_andThen]; exact hb2⟩
    | identifier n =>
      exact ⟨max N N2, st2, by unfold analyzeUsage; rw [hx2, Run.ok_andThen]; exact hb2⟩
    | binary_operation o l r =>
      exact ⟨max N N2, st2, by unfold analyzeUsage; rw [hx2, Run.ok_andThen]; exact hb2⟩
theorem analyzeUsageEach_terminates : ∀ (block : List Stmt) (st : OptState),
    StoredLeavesCached st → ∃ N st1, analyzeUsageEach N block st = .ok st1
  | [], st, _ => ⟨0, st, by unfold analyzeUsageEach; rfl⟩
  | s :: more, st, hinv => by
    obtain ⟨N, st1, h1⟩ := analyzeUsage_terminates s st hinv
    have hi := analyzeUsage_invariant N s _ _ h1 hinv
    obtain ⟨N2, st2, h2⟩ := analyzeUsageEach_terminates more st1 hi
    have h1m := analyzeUsage_mono N (max N N2) (le_max_left _ _) s _ _ h1
    have h2m := analyzeUsageEach_mono N2 (max N N2) (le_max_right _ _) more _ _ h2
    exact ⟨max N N2, st2, by unfold analyzeUsageEach; rw [h1m, Run.ok_andThen]; exact h2m⟩
end

mutual
theorem generateOptimizedCode_mono (fuel fuel2 : Nat) (hle : fuel ≤ fuel2) :
    ∀ (s : Stmt) (st st1 : OptState), generateOptimizedCode fuel s st = .ok st1 →
    generateOptimizedCode fuel2 s st = .ok st1
  | .assignment identifier expression, st, st1, h => by
    unfold generateOptimizedCode at h ⊢
    obtain ⟨v, hv, hfin⟩ := Run.andThen_eq_ok.1 h
    rw [fullEvaluate_mono _ _ _ _ hv _ hle, Run.ok_andThen]
    exact hfin
  | .print expression, st, st1, h => by
    unfold generateOptimizedCode at h ⊢
    obtain ⟨v, hv, hfin⟩ := Run.andThen_eq_ok.1 h
    rw [fullEvaluate_mono _ _ _ _ hv _ hle, Run.ok_andThen]
    exact hfin
  | .if_ condition thenBlock, st, st1, h => by
    unfold generateOptimizedCode at h ⊢
    obtain ⟨c, hc, hfin⟩ := Run.andThen_eq_ok.1 h
    rw [fullEvaluate_mono _ _ _ _ hc _ hle, Run.ok_andThen]
    obtain ⟨cv, cst⟩ := c
    have hblock : ∀ (sta stb : OptState), generateOptimizedCodeEach fuel thenBlock sta = .ok stb →
        generateOptimizedCodeEach fuel2 thenBlock sta = .ok stb :=
      fun sta stb hab => generateOptimizedCodeEach_mono fuel fuel2 hle thenBlock sta stb hab
    cases cv with
    | number n =>
      simp only at hfin ⊢
      split
      · rename_i ht
        rw [if_pos ht] at hfin
        exact hblock _ _ hfin
      · rename_i hf
        rw [if_neg hf] at hfin
        exact hfin
    | number_literal n =>
      simp only at hfin ⊢
      obtain ⟨st2, h2, hfin⟩ := Run.andThen_eq_ok.1 hfin
      rw [hblock _ _ h2, Run.ok_andThen]
      exact hfin
    | identifier n =>
      simp only at hfin ⊢
      obtain ⟨st2, h2, hfin⟩ := Run.andThen_eq_ok.1 hfin
      rw [hblock _ _ h2, Run.ok_andThen]
      exact hfin
    | binary_operation o l r =>
      simp only at hfin ⊢
      obtain ⟨st2, h2, hfin⟩ := Run.andThen_eq_ok.1 hfin
      rw [hblock _ _ h2, Run.ok_andThen]
      exact hfin
theorem generateOptimizedCodeEach_mono (fuel fuel2 : Nat) (hle : fuel ≤ fuel2) :
    ∀ (block : List Stmt) (st st1 : OptState),
    generateOptimizedCodeEach fuel block st = .ok st1 →
    generateOptimizedCodeEach fuel2 block st = .ok st1
  | [], st, st1, h => by
    unfold generateOptimizedCodeEach at h ⊢
    exact h
  | s :: more, st, st1, h => by
    unfold generateOptimizedCodeEach at h ⊢
    obtain ⟨st2, h2, hfin⟩ := Run.andThen_eq_ok.1 h
    rw [generateOptimizedCode_mono fuel fuel2 hle s _ _ h2, Run.ok_andThen]
    exact generateOptimizedCodeEach_mono fuel fuel2 hle more _ _ hfin
end

theorem optimizeWith_mono (fuel fuel2 : Nat) (hle : fuel ≤ fuel2) (ast : List Stmt)
    (r : OptResult) (h : optimizeWith fuel ast = .ok r) : optimizeWith fuel2 ast = .ok r := by
  unfold optimizeWith at h ⊢
  obtain ⟨st1, h1, h⟩ := Run.andThen_eq_ok.1 h
  obtain ⟨st2, h2, h⟩ := Run.andThen_eq_ok.1 h
  rw [analyzeUsageEach_mono fuel fuel2 hle ast _ _ h1, Run.ok_andThen,
    generateOptimizedCodeEach_mono fuel fuel2 hle ast _ _ h2, Run.ok_andThen]
  exact h

/-- C18: the optimizer terminates on every program.  The initial state satisfies
the invariant that every identifier leaf of a stored value has a cache entry,
`fullEvaluate` and the first pass preserve it, and under it `fullEvaluate`
returns on every expression once the fuel is large enough; hence for every AST
both passes of `optimize` finish for all sufficiently large fuel, with one and
the same result.  `x = x + 1; print(x);` and `x = y; y = x; print(x);` are
optimized without running out of fuel. -/
theorem optimizer_terminates :
    (∀ ast : List Stmt, ∃ (N : Nat) (r : OptResult),
      ∀ fuel, N ≤ fuel → optimizeWith fuel ast = .ok r) ∧
    (∀ (e : Node) (st : OptState), StoredLeavesCached st →
      ∃ (N : Nat) (x : Node × OptState), ∀ fuel, N ≤ fuel → fullEvaluate fuel e st = .ok x) ∧
    StoredLeavesCached OptState.initial ∧
    (∀ (fuel : Nat) (e : Node) (st st1 : OptState) (r : Node),
      fullEvaluate fuel e st = .ok (r, st1) → StoredLeavesCached st →
      StoredLeavesCached st1 ∧ LeavesCached st1.expressionCache r) ∧
    (∀ (fuel : Nat) (s : Stmt) (st st1 : OptState),
      analyzeUsage fuel s st = .ok st1 → StoredLeavesCached st → StoredLeavesCached st1) ∧
    optimizeSource "x = x + 1; print(x);" =
      .ok { optimizedCode := "x = x + 1;\nprint(x);\n",
            symbolTable := [("x", .binary_operation "+" (.identifier "x")
              (.number (.fin false 1)))],
            usedVariables := ["x"] } ∧
    optimizeSource "x = y; y = x; print(x);" =
      .ok { optimizedCode := "x = y;\ny = y;\nprint(y);\n",
            symbolTable := [("y", .identifier "y"), ("x", .identifier "y")],
            usedVariables := ["y", "x"] } := by
  refine ⟨?_, ?_, StoredLeavesCached.initial, ?_, ?_, by decide!, by decide!⟩
  · intro ast
    obtain ⟨N, st1, h1⟩ := analyzeUsageEach_terminates ast OptState.initial
      StoredLeavesCached.initial
    obtain ⟨text, ht⟩ := generateOptimizedCodeEach_readonly N ast _ _ h1 st1
      (CacheExtends.refl _)
    have hN : optimizeWith N ast = .ok (OptResult.mk text st1.symbolTable
        st1.usedVariables) := by
      unfold optimizeWith
      rw [h1, Run.ok_andThen, ht, Run.ok_andThen]
    exact ⟨N, _, fun fuel hle => optimizeWith_mono N fuel hle ast _ hN⟩
  · intro e st hinv
    obtain ⟨N, x, hx⟩ := fullEvaluate_terminates e st hinv
    exact ⟨N, x, fun fuel hle => fullEvaluate_mono _ _ _ _ hx fuel hle⟩
  · intro fuel e st st1 r h hinv
    exact fullEvaluate_invariant fuel e st r st1 h hinv
  · intro fuel s st st1 h hinv
    exact analyzeUsage_invariant fuel s st st1 h hinv

theorem optimizer_terminates_witness :
    ∃ (N : Nat) (x : Node × OptState), ∀ fuel, N ≤ fuel →
      fullEvaluate fuel (.identifier "x") OptState.initial = .ok x :=
  optimizer_terminates.2.1 (.identifier "x") OptState.initial
    ⟨fun p hp => by simp [OptState.initial] at hp, fun p hp => by simp [OptState.initial] at hp⟩

theorem joinWords_cons (w : String) (ws : List String) (h : ws ≠ []) :
    joinWords (w :: ws) = w ++ " " ++ joinWords ws := by
  cases ws with
  | nil => exact absurd rfl h
  | cons w2 more => rfl

theorem joinWords_append (a b : List String) (ha : a ≠ []) (hb : b ≠ []) :
    joinWords (a ++ b) = joinWords a ++ " " ++ joinWords b := by
  induction a with
  | nil => exact absurd rfl ha
  | cons w ws ih =>
    cases ws with
    | nil => simp [joinWords_cons _ _ hb, joinWords]
    | cons w2 more =>
      show joinWords (w :: (w2 :: more ++ b)) =
        joinWords (w :: w2 :: more) ++ " " ++ joinWords b
      rw [joinWords_cons w (w2 :: more ++ b) (by simp), ih (by simp),
        joinWords_cons w (w2 :: more) (by simp)]
      simp [String.append_assoc]

theorem formatWords_ne_nil (st : OptState) (v : Node) : formatWords st v ≠ [] := by
  cases v with
  | number n => simp [formatWords]
  | number_literal n => simp [formatWords]
  | identifier name =>
    simp only [formatWords]
    generalize lookupKey name st.symbolTable = o
    rcases o with _ | (c | c | c | c) <;> simp
  | binary_operation op l r =>
    simp only [formatWords]
    generalize lookupKey _ st.expressionCache = o
    generalize formatExpression st l = fl
    generalize formatExpression st r = fr
    rcases o with _ | (c | c | c | c) <;> cases fl <;> cases fr <;> simp only [] <;>
      (try split_ifs) <;> simp

theorem formatExpression_words (st : OptState) (v : Node) :
    (formatExpression st v).toString = joinWords ((formatWords st v).map Word.text) := by
  induction v with
  | number n => rfl
  | number_literal n => rfl
  | identifier name =>
    simp only [formatExpression, formatWords]
    generalize lookupKey name st.symbolTable = o
    rcases o with _ | (c | c | c | c) <;> rfl
  | binary_operation op l r ihl ihr =>
    have hjoin : (formatExpression st l).toString ++ " " ++ op ++ " " ++
        (formatExpression st r).toString =
        joinWords ((formatWords st l ++ [Word.operator op] ++ formatWords st r).map
          Word.text) := by
      rw [ihl, ihr, List.map_append, List.map_append,
        joinWords_append _ _ (by simp [formatWords_ne_nil])
          (by simp [formatWords_ne_nil]),
        joinWords_append _ _ (by simp [formatWords_ne_nil]) (by simp)]
      simp [joinWords, Word.text, String.append_assoc]
    simp only [formatExpression, formatWords]
    generalize lookupKey _ st.expressionCache = o
    generalize formatExpression st l = fl at hjoin ⊢
    generalize formatExpression st r = fr at hjoin ⊢
    rcases o with _ | (c | c | c | c) <;> cases fl <;> cases fr <;> simp only [] <;>
      (try split_ifs) <;> first | rfl | exact hjoin

theorem formatWords_names (st : OptState) (v : Node) :
    ∀ n ∈ wordNames (formatWords st v), n ∈ v.identifiers := by
  induction v with
  | number n => simp [formatWords, wordNames]
  | number_literal n => simp [formatWords, wordNames]
  | identifier name =>
    simp only [formatWords]
    generalize lookupKey name st.symbolTable = o
    rcases o with _ | (c | c | c | c) <;> simp [wordNames, Node.identifiers]
  | binary_operation op l r ihl ihr =>
    have hjoin : ∀ n ∈ wordNames (formatWords st l ++ [Word.operator op] ++ formatWords st r),
        n ∈ (Node.binary_operation op l r).identifiers := by
      intro n hn
      simp only [wordNames, List.filterMap_append, List.mem_append] at hn
      simp only [Node.identifiers, List.mem_append]
      rcases hn with (hn | hn) | hn
      · exact Or.inl (ihl n hn)
      · simp at hn
      · exact Or.inr (ihr n hn)
    simp only [formatWords]
    generalize lookupKey _ st.expressionCache = o
    generalize formatExpression st l = fl
    generalize formatExpression st r = fr
    rcases o with _ | (c | c | c | c) <;> cases fl <;> cases fr <;> simp only [] <;>
      (try split_ifs) <;> first | exact hjoin | simp [wordNames]

/-! ## Used variables -/

theorem mem_addUsed (y name : String) (used : List String) :
    y ∈ addUsed name used ↔ y = name ∨ y ∈ used := by
  unfold addUsed
  split
  · rename_i h
    constructor
    · exact Or.inr
    · rintro (rfl | h2)
      · exact h
      · exact h2
  · simp only [List.mem_append, List.mem_singleton]
    exact Or.comm

theorem StoredLeavesUsed.initial_used : StoredLeavesUsed OptState.initial :=
  ⟨fun p hp => by simp [OptState.initial] at hp, fun p hp => by simp [OptState.initial] at hp⟩

theorem StoredLeavesUsed.addUsed {st : OptState} (name : String) (h : StoredLeavesUsed st) :
    StoredLeavesUsed { st with usedVariables := addUsed name st.usedVariables } :=
  ⟨fun p hp y hy => (mem_addUsed _ _ _).2 (Or.inr (h.1 p hp y hy)),
   fun p hp y hy => (mem_addUsed _ _ _).2 (Or.inr (h.2 p hp y hy))⟩

theorem StoredLeavesUsed.store_used {st : OptState} (key : String) (value : Node)
    (h : StoredLeavesUsed st) (hv : ∀ y ∈ value.identifiers, y ∈ st.usedVariables) :
    StoredLeavesUsed { st with expressionCache := setKey key value st.expressionCache } := by
  refine ⟨h.1, ?_⟩
  intro p hp
  simp only [setKey, List.mem_cons] at hp
  rcases hp with rfl | hp
  · exact hv
  · exact h.2 p hp

theorem StoredLeavesUsed.assign_used {st : OptState} (identifier : String) (value : Node)
    (h : StoredLeavesUsed st) (hv : ∀ y ∈ value.identifiers, y ∈ st.usedVariables) :
    StoredLeavesUsed { st with symbolTable := setKey identifier value st.symbolTable } := by
  refine ⟨?_, h.2⟩
  intro p hp
  simp only [setKey, List.mem_cons] at hp
  rcases hp with rfl | hp
  · exact hv
  · exact h.1 p hp

theorem fullEvaluate_used : ∀ (fuel : Nat) (e : Node) (st : OptState) (v : Node)
    (st1 : OptState), fullEvaluate fuel e st = .ok (v, st1) → StoredLeavesUsed st →
    UsedStep e.identifiers st st1 ∧ ∀ y ∈ v.identifiers, y ∈ st1.usedVariables := by
  intro fuel
  induction fuel with
  | zero => intro e st v st1 h; simp [fullEvaluate] at h
  | succ f ih =>
    intro e st v st1 h hinv
    rw [fullEvaluate_succ] at h
    cases hc : lookupKey (getExpressionKey e) st.expressionCache with
    | some c =>
      rw [hc] at h
      cases h
      exact ⟨⟨hinv, fun y hy => hy, fun y hy => Or.inl hy⟩, hinv.2 _ (lookupKey_mem hc)⟩
    | none =>
      rw [hc] at h
      simp only at h
      obtain ⟨res, hres, hfin⟩ := Run.andThen_eq_ok.1 h
      cases hfin
      have key : UsedStep e.identifiers st res.2 ∧
          ∀ y ∈ res.1.identifiers, y ∈ res.2.usedVariables := by
        cases e with
        | number n =>
          cases hres
          exact ⟨⟨hinv, fun y hy => hy, fun y hy => Or.inl hy⟩,
            fun y hy => by simp [Node.identifiers] at hy⟩
        | number_literal n =>
          cases hres
          exact ⟨⟨hinv, fun y hy => hy, fun y hy => Or.inl hy⟩,
            fun y hy => by simp [Node.identifiers] at hy⟩
        | identifier name =>
          simp only [evaluateMiss] at hres
          have hstep : ∀ y ∈ addUsed name st.usedVariables,
              y ∈ st.usedVariables ∨ y ∈ (Node.identifier name).identifiers := by
            intro y hy
            rcases (mem_addUsed _ _ _).1 hy with rfl | hy
            · exact Or.inr (by simp [Node.identifiers])
            · exact Or.inl hy
          cases hb : lookupKey name st.symbolTable with
          | some bound =>
            rw [hb] at hres
            have := ih _ _ _ _ hres (hinv.addUsed name)
            obtain ⟨⟨h1, h2, h3⟩, h4⟩ := this
            refine ⟨⟨h1, fun y hy => h2 y ((mem_addUsed _ _ _).2 (Or.inr hy)), ?_⟩, h4⟩
            intro y hy
            rcases h3 y hy with h | h
            · exact hstep y h
            · exact Or.inl (hinv.1 _ (lookupKey_mem hb) y h)
          | none =>
            rw [hb] at hres
            cases hres
            refine ⟨⟨hinv.addUsed name, fun y hy => (mem_addUsed _ _ _).2 (Or.inr hy),
              hstep⟩, ?_⟩
            intro y hy
            simp only [Node.identifiers, List.mem_singleton] at hy
            exact (mem_addUsed _ _ _).2 (Or.inl hy)
        | binary_operation op l r =>
          simp only [evaluateMiss] at hres
          obtain ⟨lres, hl, hres⟩ := Run.andThen_eq_ok.1 hres
          obtain ⟨rres, hr, hres⟩ := Run.andThen_eq_ok.1 hres
          cases hres
          obtain ⟨⟨a1, a2, a3⟩, a4⟩ := ih _ _ _ _ hl hinv
          obtain ⟨⟨b1, b2, b3⟩, b4⟩ := ih _ _ _ _ hr a1
          refine ⟨⟨b1, fun y hy => b2 y (a2 y hy), ?_⟩, ?_⟩
          · intro y hy
            simp only [Node.identifiers, List.mem_append]
            rcases b3 y hy with h | h
            · rcases a3 y h with h | h
              · exact Or.inl h
              · exact Or.inr (Or.inl h)
            · exact Or.inr (Or.inr h)
          · intro y hy
            rcases combine_identifiers op _ _ y hy with h | h
            · exact b2 y (a4 y h)
            · exact b4 y h
      obtain ⟨⟨k1, k2, k3⟩, k4⟩ := key
      exact ⟨⟨k1.store_used _ _ k4, k2, k3⟩, k4⟩

theorem UsedStep.trans_used {a b : List String} {st st1 st2 : OptState}
    (h1 : UsedStep a st st1) (h2 : UsedStep b st1 st2) : UsedStep (a ++ b) st st2 := by
  refine ⟨h2.1, fun y hy => h2.2.1 y (h1.2.1 y hy), ?_⟩
  intro y hy
  simp only [List.mem_append]
  rcases h2.2.2 y hy with h | h
  · rcases h1.2.2 y h with h | h
    · exact Or.inl h
    · exact Or.inr (Or.inl h)
  · exact Or.inr (Or.inr h)

theorem UsedStep.refl_used (a : List String) {st : OptState} (h : StoredLeavesUsed st) :
    UsedStep a st st :=
  ⟨h, fun _ hy => hy, fun _ hy => Or.inl hy⟩

mutual
theorem analyzeUsage_used (fuel : Nat) : ∀ (s : Stmt) (st st1 : OptState),
    analyzeUsage fuel s st = .ok st1 → StoredLeavesUsed st → UsedStep s.identifiers st st1
  | .assignment identifier expression, st, st1, h, hinv => by
    unfold analyzeUsage at h
    obtain ⟨v, hv, hfin⟩ := Run.andThen_eq_ok.1 h
    cases hfin
    obtain ⟨⟨a1, a2, a3⟩, a4⟩ := fullEvaluate_used _ _ _ _ _ hv hinv
    exact ⟨a1.assign_used identifier v.1 a4, a2, a3⟩
  | .print expression, st, st1, h, hinv => by
    unfold analyzeUsage at h
    obtain ⟨v, hv, hfin⟩ := Run.andThen_eq_ok.1 h
    cases hfin
    exact (fullEvaluate_used _ _ _ _ _ hv hinv).1
  | .if_ condition thenBlock, st, st1, h, hinv => by
    unfold analyzeUsage at h
    obtain ⟨c, hc, hfin⟩ := Run.andThen_eq_ok.1 h
    have h1 := (fullEvaluate_used _ _ _ _ _ hc hinv).1
    have hblock : ∀ st2, analyzeUsageEach fuel thenBlock c.2 = .ok st2 →
        UsedStep (Stmt.if_ condition thenBlock).identifiers st st2 := fun st2 h2 => by
      rw [Stmt.identifiers]
      exact h1.trans_used (analyzeUsageEach_used fuel thenBlock _ _ h2 h1.1)
    have hskip : UsedStep (Stmt.if_ condition thenBlock).identifiers st c.2 := by
      rw [Stmt.identifiers]
      exact h1.trans_used (UsedStep.refl_used _ h1.1)
    split at hfin
    · split at hfin
      · exact hblock _ hfin
      · cases hfin; exact hskip
    · exact hblock _ hfin
theorem analyzeUsageEach_used (fuel : Nat) : ∀ (block : List Stmt) (st st1 : OptState),
    analyzeUsageEach fuel block st = .ok st1 → StoredLeavesUsed st →
    UsedStep (programIdentifiers block) st st1
  | [], st, st1, h, hinv => by
    unfold analyzeUsageEach at h
    cases h; exact UsedStep.refl_used _ hinv
  | s :: more, st, st1, h, hinv => by
    unfold analyzeUsageEach at h
    obtain ⟨st2, h2, hfin⟩ := Run.andThen_eq_ok.1 h
    have h1 := analyzeUsage_used fuel s _ _ h2 hinv
    rw [programIdentifiers]
    exact h1.trans_used (analyzeUsageEach_used fuel more _ _ hfin h1.1)
end

theorem renderLines_append (a b : List Line) :
    renderLines (a ++ b) = renderLines a ++ renderLines b := by
  induction a with
  | nil => simp [renderLines]
  | cons l more ih => simp [renderLines, ih, String.append_assoc]

theorem renderLines_single (l : Line) : renderLines [l] = l.text := by
  simp [renderLines]

theorem Line.WrittenFor.mono {used used2 : List String} {l : Line}
    (h : l.WrittenFor used) (hmono : ∀ y ∈ used, y ∈ used2) : l.WrittenFor used2 := by
  rcases h with h | ⟨vst, v, hv, h⟩
  · exact Or.inl h
  · refine Or.inr ⟨vst, v, fun y hy => hmono y (hv y hy), ?_⟩
    rcases h with ⟨i, hi, h⟩ | h | h
    · exact Or.inl ⟨i, hmono i hi, h⟩
    · exact Or.inr (Or.inl h)
    · exact Or.inr (Or.inr h)

theorem Line.WrittenFor.reads {used : List String} {l : Line} (h : l.WrittenFor used) :
    ∀ n ∈ l.reads, n ∈ used := by
  rcases h with h | ⟨vst, v, hv, h⟩
  · subst h
    intro n hn
    simp [Line.reads] at hn
  · rcases h with ⟨i, -, h⟩ | h | h <;> subst h <;> intro n hn <;>
      exact hv n (formatWords_names vst v n hn)

theorem Line.WrittenFor.assigned {used : List String} {identifier : String}
    {words : List Word} (h : (Line.assign identifier words).WrittenFor used) :
    identifier ∈ used := by
  rcases h with h | ⟨vst, v, hv, h⟩
  · cases h
  · rcases h with ⟨i, hi, h⟩ | h | h
    · cases h; exact hi
    · cases h
    · cases h

theorem Appends.nil (st : OptState) : Appends [] st st := by
  refine ⟨by simp [renderLines], ?_⟩
  intro l hl
  simp at hl

theorem Appends.trans_lines {a b : List Line} {st st1 st2 : OptState} (h1 : Appends a st st1)
    (h2 : Appends b st1 st2) (hmono : ∀ y ∈ st1.usedVariables, y ∈ st2.usedVariables) :
    Appends (a ++ b) st st2 := by
  refine ⟨by rw [h2.1, h1.1, renderLines_append, String.append_assoc], ?_⟩
  intro l hl
  rcases List.mem_append.1 hl with h | h
  · exact (h1.2 l h).mono hmono
  · exact h2.2 l h

theorem UsedStep.after_emit {a : List String} {st st1 : OptState} (text : String)
    (h : UsedStep a st st1) : UsedStep a st (OptiCompiler.emit text st1) := h

theorem Appends.emitted (l : Line) {st vst : OptState}
    (hframe : vst.optimizedCode = st.optimizedCode)
    (hw : l.WrittenFor vst.usedVariables) :
    Appends [l] st (OptiCompiler.emit l.text vst) := by
  refine ⟨by simp [OptiCompiler.emit, renderLines, hframe], ?_⟩
  intro l2 hl2
  simp only [List.mem_singleton] at hl2
  subst hl2
  exact hw

theorem Appends.unchanged {st vst : OptState}
    (hframe : vst.optimizedCode = st.optimizedCode) : Appends [] st vst := by
  refine ⟨by simp [renderLines, hframe], ?_⟩
  intro l hl
  simp at hl

theorem assignment_text (identifier : String) (st : OptState) (v : Node) :
    identifier ++ " = " ++ (formatExpression st v).toString ++ ";\n" =
      (Line.assign identifier (formatWords st v)).text := by
  rw [formatExpression_words]; rfl

theorem print_text (st : OptState) (v : Node) :
    "print(" ++ (formatExpression st v).toString ++ ");\n" =
      (Line.print (formatWords st v)).text := by
  rw [formatExpression_words]; rfl

theorem if_text (st : OptState) (v : Node) :
    "if (" ++ (formatExpression st v).toString ++ ") \x7b\n" =
      (Line.ifOpen (formatWords st v)).text := by
  rw [formatExpression_words]; rfl

/-- The second pass on an assignment: one line `identifier = ...;` when the
identifier is in the used-variables set, nothing otherwise. -/
theorem generateOptimizedCode_assignment (fuel : Nat) (identifier : String)
    (expression : Node) (st vst : OptState) (v : Node)
    (h : fullEvaluate fuel expression st = .ok (v, vst)) :
    generateOptimizedCode fuel (.assignment identifier expression) st =
      if identifier ∈ vst.usedVariables
      then .ok (emit (Line.assign identifier (formatWords vst v)).text vst)
      else .ok vst := by
  unfold generateOptimizedCode
  rw [h, Run.ok_andThen]
  simp only
  split
  · rw [← assignment_text]
    cases v <;> rfl
  · rfl

/-- The second pass on a `print` statement: one line `print(...);`. -/
theorem generateOptimizedCode_print (fuel : Nat) (expression : Node) (st vst : OptState)
    (v : Node) (h : fullEvaluate fuel expression st = .ok (v, vst)) :
    generateOptimizedCode fuel (.print expression) st =
      .ok (emit (Line.print (formatWords vst v)).text vst) := by
  unfold generateOptimizedCode
  rw [h, Run.ok_andThen, ← print_text]
  cases v with
  | number n => rfl
  | number_literal n => rfl
  | binary_operation o l r => rfl
  | identifier name =>
    simp only [formatExpression]
    generalize lookupKey name vst.symbolTable = o
    rcases o with _ | (c | c | c | c) <;> rfl

mutual
theorem generateOptimizedCode_lines (fuel : Nat) : ∀ (s : Stmt) (st st1 : OptState),
    generateOptimizedCode fuel s st = .ok st1 → StoredLeavesUsed st →
    UsedStep s.identifiers st st1 ∧ ∃ lines, Appends lines st st1
  | .assignment identifier expression, st, st1, h, hinv => by
    have h0 := h
    unfold generateOptimizedCode at h0
    obtain ⟨⟨v, vst⟩, hv, -⟩ := Run.andThen_eq_ok.1 h0
    rw [generateOptimizedCode_assignment fuel identifier expression st vst v hv] at h
    obtain ⟨hstep, hleaves⟩ := fullEvaluate_used _ _ _ _ _ hv hinv
    have hframe := (fullEvaluate_frame _ _ _ _ _ hv).1
    split at h
    · rename_i hmem
      cases h
      exact ⟨hstep.after_emit _, _, Appends.emitted _ hframe
        (Or.inr ⟨vst, v, hleaves, Or.inl ⟨identifier, hmem, rfl⟩⟩)⟩
    · cases h
      exact ⟨hstep, [], Appends.unchanged hframe⟩
  | .print expression, st, st1, h, hinv => by
    have h0 := h
    unfold generateOptimizedCode at h0
    obtain ⟨⟨v, vst⟩, hv, -⟩ := Run.andThen_eq_ok.1 h0
    rw [generateOptimizedCode_print fuel expression st vst v hv] at h
    obtain ⟨hstep, hleaves⟩ := fullEvaluate_used _ _ _ _ _ hv hinv
    have hframe := (fullEvaluate_frame _ _ _ _ _ hv).1
    cases h
    exact ⟨hstep.after_emit _, _, Appends.emitted _ hframe
      (Or.inr ⟨vst, v, hleaves, Or.inr (Or.inl rfl)⟩)⟩
  | .if_ condition thenBlock, st, st1, h, hinv => by
    unfold generateOptimizedCode at h
    obtain ⟨⟨cv, cst⟩, hc, hfin⟩ := Run.andThen_eq_ok.1 h
    obtain ⟨hstep, hleaves⟩ := fullEvaluate_used _ _ _ _ _ hc hinv
    have hframe := (fullEvaluate_frame _ _ _ _ _ hc).1
    have hblock : ∀ st2, generateOptimizedCodeEach fuel thenBlock cst = .ok st2 →
        UsedStep (Stmt.if_ condition thenBlock).identifiers st st2 ∧
        ∃ lines, Appends lines st st2 := fun st2 h2 => by
      obtain ⟨b1, lines, b2⟩ := generateOptimizedCodeEach_lines fuel thenBlock _ _ h2 hstep.1
      rw [Stmt.identifiers]
      exact ⟨hstep.trans_used b1, lines, (Appends.unchanged hframe).trans_lines b2 b1.2.1⟩
    have hopen : ∀ st2, generateOptimizedCodeEach fuel thenBlock
          (emit ("if (" ++ (formatExpression cst cv).toString ++ ") \x7b\n") cst) = .ok st2 →
        UsedStep (Stmt.if_ condition thenBlock).identifiers st (emit "\x7d\n" st2) ∧
        ∃ lines, Appends lines st (emit "\x7d\n" st2) := fun st2 h2 => by
      obtain ⟨b1, lines, b2⟩ := generateOptimizedCodeEach_lines fuel thenBlock _ _ h2 hstep.1
      rw [Stmt.identifiers]
      refine ⟨hstep.trans_used b1, [Line.ifOpen (formatWords cst cv)] ++ lines ++ [Line.close], ?_⟩
      have e1 : Appends [Line.ifOpen (formatWords cst cv)] st
          (emit ("if (" ++ (formatExpression cst cv).toString ++ ") \x7b\n") cst) := by
        rw [if_text]
        exact Appends.emitted _ hframe (Or.inr ⟨cst, cv, hleaves, Or.inr (Or.inr rfl)⟩)
      have e3 : Appends [Line.close] st2 (emit "\x7d\n" st2) :=
        Appends.emitted Line.close rfl (Or.inl rfl)
      exact ((e1.trans_lines b2 b1.2.1).trans_lines e3 (fun y hy => hy))
    cases cv with
    | number n =>
      simp only at hfin
      split at hfin
      · exact hblock _ hfin
      · cases hfin
        rw [Stmt.identifiers]
        exact ⟨hstep.trans_used (UsedStep.refl_used _ hstep.1), [], Appends.unchanged hframe⟩
    | number_literal n =>
      simp only at hfin
      obtain ⟨st2, h2, hfin⟩ := Run.andThen_eq_ok.1 hfin
      cases hfin
      exact hopen _ h2
    | identifier n =>
      simp only at hfin
      obtain ⟨st2, h2, hfin⟩ := Run.andThen_eq_ok.1 hfin
      cases hfin
      exact hopen _ h2
    | binary_operation o l r =>
      simp only at hfin
      obtain ⟨st2, h2, hfin⟩ := Run.andThen_eq_ok.1 hfin
      cases hfin
      exact hopen _ h2
theorem generateOptimizedCodeEach_lines (fuel : Nat) : ∀ (block : List Stmt)
    (st st1 : OptState), generateOptimizedCodeEach fuel block st = .ok st1 →
    StoredLeavesUsed st →
    UsedStep (programIdentifiers block) st st1 ∧ ∃ lines, Appends lines st st1
  | [], st, st1, h, hinv => by
    unfold generateOptimizedCodeEach at h
    cases h
    exact ⟨UsedStep.refl_used _ hinv, [], Appends.nil _⟩
  | s :: more, st, st1, h, hinv => by
    unfold generateOptimizedCodeEach at h
    obtain ⟨st2, h2, hfin⟩ := Run.andThen_eq_ok.1 h
    obtain ⟨a1, la, a2⟩ := generateOptimizedCode_lines fuel s _ _ h2 hinv
    obtain ⟨b1, lb, b2⟩ := generateOptimizedCodeEach_lines fuel more _ _ hfin a1.1
    rw [programIdentifiers]
    exact ⟨a1.trans_used b1, la ++ lb, a2.trans_lines b2 b1.2.1⟩
end

mutual
theorem analyzeUsage_code (fuel : Nat) : ∀ (s : Stmt) (st st1 : OptState),
    analyzeUsage fuel s st = .ok st1 → st1.optimizedCode = st.optimizedCode
  | .assignment identifier expression, st, st1, h => by
    unfold analyzeUsage at h
    obtain ⟨v, hv, hfin⟩ := Run.andThen_eq_ok.1 h
    cases hfin
    exact (fullEvaluate_frame _ _ _ _ _ hv).1
  | .print expression, st, st1, h => by
    unfold analyzeUsage at h
    obtain ⟨v, hv, hfin⟩ := Run.andThen_eq_ok.1 h
    cases hfin
    exact (fullEvaluate_frame _ _ _ _ _ hv).1
  | .if_ condition thenBlock, st, st1, h => by
    unfold analyzeUsage at h
    obtain ⟨c, hc, hfin⟩ := Run.andThen_eq_ok.1 h
    have h1 := (fullEvaluate_frame _ _ _ _ _ hc).1
    split at hfin
    · split at hfin
      · exact (analyzeUsageEach_code fuel thenBlock _ _ hfin).trans h1
      · cases hfin; exact h1
    · exact (analyzeUsageEach_code fuel thenBlock _ _ hfin).trans h1
theorem analyzeUsageEach_code (fuel : Nat) : ∀ (block : List Stmt) (st st1 : OptState),
    analyzeUsageEach fuel block st = .ok st1 → st1.optimizedCode = st.optimizedCode
  | [], st, st1, h => by
    unfold analyzeUsageEach at h
    cases h; rfl
  | s :: more, st, st1, h => by
    unfold analyzeUsageEach at h
    obtain ⟨st2, h2, hfin⟩ := Run.andThen_eq_ok.1 h
    exact (analyzeUsageEach_code fuel more _ _ hfin).trans (analyzeUsage_code fuel s _ _ h2)
end

/-- The optimized text is a list of lines, each written for the returned
used-variables list, which contains only identifiers that occur in expressions
of the program. -/
theorem optimizeWith_lines (fuel : Nat) (ast : List Stmt) (r : OptResult)
    (h : optimizeWith fuel ast = .ok r) :
    (∀ y ∈ r.usedVariables, y ∈ programIdentifiers ast) ∧
    ∃ lines, r.optimizedCode = renderLines lines ∧
      ∀ l ∈ lines, l.WrittenFor r.usedVariables := by
  unfold optimizeWith at h
  obtain ⟨st1, h1, h⟩ := Run.andThen_eq_ok.1 h
  obtain ⟨st2, h2, h⟩ := Run.andThen_eq_ok.1 h
  cases h
  have u1 := analyzeUsageEach_used fuel ast _ _ h1 StoredLeavesUsed.initial_used
  obtain ⟨u2, lines, hl⟩ := generateOptimizedCodeEach_lines fuel ast _ _ h2 u1.1
  have hcode := analyzeUsageEach_code fuel ast _ _ h1
  refine ⟨?_, lines, ?_, hl.2⟩
  · intro y hy
    rcases u2.2.2 y hy with h | h
    · rcases u1.2.2 y h with h | h
      · simp [OptState.initial] at h
      · exact h
    · exact h
  · show st2.optimizedCode = renderLines lines
    rw [hl.1, hcode]
    simp [OptState.initial]

/-- C3: dead-code elimination.  Pass 2 appends the line `identifier = ...;` for
an assignment it visits exactly when the identifier is in the used-variables
set, and nothing otherwise; an identifier that occurs in no expression of the
program is not in the returned used-variables list, and the optimized text is
a list of lines none of which assigns it; `y = 10; print(5);` optimizes to
`print(5);`. -/
theorem dead_code_elimination :
    (∀ (fuel : Nat) (identifier : String) (expression : Node) (st vst : OptState) (v : Node),
      fullEvaluate fuel expression st = .ok (v, vst) →
      (identifier ∈ vst.usedVariables →
        generateOptimizedCode fuel (.assignment identifier expression) st =
          .ok (emit (Line.assign identifier (formatWords vst v)).text vst)) ∧
      (identifier ∉ vst.usedVariables →
        generateOptimizedCode fuel (.assignment identifier expression) st = .ok vst)) ∧
    (∀ (fuel : Nat) (ast : List Stmt) (r : OptResult) (y : String),
      optimizeWith fuel ast = .ok r → y ∉ programIdentifiers ast →
      y ∉ r.usedVariables ∧
      ∃ lines, r.optimizedCode = renderLines lines ∧
        ∀ words, Line.assign y words ∉ lines) ∧
    optimizeSource "y = 10; print(5);" =
      .ok { optimizedCode := "print(5);\n",
            symbolTable := [("y", .number (.fin false 10))], usedVariables := [] } := by
  refine ⟨?_, ?_, by decide!⟩
  · intro fuel identifier expression st vst v h
    rw [generateOptimizedCode_assignment fuel identifier expression st vst v h]
    exact ⟨fun hm => by rw [if_pos hm], fun hm => by rw [if_neg hm]⟩
  · intro fuel ast r y h hy
    obtain ⟨hused, lines, hcode, hl⟩ := optimizeWith_lines fuel ast r h
    have hyu : y ∉ r.usedVariables := fun hm => hy (hused y hm)
    exact ⟨hyu, lines, hcode, fun words hm => hyu (hl _ hm).assigned⟩

theorem dead_code_elimination_witness :
    "y" ∉ ([] : List String) ∧
    ∃ lines, "print(5);\n" = renderLines lines ∧ ∀ words, Line.assign "y" words ∉ lines :=
  dead_code_elimination.2.1 6
    [.assignment "y" (.number_literal 10), .print (.number_literal 5)]
    { optimizedCode := "print(5);\n", symbolTable := [("y", .number (.fin false 10))],
      usedVariables := [] } "y" (by decide!) (by decide)

/-- C20 (counterexample): in the optimized text of
`Infinity = 5; x = 1 / 0; print(x);` the identifier `Infinity` stands inside
`print(...)` and on the right of `=`, it is not in the used-variables list, and
the assignment to it has been dropped. -/
theorem dangling_infinity :
    optimizeSource "Infinity = 5; x = 1 / 0; print(x);" =
      .ok { optimizedCode := "x = Infinity;\nprint(Infinity);\n",
            symbolTable := [("x", .number (.inf false)),
              ("Infinity", .number (.fin false 5))],
            usedVariables := ["x"] } ∧
    tokenize "x = Infinity;\nprint(Infinity);\n" =
      .ok [⟨.IDENTIFIER, "x"⟩, ⟨.OPERATOR, "="⟩, ⟨.IDENTIFIER, "Infinity"⟩,
        ⟨.PUNCTUATION, ";"⟩, ⟨.KEYWORD, "print"⟩, ⟨.PUNCTUATION, "("⟩,
        ⟨.IDENTIFIER, "Infinity"⟩, ⟨.PUNCTUATION, ")"⟩, ⟨.PUNCTUATION, ";"⟩] ∧
    "Infinity" ∉ ["x"] := by
  refine ⟨by decide!, by decide!, by decide⟩

/-- C20 (amended): the optimized text is a list of lines `id = words;`,
`print(words);`, `if (words) {` and `}`, where the words of each line are what
`formatExpression` writes for a value: numbers, names of identifier nodes and
operators, separated by single spaces.  Every name written for an identifier
node is a member of the used-variables list that `optimize` returns, and so is
every assigned identifier.  (The words `Infinity` and `NaN` written for
non-finite numbers are not names of identifier nodes and are not covered.) -/
theorem optimized_text_reads_used (fuel : Nat) (ast : List Stmt) (r : OptResult)
    (h : optimizeWith fuel ast = .ok r) :
    ∃ lines, r.optimizedCode = renderLines lines ∧
      ∀ l ∈ lines, l.WrittenFor r.usedVariables ∧ ∀ n ∈ l.reads, n ∈ r.usedVariables := by
  obtain ⟨-, lines, hcode, hl⟩ := optimizeWith_lines fuel ast r h
  exact ⟨lines, hcode, fun l hm => ⟨hl l hm, (hl l hm).reads⟩⟩

theorem optimized_text_reads_used_witness :
    ∃ lines, "x = a;\nprint(a);\n" = renderLines lines ∧
      ∀ l ∈ lines, l.WrittenFor ["a", "x"] ∧ ∀ n ∈ l.reads, n ∈ ["a", "x"] :=
  optimized_text_reads_used 6
    [.assignment "x" (.identifier "a"), .print (.identifier "x")]
    { optimizedCode := "x = a;\nprint(a);\n", symbolTable := [("x", .identifier "a")],
      usedVariables := ["a", "x"] } (by decide!)

/-! ## Properties of the code generator -/

theorem genPrint_spec (st : GenState) (line : String) :
    ∃ new, genPrint st line =
        { st with machineCode := st.machineCode ++ new } ∧
      ∀ i ∈ new, i.destination? = none ∨ i.destination? = some 0 := by
  unfold genPrint
  simp only
  split
  · exact ⟨_, rfl, by simp [Instr.destination?]⟩
  · exact ⟨_, rfl, by simp [Instr.destination?]⟩

theorem genAssign_spec (st : GenState) (line : String) :
    ∃ new, (genAssign st line).machineCode = st.machineCode ++ new ∧
      st.registerCount < (genAssign st line).registerCount ∧
      new ≠ [] ∧
      (∀ i ∈ new, ∃ k, i.destination? = some k ∧ st.registerCount ≤ k ∧
        k < (genAssign st line).registerCount) ∧
      List.Pairwise (· < ·) (new.filterMap Instr.destination?) := by
  unfold genAssign
  simp only
  split
  · exact ⟨_, rfl, by simp, by simp, by simp [Instr.destination?], by simp [Instr.destination?]⟩
  · split
    · split <;> split <;>
        refine ⟨_, by simp only [List.append_assoc]; rfl, by simp <;> omega, by simp, ?_, ?_⟩ <;>
        simp [Instr.destination?] <;> omega
    · exact ⟨_, rfl, by simp, by simp, by simp [Instr.destination?],
        by simp [Instr.destination?]⟩

theorem genIf_spec (st : GenState) (line : String) :
    genIf st line =
      { st with
        machineCode := st.machineCode ++
          [.conditionComment (jsTrim (jsSubstring line 3 ((line.length : Int) - 3))),
           .CMP (jsTrim (jsSubstring line 3 ((line.length : Int) - 3))),
           .JZ st.registerCount, .blockComment, .endLabel st.registerCount],
        registerCount := st.registerCount + 1 } := rfl

theorem freshDestinations_append (a b : List Instr) :
    freshDestinations (a ++ b) = freshDestinations a ++ freshDestinations b := by
  simp [freshDestinations, List.filterMap_append]

theorem freshDestinations_of_none {new : List Instr}
    (h : ∀ i ∈ new, i.destination? = none ∨ i.destination? = some 0) :
    freshDestinations new = [] := by
  unfold freshDestinations
  rw [List.filter_eq_nil_iff]
  intro k hk
  obtain ⟨i, hi, hik⟩ := List.mem_filterMap.1 hk
  rcases h i hi with h | h
  · rw [h] at hik; cases hik
  · rw [h] at hik; cases hik; simp

/-- What one iteration of the loop does: it appends instructions, never lowers
the register counter, and the registers other than `R0` that it writes are
numbered from the old counter up to below the new one, in increasing order. -/
theorem genLine_spec (st : GenState) (line : String) :
    ∃ new, (genLine st line).machineCode = st.machineCode ++ new ∧
      st.registerCount ≤ (genLine st line).registerCount ∧
      (∀ k ∈ freshDestinations new, st.registerCount ≤ k ∧
        k < (genLine st line).registerCount) ∧
      List.Pairwise (· < ·) (freshDestinations new) := by
  unfold genLine
  split
  · obtain ⟨new, h, hd⟩ := genPrint_spec st line
    refine ⟨new, by rw [h], by rw [h], ?_, ?_⟩ <;>
      simp [freshDestinations_of_none hd]
  · split
    · obtain ⟨new, h, hlt, -, hd, hp⟩ := genAssign_spec st line
      refine ⟨new, h, Nat.le_of_lt hlt, ?_, ?_⟩
      · intro k hk
        have hk2 := (List.mem_filter.1 hk).1
        obtain ⟨i, hi, hik⟩ := List.mem_filterMap.1 hk2
        obtain ⟨k2, hk2, hb⟩ := hd i hi
        rw [hk2] at hik
        cases hik
        exact hb
      · exact hp.filter _
    · split
      · rw [genIf_spec]
        exact ⟨_, rfl, by simp, by simp [freshDestinations, Instr.destination?],
          by simp [freshDestinations, Instr.destination?]⟩
      · exact ⟨[], by simp, Nat.le_refl _, by simp [freshDestinations],
          by simp [freshDestinations]⟩

/-- The invariant of the loop: the registers written so far, `R0` apart, are
numbered below the register counter and in strictly increasing order, and the
counter is at least 1. -/
theorem genLines_invariant (lines : List String) : ∀ (st : GenState),
    (∀ k ∈ freshDestinations st.machineCode, k < st.registerCount) →
    List.Pairwise (· < ·) (freshDestinations st.machineCode) → 1 ≤ st.registerCount →
    (∀ k ∈ freshDestinations (genLines st lines).machineCode,
      k < (genLines st lines).registerCount) ∧
    List.Pairwise (· < ·) (freshDestinations (genLines st lines).machineCode) ∧
    st.registerCount ≤ (genLines st lines).registerCount ∧
    ∃ rest, (genLines st lines).machineCode = st.machineCode ++ rest := by
  induction lines with
  | nil =>
    intro st h1 h2 h3
    exact ⟨h1, h2, Nat.le_refl _, [], by simp [genLines]⟩
  | cons line more ih =>
    intro st h1 h2 h3
    obtain ⟨new, hm, hle, hnew, hpw⟩ := genLine_spec st line
    have hstep : genLines st (line :: more) = genLines (genLine st line) more := rfl
    rw [hstep]
    have a1 : ∀ k ∈ freshDestinations (genLine st line).machineCode,
        k < (genLine st line).registerCount := by
      intro k hk
      rw [hm, freshDestinations_append] at hk
      rcases List.mem_append.1 hk with h | h
      · exact Nat.lt_of_lt_of_le (h1 k h) hle
      · exact (hnew k h).2
    have a2 : List.Pairwise (· < ·) (freshDestinations (genLine st line).machineCode) := by
      rw [hm, freshDestinations_append, List.pairwise_append]
      exact ⟨h2, hpw, fun a ha b hb => Nat.lt_of_lt_of_le (h1 a ha) (hnew b hb).1⟩
    obtain ⟨b1, b2, b3, rest, b4⟩ := ih (genLine st line) a1 a2 (Nat.le_trans h3 hle)
    exact ⟨b1, b2, Nat.le_trans hle b3, new ++ rest, by rw [b4, hm, List.append_assoc]⟩

/-- C15: registers are never reused.  The register counter starts at 1 and no
iteration lowers it; every instruction appended for an assignment line (a line
that does not start with `print` and contains `=`) is a `LOAD`, arithmetic
instruction or `MOV` whose destination is `R_k` with `k` between the counter
before the line (at least 1) and the counter after it; and in the listing of
every input text the destinations other than `R0`, which are exactly those of
assignment lines, are strictly increasing, hence pairwise different. -/
theorem registers_never_reused :
    GenState.initial.registerCount = 1 ∧
    (∀ (st : GenState) (line : String),
      st.registerCount ≤ (genLine st line).registerCount) ∧
    (∀ (st : GenState) (line : String), 1 ≤ st.registerCount →
      jsStartsWith line "print" = false → jsIncludes line '=' = true →
      ∃ new, (genLine st line).machineCode = st.machineCode ++ new ∧ new ≠ [] ∧
        ∀ i ∈ new, ∃ k, i.destination? = some k ∧ 1 ≤ k ∧ st.registerCount ≤ k ∧
          k < (genLine st line).registerCount) ∧
    (∀ (st : GenState) (line : String), jsStartsWith line "print" = true →
      ∃ new, (genLine st line).machineCode = st.machineCode ++ new ∧
        ∀ i ∈ new, i.destination? = none ∨ i.destination? = some 0) ∧
    (∀ optimizedCode : String,
      List.Pairwise (· < ·) (freshDestinations (machineInstructions optimizedCode)) ∧
      ∀ k ∈ freshDestinations (machineInstructions optimizedCode), 1 ≤ k) := by
  refine ⟨rfl, ?_, ?_, ?_, ?_⟩
  · intro st line
    obtain ⟨new, -, hle, -⟩ := genLine_spec st line
    exact hle
  · intro st line hrc hp he
    obtain ⟨new, h, hlt, hne, hd, -⟩ := genAssign_spec st line
    have hg : genLine st line = genAssign st line := by
      unfold genLine
      simp [hp, he]
    rw [hg]
    refine ⟨new, h, hne, ?_⟩
    intro i hi
    obtain ⟨k, hk, hb⟩ := hd i hi
    exact ⟨k, hk, Nat.le_trans hrc hb.1, hb⟩
  · intro st line hp
    obtain ⟨new, h, hd⟩ := genPrint_spec st line
    have hg : genLine st line = genPrint st line := by
      unfold genLine
      simp [hp]
    rw [hg]
    exact ⟨new, by rw [h], hd⟩
  · intro optimizedCode
    obtain ⟨-, h2, -, -⟩ := genLines_invariant (codeLines optimizedCode) GenState.initial
      (by simp [GenState.initial, freshDestinations])
      (by simp [GenState.initial, freshDestinations]) (by simp [GenState.initial])
    refine ⟨h2, ?_⟩
    intro k hk
    have := (List.mem_filter.1 hk).2
    simp at this
    omega

theorem registers_never_reused_witness :
    ∃ new, (genLine GenState.initial "x = 5;").machineCode =
        GenState.initial.machineCode ++ new ∧ new ≠ [] ∧
      ∀ i ∈ new, ∃ k, i.destination? = some k ∧ 1 ≤ k ∧
        GenState.initial.registerCount ≤ k ∧
        k < (genLine GenState.initial "x = 5;").registerCount :=
  registers_never_reused.2.2.1 GenState.initial "x = 5;" (by decide) (by decide!)
    (by decide!)

theorem not_print_of_if (line : String) (h : jsStartsWith line "if" = true) :
    jsStartsWith line "print" = false := by
  unfold jsStartsWith at h ⊢
  generalize line.toList = l at h ⊢
  have e1 : "if".toList = ['i', 'f'] := rfl
  have e2 : "print".toList = ['p', 'r', 'i', 'n', 't'] := rfl
  rw [e1] at h
  rw [e2]
  cases l with
  | nil => simp at h
  | cons c cs =>
    simp only [List.isPrefixOf, Bool.and_eq_true, beq_iff_eq] at h
    have hc : c = 'i' := h.1.symm
    subst hc
    simp [List.isPrefixOf]

/-- The loop only appends to `machineCode`. -/
theorem genLines_appends (lines : List String) : ∀ (st : GenState),
    ∃ rest, (genLines st lines).machineCode = st.machineCode ++ rest := by
  induction lines with
  | nil => intro st; exact ⟨[], by simp [genLines]⟩
  | cons l ls ih =>
    intro st
    obtain ⟨new, hn, -⟩ := genLine_spec st l
    obtain ⟨rest, hr⟩ := ih (genLine st l)
    exact ⟨new ++ rest, by
      show (genLines (genLine st l) ls).machineCode = _
      rw [hr, hn, List.append_assoc]⟩

/-- C16 (counterexample): the optimized text of `ifx = a; print(ifx);` has the
line `ifx = a;`, which starts with `if`; `generateMachineCode` treats it as an
assignment and emits no condition comment, `CMP`, `JZ` or label for it. -/
theorem if_prefixed_assignment_line :
    optimizeSource "ifx = a; print(ifx);" =
      .ok { optimizedCode := "ifx = a;\nprint(a);\n",
            symbolTable := [("ifx", .identifier "a")], usedVariables := ["a", "ifx"] } ∧
    codeLines "ifx = a;\nprint(a);\n" = ["ifx = a;", "print(a);"] ∧
    jsStartsWith "ifx = a;" "if" = true ∧
    machineInstructions "ifx = a;\nprint(a);\n" = [.MOV 1 "R0", .PRINT "R0"] ∧
    generateMachineCode "ifx = a;\nprint(a);\n" = "MOV R1, R0\nPRINT R0\n" := by
  refine ⟨by decide!, by decide!, by decide!, by decide!, by decide!⟩

/-- C16 (amended): for every line that starts with `if` and contains no `=`,
`generateMachineCode` appends, as one contiguous block, the condition comment,
`CMP`, `JZ end_if_N`, the comment `// If block starts` and the label
`end_if_N:`, where `N` is the register counter at that line, and adds 1 to the
counter; nothing stands between the jump and its label, and whatever the
following lines produce is appended after the label. -/
theorem if_line_block (st : GenState) (line : String) (more : List String)
    (hif : jsStartsWith line "if" = true) (heq : jsIncludes line '=' = false) :
    genLine st line =
      { st with
        machineCode := st.machineCode ++
          [.conditionComment (jsTrim (jsSubstring line 3 ((line.length : Int) - 3))),
           .CMP (jsTrim (jsSubstring line 3 ((line.length : Int) - 3))),
           .JZ st.registerCount, .blockComment, .endLabel st.registerCount],
        registerCount := st.registerCount + 1 } ∧
    ∃ rest, (genLines st (line :: more)).machineCode =
      st.machineCode ++
        [.conditionComment (jsTrim (jsSubstring line 3 ((line.length : Int) - 3))),
         .CMP (jsTrim (jsSubstring line 3 ((line.length : Int) - 3))),
         .JZ st.registerCount, .blockComment, .endLabel st.registerCount] ++ rest := by
  have hg : genLine st line = genIf st line := by
    unfold genLine
    simp [not_print_of_if line hif, hif, heq]
  refine ⟨by rw [hg, genIf_spec], ?_⟩
  obtain ⟨rest, hr⟩ := genLines_appends more (genLine st line)
  exact ⟨rest, by
    show (genLines (genLine st line) more).machineCode = _
    rw [hr, hg, genIf_spec]⟩

theorem if_line_block_witness :
    genLine GenState.initial "if (a) \x7b" =
      { GenState.initial with
        machineCode := GenState.initial.machineCode ++
          [.conditionComment (jsTrim (jsSubstring "if (a) \x7b" 3
              ((("if (a) \x7b".length : Nat) : Int) - 3))),
           .CMP (jsTrim (jsSubstring "if (a) \x7b" 3
              ((("if (a) \x7b".length : Nat) : Int) - 3))),
           .JZ GenState.initial.registerCount, .blockComment,
           .endLabel GenState.initial.registerCount],
        registerCount := GenState.initial.registerCount + 1 } :=
  (if_line_block GenState.initial "if (a) \x7b" [] (by decide!) (by decide!)).1

/-! ## Properties of the driver -/

theorem Run.andThen_eq_thrown {α β : Type} {x : Run α} {f : α → Run β} {e : Thrown} :
    x.andThen f = .thrown e ↔ x = .thrown e ∨ ∃ a, x = .ok a ∧ f a = .thrown e := by
  cases x <;> simp [Run.andThen]

theorem fullEvaluate_never_throws : ∀ (fuel : Nat) (node : Node) (st : OptState) (e : Thrown),
    fullEvaluate fuel node st ≠ .thrown e := by
  intro fuel
  induction fuel with
  | zero => intro node st e h; simp [fullEvaluate] at h
  | succ f ih =>
    intro node st e h
    rw [fullEvaluate_succ] at h
    cases hc : lookupKey (getExpressionKey node) st.expressionCache with
    | some c => rw [hc] at h; cases h
    | none =>
      rw [hc] at h
      simp only at h
      rcases Run.andThen_eq_thrown.1 h with h | ⟨a, -, h⟩
      · cases node with
        | number n => cases h
        | number_literal n => cases h
        | identifier name =>
          simp only [evaluateMiss] at h
          split at h
          · exact ih _ _ _ h
          · cases h
        | binary_operation op l r =>
          simp only [evaluateMiss] at h
          rcases Run.andThen_eq_thrown.1 h with h | ⟨a, -, h⟩
          · exact ih _ _ _ h
          · rcases Run.andThen_eq_thrown.1 h with h | ⟨b, -, h⟩
            · exact ih _ _ _ h
            · cases h
      · cases h

mutual
theorem analyzeUsage_never_throws (fuel : Nat) : ∀ (s : Stmt) (st : OptState) (e : Thrown),
    analyzeUsage fuel s st ≠ .thrown e
  | .assignment identifier expression, st, e, h => by
    unfold analyzeUsage at h
    rcases Run.andThen_eq_thrown.1 h with h | ⟨a, -, h⟩
    · exact fullEvaluate_never_throws _ _ _ _ h
    · cases h
  | .print expression, st, e, h => by
    unfold analyzeUsage at h
    rcases Run.andThen_eq_thrown.1 h with h | ⟨a, -, h⟩
    · exact fullEvaluate_never_throws _ _ _ _ h
    · cases h
  | .if_ condition thenBlock, st, e, h => by
    unfold analyzeUsage at h
    rcases Run.andThen_eq_thrown.1 h with h | ⟨a, -, h⟩
    · exact fullEvaluate_never_throws _ _ _ _ h
    · split at h
      · split at h
        · exact analyzeUsageEach_never_throws fuel thenBlock _ _ h
        · cases h
      · exact analyzeUsageEach_never_throws fuel thenBlock _ _ h
theorem analyzeUsageEach_never_throws (fuel : Nat) : ∀ (block : List Stmt) (st : OptState)
    (e : Thrown), analyzeUsageEach fuel block st ≠ .thrown e
  | [], st, e, h => by
    unfold analyzeUsageEach at h
    cases h
  | s :: more, st, e, h => by
    unfold analyzeUsageEach at h
    rcases Run.andThen_eq_thrown.1 h with h | ⟨a, -, h⟩
    · exact analyzeUsage_never_throws fuel s _ _ h
    · exact analyzeUsageEach_never_throws fuel more _ _ h
end

mutual
theorem generateOptimizedCode_never_throws (fuel : Nat) : ∀ (s : Stmt) (st : OptState)
    (e : Thrown), generateOptimizedCode fuel s st ≠ .thrown e
  | .assignment identifier expression, st, e, h => by
    unfold generateOptimizedCode at h
    rcases Run.andThen_eq_thrown.1 h with h | ⟨a, -, h⟩
    · exact fullEvaluate_never_throws _ _ _ _ h
    · split at h
      · split at h <;> cases h
      · cases h
  | .print expression, st, e, h => by
    unfold generateOptimizedCode at h
    rcases Run.andThen_eq_thrown.1 h with h | ⟨a, -, h⟩
    · exact fullEvaluate_never_throws _ _ _ _ h
    · split at h
      · cases h
      · split at h <;> cases h
      · cases h
  | .if_ condition thenBlock, st, e, h => by
    unfold generateOptimizedCode at h
    rcases Run.andThen_eq_thrown.1 h with h | ⟨a, -, h⟩
    · exact fullEvaluate_never_throws _ _ _ _ h
    · split at h
      · split at h
        · exact generateOptimizedCodeEach_never_throws fuel thenBlock _ _ h
        · cases h
      · rcases Run.andThen_eq_thrown.1 h with h | ⟨b, -, h⟩
        · exact generateOptimizedCodeEach_never_throws fuel thenBlock _ _ h
        · cases h
theorem generateOptimizedCodeEach_never_throws (fuel : Nat) : ∀ (block : List Stmt)
    (st : OptState) (e : Thrown), generateOptimizedCodeEach fuel block st ≠ .thrown e
  | [], st, e, h => by
    unfold generateOptimizedCodeEach at h
    cases h
  | s :: more, st, e, h => by
    unfold generateOptimizedCodeEach at h
    rcases Run.andThen_eq_thrown.1 h with h | ⟨a, -, h⟩
    · exact generateOptimizedCode_never_throws fuel s _ _ h
    · exact generateOptimizedCodeEach_never_throws fuel more _ _ h
end

theorem optimizeWith_never_throws (fuel : Nat) (ast : List Stmt) (e : Thrown) :
    optimizeWith fuel ast ≠ .thrown e := by
  intro h
  unfold optimizeWith at h
  rcases Run.andThen_eq_thrown.1 h with h | ⟨a, -, h⟩
  · exact analyzeUsageEach_never_throws _ _ _ _ h
  · rcases Run.andThen_eq_thrown.1 h with h | ⟨b, -, h⟩
    · exact generateOptimizedCodeEach_never_throws _ _ _ _ h
    · cases h

/-- C11 (counterexample): the source `x` tokenizes and then fails to parse;
`compileCode` reports the error and leaves the serialized tokens of the first
stage in `tokensOutput`, which is not empty. -/
theorem partial_artifact_displayed :
    compileCode "x" =
      .ok { tokensOutput :=
              "[\n  \x7b\n    \"type\": \"IDENTIFIER\",\n    \"value\": \"x\"\n  \x7d\n]",
            astOutput := "", optimizedOutput := "", machineCodeOutput := "",
            compilerOutput :=
              "Compilation Error:\nCould not parse statement starting with IDENTIFIER" } ∧
    "[\n  \x7b\n    \"type\": \"IDENTIFIER\",\n    \"value\": \"x\"\n  \x7d\n]" ≠ "" := by
  refine ⟨by decide!, by decide⟩

/-- C11 (amended): fail-fast compilation.  When `tokenize` fails with message
`m`, all four artifact fields are empty and the status is
`Compilation Error:` followed by `m`; when `parse` fails with message `m`, the
status is the same, the fields of the AST, the optimized code and the machine
code are empty, no later stage has run, and `tokensOutput` keeps the serialized
tokens of the stage that succeeded.  `optimize` throws on no input, so these
are the only failures. -/
theorem fail_fast_compilation :
    (∀ (codeInput : String) (e : Thrown), tokenize (jsTrim codeInput) = .thrown e →
      compileCode codeInput =
        .ok { tokensOutput := "", astOutput := "", optimizedOutput := "",
              machineCodeOutput := "",
              compilerOutput := "Compilation Error:\n" ++ e.message }) ∧
    (∀ (codeInput : String) (tokens : List Token) (e : Thrown),
      tokenize (jsTrim codeInput) = .ok tokens → parse tokens = .thrown e →
      compileCode codeInput =
        .ok { tokensOutput := jsonTokens tokens, astOutput := "", optimizedOutput := "",
              machineCodeOutput := "",
              compilerOutput := "Compilation Error:\n" ++ e.message }) ∧
    (∀ (fuel : Nat) (ast : List Stmt) (e : Thrown), optimizeWith fuel ast ≠ .thrown e) ∧
    (∀ (codeInput : String) (tokens : List Token) (ast : List Stmt) (r : OptResult),
      tokenize (jsTrim codeInput) = .ok tokens → parse tokens = .ok ast →
      optimize ast = .ok r →
      compileCode codeInput =
        .ok { tokensOutput := jsonTokens tokens, astOutput := jsonAst ast,
              optimizedOutput := r.optimizedCode,
              machineCodeOutput := generateMachineCode r.optimizedCode,
              compilerOutput := "Compilation Successful!" }) := by
  refine ⟨?_, ?_, optimizeWith_never_throws, ?_⟩
  · intro codeInput e h
    unfold compileCode
    simp only [h]
    rfl
  · intro codeInput tokens e h1 h2
    unfold compileCode
    simp only [h1, h2]
    rfl
  · intro codeInput tokens ast r h1 h2 h3
    unfold compileCode
    simp only [h1, h2, h3]

theorem fail_fast_compilation_witness :
    compileCode "x = 5 @" =
      .ok { tokensOutput := "", astOutput := "", optimizedOutput := "",
            machineCodeOutput := "",
            compilerOutput := "Compilation Error:\n" ++
              (Thrown.Error "Unexpected character at position 6: @").message } ∧
    compileCode "x" =
      .ok { tokensOutput := jsonTokens [⟨.IDENTIFIER, "x"⟩], astOutput := "",
            optimizedOutput := "", machineCodeOutput := "",
            compilerOutput := "Compilation Error:\n" ++
              (Thrown.Error "Could not parse statement starting with IDENTIFIER").message } :=
  ⟨fail_fast_compilation.1 "x = 5 @" _ (by decide!),
   fail_fast_compilation.2.1 "x" [⟨.IDENTIFIER, "x"⟩] _ (by decide!) (by decide!)⟩

/-! ## The expression parser -/

theorem parseExpression_mono_aux : ∀ (n : Nat),
    (∀ ts r n2, parseExpression n ts = .ok r → n ≤ n2 → parseExpression n2 ts = .ok r) ∧
    (∀ left ts r n2, parseExpressionLoop n left ts = .ok r → n ≤ n2 →
      parseExpressionLoop n2 left ts = .ok r) ∧
    (∀ ts r n2, parseTerm n ts = .ok r → n ≤ n2 → parseTerm n2 ts = .ok r) ∧
    (∀ left ts r n2, parseTermLoop n left ts = .ok r → n ≤ n2 →
      parseTermLoop n2 left ts = .ok r) ∧
    (∀ ts r n2, parseFactor n ts = .ok r → n ≤ n2 → parseFactor n2 ts = .ok r) := by
  intro n
  induction n with
  | zero =>
    refine ⟨?_, ?_, ?_, ?_, ?_⟩ <;> intros <;> rename_i h _ <;>
      simp [parseExpression, parseExpressionLoop, parseTerm, parseTermLoop, parseFactor] at h
  | succ n ih =>
    obtain ⟨ihE, ihEL, ihT, ihTL, ihF⟩ := ih
    refine ⟨?_, ?_, ?_, ?_, ?_⟩
    · intro ts r n2 h hle
      obtain ⟨m, rfl⟩ : ∃ m, n2 = m + 1 := ⟨n2 - 1, by omega⟩
      have hm : n ≤ m := by omega
      rw [parseExpression] at h ⊢
      obtain ⟨a, h1, h2⟩ := Run.andThen_eq_ok.1 h
      rw [ihT _ _ _ h1 hm, Run.ok_andThen]
      exact ihEL _ _ _ _ h2 hm
    · intro left ts r n2 h hle
      obtain ⟨m, rfl⟩ : ∃ m, n2 = m + 1 := ⟨n2 - 1, by omega⟩
      have hm : n ≤ m := by omega
      rw [parseExpressionLoop] at h ⊢
      split
      · rename_i hadd
        rw [if_pos hadd] at h
        obtain ⟨op, h1, h⟩ := Run.andThen_eq_ok.1 h
        obtain ⟨t, h2, h3⟩ := Run.andThen_eq_ok.1 h
        rw [h1, Run.ok_andThen, ihT _ _ _ h2 hm, Run.ok_andThen]
        exact ihEL _ _ _ _ h3 hm
      · rename_i hadd
        rw [if_neg hadd] at h
        exact h
    · intro ts r n2 h hle
      obtain ⟨m, rfl⟩ : ∃ m, n2 = m + 1 := ⟨n2 - 1, by omega⟩
      have hm : n ≤ m := by omega
      rw [parseTerm] at h ⊢
      obtain ⟨a, h1, h2⟩ := Run.andThen_eq_ok.1 h
      rw [ihF _ _ _ h1 hm, Run.ok_andThen]
      exact ihTL _ _ _ _ h2 hm
    · intro left ts r n2 h hle
      obtain ⟨m, rfl⟩ : ∃ m, n2 = m + 1 := ⟨n2 - 1, by omega⟩
      have hm : n ≤ m := by omega
      rw [parseTermLoop] at h ⊢
      split
      · rename_i hmul
        rw [if_pos hmul] at h
        obtain ⟨op, h1, h⟩ := Run.andThen_eq_ok.1 h
        obtain ⟨t, h2, h3⟩ := Run.andThen_eq_ok.1 h
        rw [h1, Run.ok_andThen, ihF _ _ _ h2 hm, Run.ok_andThen]
        exact ihTL _ _ _ _ h3 hm
      · rename_i hmul
        rw [if_neg hmul] at h
        exact h
    · intro ts r n2 h hle
      obtain ⟨m, rfl⟩ : ∃ m, n2 = m + 1 := ⟨n2 - 1, by omega⟩
      have hm : n ≤ m := by omega
      cases ts with
      | nil => simp [parseFactor] at h
      | cons t more =>
        simp only [parseFactor] at h ⊢
        split
        · rename_i h1
          rw [if_pos h1] at h
          exact h
        · rename_i h1
          rw [if_neg h1] at h
          split
          · rename_i h2
            rw [if_pos h2] at h
            exact h
          · rename_i h2
            rw [if_neg h2] at h
            split
            · rename_i h3
              rw [if_pos h3] at h
              obtain ⟨c1, k1, h⟩ := Run.andThen_eq_ok.1 h
              obtain ⟨e, k2, h⟩ := Run.andThen_eq_ok.1 h
              rw [k1, Run.ok_andThen, ihE _ _ _ k2 hm, Run.ok_andThen]
              exact h
            · rename_i h3
              rw [if_neg h3] at h
              exact h

theorem parseExpression_mono {n n2 : Nat} {ts : List Token} {r : Node × List Token}
    (h : parseExpression n ts = .ok r) (hle : n ≤ n2) : parseExpression n2 ts = .ok r :=
  (parseExpression_mono_aux n).1 ts r n2 h hle

theorem parseExpressionLoop_mono {n n2 : Nat} {left : Node} {ts : List Token}
    {r : Node × List Token} (h : parseExpressionLoop n left ts = .ok r) (hle : n ≤ n2) :
    parseExpressionLoop n2 left ts = .ok r :=
  (parseExpression_mono_aux n).2.1 left ts r n2 h hle

theorem parseTerm_mono {n n2 : Nat} {ts : List Token} {r : Node × List Token}
    (h : parseTerm n ts = .ok r) (hle : n ≤ n2) : parseTerm n2 ts = .ok r :=
  (parseExpression_mono_aux n).2.2.1 ts r n2 h hle

theorem parseTermLoop_mono {n n2 : Nat} {left : Node} {ts : List Token}
    {r : Node × List Token} (h : parseTermLoop n left ts = .ok r) (hle : n ≤ n2) :
    parseTermLoop n2 left ts = .ok r :=
  (parseExpression_mono_aux n).2.2.2.1 left ts r n2 h hle

theorem parseFactor_mono {n n2 : Nat} {ts : List Token} {r : Node × List Token}
    (h : parseFactor n ts = .ok r) (hle : n ≤ n2) : parseFactor n2 ts = .ok r :=
  (parseExpression_mono_aux n).2.2.2.2 ts r n2 h hle

theorem isAdditive_operator (value : String) (rest : List Token) :
    isAdditive (operatorToken value :: rest) = decide (value = "+" ∨ value = "-") := by
  simp [isAdditive, operatorToken]

theorem isMultiplicative_operator (value : String) (rest : List Token) :
    isMultiplicative (operatorToken value :: rest) = decide (value = "*" ∨ value = "/") := by
  simp [isMultiplicative, operatorToken]

theorem consume_operator (value : String) (rest : List Token) :
    consume .OPERATOR none (operatorToken value :: rest) = .ok (operatorToken value, rest) := by
  simp [consume, operatorToken]

/-- The loop of `parseTerm` stops before a token that is not `*` or `/`. -/
theorem parseTermLoop_done (n : Nat) (left : Node) (rest : List Token)
    (h : isMultiplicative rest = false) : parseTermLoop (n + 1) left rest = .ok (left, rest) := by
  rw [parseTermLoop, if_neg (by simp [h])]

/-- The loop of `parseExpression` stops before a token that is not `+` or `-`. -/
theorem parseExpressionLoop_done (n : Nat) (left : Node) (rest : List Token)
    (h : isAdditive rest = false) : parseExpressionLoop (n + 1) left rest = .ok (left, rest) := by
  rw [parseExpressionLoop, if_neg (by simp [h])]

/-- One round of the loop of `parseTerm`: an operator `*` or `/`, then a
factor. -/
theorem parseTermLoop_step {n : Nat} {left b : Node} {m : String} {ts rest : List Token}
    {r : Node × List Token} (hm : m = "*" ∨ m = "/")
    (hb : parseFactor n ts = .ok (b, rest))
    (h : parseTermLoop n (.binary_operation m left b) rest = .ok r) :
    parseTermLoop (n + 1) left (operatorToken m :: ts) = .ok r := by
  rw [parseTermLoop, if_pos (by simp [isMultiplicative_operator, hm]), consume_operator,
    Run.ok_andThen]
  simp only [hb, Run.ok_andThen]
  exact h

/-- One round of the loop of `parseExpression`: an operator `+` or `-`, then a
term. -/
theorem parseExpressionLoop_step {n : Nat} {left b : Node} {p : String} {ts rest : List Token}
    {r : Node × List Token} (hp : p = "+" ∨ p = "-")
    (hb : parseTerm n ts = .ok (b, rest))
    (h : parseExpressionLoop n (.binary_operation p left b) rest = .ok r) :
    parseExpressionLoop (n + 1) left (operatorToken p :: ts) = .ok r := by
  rw [parseExpressionLoop, if_pos (by simp [isAdditive_operator, hp]), consume_operator,
    Run.ok_andThen]
  simp only [hb, Run.ok_andThen]
  exact h

theorem parseTerm_of {n : Nat} {a : Node} {ts rest : List Token} {r : Node × List Token}
    (ha : parseFactor n ts = .ok (a, rest)) (h : parseTermLoop n a rest = .ok r) :
    parseTerm (n + 1) ts = .ok r := by
  rw [parseTerm, ha, Run.ok_andThen]
  exact h

theorem parseExpression_of {n : Nat} {a : Node} {ts rest : List Token} {r : Node × List Token}
    (ha : parseTerm n ts = .ok (a, rest)) (h : parseExpressionLoop n a rest = .ok r) :
    parseExpression (n + 1) ts = .ok r := by
  rw [parseExpression, ha, Run.ok_andThen]
  exact h

theorem isAdditive_of_multiplicative {m : String} (hm : m = "*" ∨ m = "/")
    (rest : List Token) : isAdditive (operatorToken m :: rest) = false := by
  rcases hm with rfl | rfl <;> simp [isAdditive_operator]

theorem isMultiplicative_of_additive {p : String} (hp : p = "+" ∨ p = "-")
    (rest : List Token) : isMultiplicative (operatorToken p :: rest) = false := by
  rcases hp with rfl | rfl <;> simp [isMultiplicative_operator]

/-- A number token is a factor. -/
theorem isFactor_number (value : String) :
    IsFactor [⟨.NUMBER, value⟩] (.number_literal (parseInt value)) :=
  ⟨1, fun rest => by simp [parseFactor, consume, Run.andThen]⟩

/-- An identifier token is a factor. -/
theorem isFactor_identifier (value : String) :
    IsFactor [⟨.IDENTIFIER, value⟩] (.identifier value) :=
  ⟨1, fun rest => by simp [parseFactor, consume, Run.andThen]⟩

/-- An expression between parentheses is a factor. -/
theorem isFactor_parenthesized {ts : List Token} {e : Node}
    (h : ∃ N, ∀ rest, parseExpression N (ts ++ punctuationToken ")" :: rest) =
      .ok (e, punctuationToken ")" :: rest)) :
    IsFactor (punctuationToken "(" :: (ts ++ [punctuationToken ")"])) e := by
  obtain ⟨N, h⟩ := h
  refine ⟨N + 1, fun rest => ?_⟩
  have h1 := h rest
  simp only [List.cons_append, List.append_assoc, List.singleton_append]
  simp only [parseFactor, punctuationToken, consume] at h1 ⊢
  simp [h1, Run.andThen, consume]

/-- A factor followed by a token that is not `*` or `/` is a term. -/
theorem parseTerm_factor (rest : List Token) {ta : List Token} {a : Node} (ha : IsFactor ta a)
    (h : isMultiplicative rest = false) :
    ∃ N, ∀ n, N ≤ n → parseTerm n (ta ++ rest) = .ok (a, rest) := by
  obtain ⟨N, ha⟩ := ha
  refine ⟨N + 2, fun n hn => ?_⟩
  refine parseTerm_mono ?_ hn
  exact parseTerm_of (parseFactor_mono (ha rest) (Nat.le_succ N)) (parseTermLoop_done N _ _ h)

/-- Two factors joined by `*` or `/` and followed by a token that is not `*` or
`/` are a term. -/
theorem parseTerm_product (rest : List Token) {ta tb : List Token} {a b : Node} {m : String}
    (ha : IsFactor ta a) (hb : IsFactor tb b) (hm : m = "*" ∨ m = "/")
    (h : isMultiplicative rest = false) :
    ∃ N, ∀ n, N ≤ n → parseTerm n (ta ++ operatorToken m :: (tb ++ rest)) =
      .ok (.binary_operation m a b, rest) := by
  obtain ⟨Na, ha⟩ := ha
  obtain ⟨Nb, hb⟩ := hb
  refine ⟨Na + Nb + 3, fun n hn => ?_⟩
  refine parseTerm_mono ?_ hn
  have hfa : parseFactor (Na + Nb + 2) (ta ++ operatorToken m :: (tb ++ rest)) =
      .ok (a, operatorToken m :: (tb ++ rest)) := parseFactor_mono (ha _) (by omega)
  have hfb : parseFactor (Na + Nb + 1) (tb ++ rest) = .ok (b, rest) :=
    parseFactor_mono (hb _) (by omega)
  exact parseTerm_of hfa
    (parseTermLoop_step hm hfb (parseTermLoop_done (Na + Nb) _ _ h))

/-- C7: operator precedence in the parser.  For all factors `a`, `b`, `c`
(token sequences that `parseFactor` reads as `a`, `b`, `c`), an additive
operator `p` and a multiplicative operator `m`, followed by tokens `rest` that
do not start with one of the four operators: `parseExpression` reads
`a p b m c` as `p(a, m(b, c))` and `a m b p c` as `p(m(a, b), c)`, consuming
exactly these tokens; and `x = 1 + 2 * 3;` parses to the one assignment of
`+(1, *(2, 3))` to `x`. -/
theorem parser_precedence (ta tb tc rest : List Token) (a b c : Node) (p m : String)
    (ha : IsFactor ta a) (hb : IsFactor tb b) (hc : IsFactor tc c)
    (hp : p = "+" ∨ p = "-") (hm : m = "*" ∨ m = "/")
    (hrest : isAdditive rest = false ∧ isMultiplicative rest = false) :
    (∃ N, ∀ n, N ≤ n →
      parseExpression n (ta ++ operatorToken p :: (tb ++ operatorToken m :: (tc ++ rest))) =
        .ok (.binary_operation p a (.binary_operation m b c), rest)) ∧
    (∃ N, ∀ n, N ≤ n →
      parseExpression n (ta ++ operatorToken m :: (tb ++ operatorToken p :: (tc ++ rest))) =
        .ok (.binary_operation p (.binary_operation m a b) c, rest)) ∧
    parseSource "x = 1 + 2 * 3;" =
      .ok [.assignment "x" (.binary_operation "+" (.number_literal 1)
        (.binary_operation "*" (.number_literal 2) (.number_literal 3)))] := by
  refine ⟨?_, ?_, by decide!⟩
  · obtain ⟨N1, h1⟩ := parseTerm_factor (operatorToken p ::
      (tb ++ operatorToken m :: (tc ++ rest))) ha (isMultiplicative_of_additive hp _)
    obtain ⟨N2, h2⟩ := parseTerm_product (rest) hb hc hm hrest.2
    refine ⟨N1 + N2 + 3, fun n hn => ?_⟩
    refine parseExpression_mono ?_ hn
    refine parseExpression_of (h1 (N1 + N2 + 2) (by omega)) ?_
    exact parseExpressionLoop_step hp (h2 (N1 + N2 + 1) (by omega))
      (parseExpressionLoop_done (N1 + N2) _ _ hrest.1)
  · obtain ⟨N1, h1⟩ := parseTerm_product (operatorToken p :: (tc ++ rest)) ha hb hm
      (isMultiplicative_of_additive hp _)
    obtain ⟨N2, h2⟩ := parseTerm_factor (rest) hc hrest.2
    refine ⟨N1 + N2 + 3, fun n hn => ?_⟩
    refine parseExpression_mono ?_ hn
    have h1a := h1 (N1 + N2 + 2) (by omega)
    simp only [List.append_assoc, List.cons_append] at h1a
    refine parseExpression_of h1a ?_
    exact parseExpressionLoop_step hp (h2 (N1 + N2 + 1) (by omega))
      (parseExpressionLoop_done (N1 + N2) _ _ hrest.1)

theorem parser_precedence_witness :
    ∃ N, ∀ n, N ≤ n →
      parseExpression n ([⟨.NUMBER, "1"⟩] ++ operatorToken "+" ::
        ((punctuationToken "(" :: ([⟨.IDENTIFIER, "x"⟩, operatorToken "-", ⟨.NUMBER, "2"⟩] ++
          [punctuationToken ")"])) ++ operatorToken "*" ::
            ([⟨.IDENTIFIER, "y"⟩] ++ [punctuationToken ";"]))) =
        .ok (.binary_operation "+" (.number_literal (parseInt "1"))
          (.binary_operation "*"
            (.binary_operation "-" (.identifier "x") (.number_literal 2))
            (.identifier "y")), [punctuationToken ";"]) :=
  (parser_precedence [⟨.NUMBER, "1"⟩]
    (punctuationToken "(" :: ([⟨.IDENTIFIER, "x"⟩, operatorToken "-", ⟨.NUMBER, "2"⟩] ++
      [punctuationToken ")"]))
    [⟨.IDENTIFIER, "y"⟩] [punctuationToken ";"] _ _ _ "+" "*"
    (isFactor_number "1")
    (isFactor_parenthesized ⟨4, fun rest => by
      simp [parseExpression, parseExpressionLoop, parseTerm, parseTermLoop, parseFactor,
        consume, Run.andThen, isAdditive, isMultiplicative, operatorToken, punctuationToken]
      decide⟩)
    (isFactor_identifier "y") (Or.inl rfl) (Or.inl rfl) ⟨rfl, rfl⟩).1

/-- C12: left associativity in the parser.  For all factors `a`, `b`, `c`
(token sequences that `parseFactor` reads as `a`, `b`, `c`) and operators `o1`,
`o2` of the same precedence level, followed by tokens `rest` that do not start
with one of the four operators: `parseExpression` reads `a o1 b o2 c` as
`o2(o1(a, b), c)`, consuming exactly these tokens; `x = a - b - c;` parses to
the assignment of `-(-(a, b), c)` to `x`. -/
theorem parser_left_associative (ta tb tc rest : List Token) (a b c : Node) (o1 o2 : String)
    (ha : IsFactor ta a) (hb : IsFactor tb b) (hc : IsFactor tc c)
    (hlevel : ((o1 = "+" ∨ o1 = "-") ∧ (o2 = "+" ∨ o2 = "-")) ∨
      ((o1 = "*" ∨ o1 = "/") ∧ (o2 = "*" ∨ o2 = "/")))
    (hrest : isAdditive rest = false ∧ isMultiplicative rest = false) :
    (∃ N, ∀ n, N ≤ n →
      parseExpression n (ta ++ operatorToken o1 :: (tb ++ operatorToken o2 :: (tc ++ rest))) =
        .ok (.binary_operation o2 (.binary_operation o1 a b) c, rest)) ∧
    parseSource "x = a - b - c;" =
      .ok [.assignment "x" (.binary_operation "-"
        (.binary_operation "-" (.identifier "a") (.identifier "b")) (.identifier "c"))] := by
  refine ⟨?_, by decide!⟩
  rcases hlevel with ⟨h1, h2⟩ | ⟨h1, h2⟩
  · obtain ⟨Na, ka⟩ := parseTerm_factor (operatorToken o1 ::
      (tb ++ operatorToken o2 :: (tc ++ rest))) ha (isMultiplicative_of_additive h1 _)
    obtain ⟨Nb, kb⟩ := parseTerm_factor (operatorToken o2 :: (tc ++ rest)) hb
      (isMultiplicative_of_additive h2 _)
    obtain ⟨Nc, kc⟩ := parseTerm_factor (rest) hc hrest.2
    refine ⟨Na + Nb + Nc + 4, fun n hn => ?_⟩
    refine parseExpression_mono ?_ hn
    refine parseExpression_of (ka (Na + Nb + Nc + 3) (by omega)) ?_
    refine parseExpressionLoop_step h1 (kb (Na + Nb + Nc + 2) (by omega)) ?_
    exact parseExpressionLoop_step h2 (kc (Na + Nb + Nc + 1) (by omega))
      (parseExpressionLoop_done (Na + Nb + Nc) _ _ hrest.1)
  · obtain ⟨Na, ka⟩ := ha
    obtain ⟨Nb, kb⟩ := hb
    obtain ⟨Nc, kc⟩ := hc
    refine ⟨Na + Nb + Nc + 5, fun n hn => ?_⟩
    refine parseExpression_mono ?_ hn
    have hterm : parseTerm (Na + Nb + Nc + 4)
        (ta ++ operatorToken o1 :: (tb ++ operatorToken o2 :: (tc ++ rest))) =
        .ok (.binary_operation o2 (.binary_operation o1 a b) c, rest) := by
      refine parseTerm_of (parseFactor_mono (ka _) (by omega)) ?_
      refine parseTermLoop_step h1
        (parseFactor_mono (kb _) (show Nb ≤ Na + Nb + Nc + 2 by omega)) ?_
      exact parseTermLoop_step h2
        (parseFactor_mono (kc _) (show Nc ≤ Na + Nb + Nc + 1 by omega))
        (parseTermLoop_done (Na + Nb + Nc) _ _ hrest.2)
    exact parseExpression_of hterm (parseExpressionLoop_done _ _ _ hrest.1)

theorem parser_left_associative_witness :
    ∃ N, ∀ n, N ≤ n →
      parseExpression n ([⟨.IDENTIFIER, "a"⟩] ++ operatorToken "/" ::
        ([⟨.NUMBER, "4"⟩] ++ operatorToken "*" ::
          ([⟨.IDENTIFIER, "c"⟩] ++ [punctuationToken ")"]))) =
        .ok (.binary_operation "*"
          (.binary_operation "/" (.identifier "a") (.number_literal (parseInt "4")))
          (.identifier "c"), [punctuationToken ")"]) :=
  (parser_left_associative [⟨.IDENTIFIER, "a"⟩] [⟨.NUMBER, "4"⟩] [⟨.IDENTIFIER, "c"⟩]
    [punctuationToken ")"] _ _ _ "/" "*"
    (isFactor_identifier "a") (isFactor_number "4") (isFactor_identifier "c")
    (Or.inr ⟨Or.inr rfl, Or.inl rfl⟩) ⟨rfl, rfl⟩).1

/-! ## Decimal digits -/

theorem digitChar_isDigit (k : Nat) (h : k < 10) : (Nat.digitChar k).isDigit = true := by
  interval_cases k <;> decide

theorem digitChar_value (k : Nat) (h : k < 10) : (Nat.digitChar k).toNat - '0'.toNat = k := by
  interval_cases k <;> decide

theorem toDigitsCore_digits : ∀ (fuel n : Nat) (ds : List Char),
    (∀ c ∈ ds, isDigitChar c = true) →
    ∀ c ∈ Nat.toDigitsCore 10 fuel n ds, isDigitChar c = true := by
  intro fuel
  induction fuel with
  | zero => intro n ds h; simpa [Nat.toDigitsCore] using h
  | succ f ih =>
    intro n ds h
    have hd : isDigitChar (Nat.digitChar (n % 10)) = true :=
      digitChar_isDigit _ (Nat.mod_lt _ (by decide))
    simp only [Nat.toDigitsCore]
    split
    · intro c hc
      rcases List.mem_cons.1 hc with rfl | hc
      · exact hd
      · exact h c hc
    · apply ih
      intro c hc
      rcases List.mem_cons.1 hc with rfl | hc
      · exact hd
      · exact h c hc

theorem toDigitsCore_value : ∀ (fuel n : Nat) (ds : List Char), n < fuel →
    (Nat.toDigitsCore 10 fuel n ds).foldl (fun acc c => 10 * acc + (c.toNat - '0'.toNat)) 0 =
      ds.foldl (fun acc c => 10 * acc + (c.toNat - '0'.toNat)) n := by
  intro fuel
  induction fuel with
  | zero => intro n ds h; omega
  | succ f ih =>
    intro n ds h
    simp only [Nat.toDigitsCore]
    split
    · rename_i hz
      simp only [List.foldl_cons, Nat.mul_zero, Nat.zero_add,
        digitChar_value _ (Nat.mod_lt n (by decide : 0 < 10))]
      congr 1
      omega
    · rename_i hz
      rw [ih (n / 10) _ (by omega)]
      simp only [List.foldl_cons, digitChar_value _ (Nat.mod_lt n (by decide : 0 < 10))]
      congr 1
      omega

theorem toDigitsCore_ne_nil : ∀ (fuel n : Nat) (ds : List Char), 0 < fuel ∨ ds ≠ [] →
    Nat.toDigitsCore 10 fuel n ds ≠ [] := by
  intro fuel
  induction fuel with
  | zero =>
    intro n ds h
    rcases h with h | h
    · omega
    · simpa [Nat.toDigitsCore] using h
  | succ f ih =>
    intro n ds _
    simp only [Nat.toDigitsCore]
    split
    · simp
    · exact ih _ _ (Or.inr (by simp))

theorem repr_ne_nil (n : Nat) : (Nat.repr n).toList ≠ [] :=
  toDigitsCore_ne_nil _ _ _ (Or.inl (Nat.succ_pos n))

theorem repr_toList (n : Nat) : (Nat.repr n).toList = Nat.toDigits 10 n := rfl

theorem repr_digits (n : Nat) : ∀ c ∈ (Nat.repr n).toList, isDigitChar c = true := by
  rw [repr_toList]
  exact toDigitsCore_digits _ _ _ (by simp)

theorem repr_value (n : Nat) : digitsValue (Nat.repr n).toList = n := by
  rw [repr_toList]
  exact toDigitsCore_value _ _ _ (Nat.lt_succ_self n)

theorem repr_injective {n m : Nat} (h : Nat.repr n = Nat.repr m) : n = m := by
  rw [← repr_value n, ← repr_value m, h]

/-! ## Expression keys determine parsed expressions -/

/-- A run of characters of a class, followed by a character outside the class
or by nothing, is determined by the whole text. -/
theorem span_unique (p : Char → Bool) : ∀ (l1 l2 r1 r2 : List Char),
    (∀ c ∈ l1, p c = true) → (∀ c ∈ l2, p c = true) →
    (∀ c ∈ r1.head?, p c = false) → (∀ c ∈ r2.head?, p c = false) →
    l1 ++ r1 = l2 ++ r2 → l1 = l2 ∧ r1 = r2 := by
  intro l1
  induction l1 with
  | nil =>
    intro l2 r1 r2 _ h2 k1 _ h
    cases l2 with
    | nil => exact ⟨rfl, h⟩
    | cons d l2 =>
      exfalso
      simp only [List.nil_append, List.cons_append] at h
      subst h
      have := k1 d (by simp)
      rw [h2 d (by simp)] at this
      cases this
  | cons c l1 ih =>
    intro l2 r1 r2 h1 h2 k1 k2 h
    cases l2 with
    | nil =>
      exfalso
      simp only [List.nil_append, List.cons_append] at h
      subst h
      have := k2 c (by simp)
      rw [h1 c (by simp)] at this
      cases this
    | cons d l2 =>
      simp only [List.cons_append, List.cons.injEq] at h
      obtain ⟨rfl, h⟩ := h
      obtain ⟨e1, e2⟩ := ih l2 r1 r2 (fun x hx => h1 x (List.mem_cons_of_mem _ hx))
        (fun x hx => h2 x (List.mem_cons_of_mem _ hx)) k1 k2 h
      exact ⟨by rw [e1], e2⟩

theorem key_literal (value : Nat) :
    (getExpressionKey (.number_literal value)).toList =
      "\x7b\"type\":\"number_literal\",\"value\":".toList ++ ((Nat.repr value).toList ++
        ['\x7d']) := by
  simp [getExpressionKey]

theorem key_binary (operator : String) (left right : Node) :
    (getExpressionKey (.binary_operation operator left right)).toList =
      '(' :: ((getExpressionKey left).toList ++ (operator.toList ++
        ((getExpressionKey right).toList ++ [')']))) := by
  simp [getExpressionKey]

theorem key_identifier (value : String) :
    (getExpressionKey (.identifier value)).toList = value.toList := rfl

theorem isIdentifierName_chars {name : String} (h : isIdentifierName name = true) :
    (∃ c cs, name.toList = c :: cs ∧ (c.isAlpha = true ∨ c = '_')) ∧
    ∀ c ∈ name.toList, isWordChar c = true := by
  unfold isIdentifierName at h
  cases hl : name.toList with
  | nil => rw [hl] at h; cases h
  | cons c cs =>
    rw [hl] at h
    simp only [Bool.and_eq_true, Bool.or_eq_true, beq_iff_eq, List.all_eq_true] at h
    refine ⟨⟨c, cs, rfl, h.1⟩, ?_⟩
    intro x hx
    rcases List.mem_cons.1 hx with rfl | hx
    · rcases h.1 with h1 | rfl
      · simp [isWordChar, Char.isAlphanum, h1]
      · decide
    · exact h.2 x hx

theorem isArithmeticOperator_cases {operator : String} (h : isArithmeticOperator operator = true) :
    operator = "+" ∨ operator = "-" ∨ operator = "*" ∨ operator = "/" := by
  simpa [isArithmeticOperator, or_assoc] using h

/-- The first character of the key of a parsed expression: a letter or `_` for
an identifier, an opening brace for a literal, `(` for an operation. -/
theorem key_head {a : Node} (h : a.isParsed = true) :
    ∃ c cs, (getExpressionKey a).toList = c :: cs ∧
      ((∃ v, a = .identifier v ∧ (c.isAlpha = true ∨ c = '_')) ∨
       (∃ n, a = .number_literal n ∧ c = '\x7b') ∨
       (∃ op l r, a = .binary_operation op l r ∧ c = '(')) := by
  cases a with
  | number v => simp [Node.isParsed] at h
  | number_literal n =>
    exact ⟨_, _, key_literal n, Or.inr (Or.inl ⟨n, rfl, rfl⟩)⟩
  | identifier v =>
    obtain ⟨⟨c, cs, hc, hk⟩, -⟩ := isIdentifierName_chars (by simpa [Node.isParsed] using h)
    exact ⟨c, cs, hc, Or.inl ⟨v, rfl, hk⟩⟩
  | binary_operation op l r =>
    exact ⟨_, _, key_binary op l r, Or.inr (Or.inr ⟨op, l, r, rfl, rfl⟩)⟩

theorem operator_unique {o1 o2 : String} {rest1 rest2 : List Char}
    (h1 : isArithmeticOperator o1 = true) (h2 : isArithmeticOperator o2 = true)
    (h : o1.toList ++ rest1 = o2.toList ++ rest2) : o1 = o2 ∧ rest1 = rest2 := by
  rcases isArithmeticOperator_cases h1 with rfl | rfl | rfl | rfl <;>
    rcases isArithmeticOperator_cases h2 with rfl | rfl | rfl | rfl <;>
    simp only [String.toList, List.cons_append, List.nil_append, List.cons.injEq] at h <;>
    first
      | exact ⟨rfl, h.2⟩
      | exact absurd h.1 (by decide)

theorem key_unique : ∀ (a b : Node) (r1 r2 : List Char),
    a.isParsed = true → b.isParsed = true →
    (∀ c ∈ r1.head?, isWordChar c = false) → (∀ c ∈ r2.head?, isWordChar c = false) →
    (getExpressionKey a).toList ++ r1 = (getExpressionKey b).toList ++ r2 →
    a = b ∧ r1 = r2 := by
  intro a
  induction a with
  | number v => intro b r1 r2 ha; simp [Node.isParsed] at ha
  | number_literal n =>
    intro b r1 r2 ha hb k1 k2 h
    obtain ⟨c, cs, hc, hkind⟩ := key_head hb
    rcases hkind with ⟨v, rfl, hv⟩ | ⟨m, rfl, -⟩ | ⟨op, l, r, rfl, hv⟩
    · exfalso
      rw [key_literal, hc] at h
      simp only [String.toList, List.cons_append, List.cons.injEq] at h
      obtain ⟨rfl, -⟩ := h
      rcases hv with hv | hv
      · exact absurd hv (by decide)
      · exact absurd hv (by decide)
    · rw [key_literal, key_literal] at h
      simp only [List.append_assoc] at h
      have h := List.append_cancel_left h
      obtain ⟨e1, e2⟩ := span_unique isDigitChar _ _ _ _ (repr_digits n) (repr_digits m)
        (by simp; decide) (by simp; decide) h
      have : n = m := repr_injective (String.ext e1)
      subst this
      simp only [List.cons_append, List.nil_append, List.cons.injEq, true_and] at e2
      exact ⟨rfl, e2⟩
    · exfalso
      rw [key_literal, hc] at h
      simp only [String.toList, List.cons_append, List.cons.injEq] at h
      obtain ⟨rfl, -⟩ := h
      exact absurd hv (by decide)
  | identifier v =>
    intro b r1 r2 ha hb k1 k2 h
    obtain ⟨⟨c0, cs0, hc0, hk0⟩, hw⟩ := isIdentifierName_chars
      (by simpa [Node.isParsed] using ha : isIdentifierName v = true)
    obtain ⟨c, cs, hc, hkind⟩ := key_head hb
    rcases hkind with ⟨w, rfl, -⟩ | ⟨m, rfl, hm⟩ | ⟨op, l, r, rfl, hm⟩
    · obtain ⟨-, hw2⟩ := isIdentifierName_chars
        (by simpa [Node.isParsed] using hb : isIdentifierName w = true)
      rw [key_identifier, key_identifier] at h
      obtain ⟨e1, e2⟩ := span_unique isWordChar _ _ _ _ hw hw2 k1 k2 h
      exact ⟨by rw [String.ext e1], e2⟩
    · exfalso
      rw [key_identifier, hc, hc0] at h
      simp only [List.cons_append, List.cons.injEq] at h
      obtain ⟨rfl, -⟩ := h
      subst hm
      rcases hk0 with hv | hv
      · exact absurd hv (by decide)
      · exact absurd hv (by decide)
    · exfalso
      rw [key_identifier, hc, hc0] at h
      simp only [List.cons_append, List.cons.injEq] at h
      obtain ⟨rfl, -⟩ := h
      subst hm
      rcases hk0 with hv | hv
      · exact absurd hv (by decide)
      · exact absurd hv (by decide)
  | binary_operation op l r ihl ihr =>
    intro b r1 r2 ha hb k1 k2 h
    simp only [Node.isParsed, Bool.and_eq_true] at ha
    obtain ⟨⟨hop, hl⟩, hr⟩ := ha
    obtain ⟨c, cs, hc, hkind⟩ := key_head hb
    rcases hkind with ⟨w, rfl, hv⟩ | ⟨m, rfl, hm⟩ | ⟨op2, l2, r2', rfl, -⟩
    · exfalso
      rw [key_binary, hc] at h
      simp only [List.cons_append, List.cons.injEq] at h
      obtain ⟨rfl, -⟩ := h
      rcases hv with hv | hv
      · exact absurd hv (by decide)
      · exact absurd hv (by decide)
    · exfalso
      rw [key_binary, hc] at h
      simp only [List.cons_append, List.cons.injEq] at h
      obtain ⟨rfl, -⟩ := h
      exact absurd hm (by decide)
    · simp only [Node.isParsed, Bool.and_eq_true] at hb
      obtain ⟨⟨hop2, hl2⟩, hr2⟩ := hb
      rw [key_binary, key_binary] at h
      simp only [List.cons_append, List.cons.injEq, true_and, List.append_assoc] at h
      have hopc : ∀ o : String, isArithmeticOperator o = true →
          ∀ rest : List Char, ∀ x ∈ (o.toList ++ rest).head?, isWordChar x = false := by
        intro o ho rest
        rcases isArithmeticOperator_cases ho with rfl | rfl | rfl | rfl <;> simp <;> decide
      obtain ⟨el, g1⟩ := ihl l2 _ _ hl hl2 (hopc op hop _) (hopc op2 hop2 _) h
      obtain ⟨eo, g2⟩ := operator_unique hop hop2 g1
      obtain ⟨er, g3⟩ := ihr r2' _ _ hr hr2 (by simp; decide) (by simp; decide) g2
      simp only [List.cons_append, List.nil_append, List.cons.injEq, true_and] at g3
      subst el eo er
      exact ⟨rfl, g3⟩

/-- Two parsed expressions with the same key are the same expression. -/
theorem key_injective {a b : Node} (ha : a.isParsed = true) (hb : b.isParsed = true)
    (h : getExpressionKey a = getExpressionKey b) : a = b :=
  (key_unique a b [] [] ha hb (by simp) (by simp) (by rw [h])).1

/-! ## Formatting drops the grouping -/

theorem Node.size_pos (e : Node) : 0 < e.size := by
  cases e <;> simp [Node.size]

theorem two_pow_mono {a b : Nat} (h : a ≤ b) : (2 : Nat) ^ a ≤ 2 ^ b :=
  Nat.pow_le_pow_right (Nat.succ_pos 1) h

theorem JSNum.rounded_safe (neg : Bool) (n : Nat) (h : n < 2 ^ 53) :
    JSNum.rounded neg n = .fin neg n := by
  have h2 : ¬ (2 ^ 1024 ≤ n) :=
    fun hle => absurd (Nat.le_trans (two_pow_mono (by decide)) hle) (Nat.not_le_of_lt h)
  unfold JSNum.rounded
  rw [roundNat_of_lt h, if_neg h2]

theorem JSNum.toInt_fin {x : JSNum} {a : Int} (h : x.toInt? = some a) :
    ∃ s m, x = .fin s m ∧ a = (if s then -(m : Int) else m) := by
  cases x with
  | fin s m => exact ⟨s, m, rfl, by simpa [JSNum.toInt?] using h.symm⟩
  | inf s => simp [JSNum.toInt?] at h
  | nan => simp [JSNum.toInt?] at h

theorem JSNum.add_toInt (x y : JSNum) (a b : Int) (hx : x.toInt? = some a)
    (hy : y.toInt? = some b) (hs : isSafeInteger (a + b) = true) :
    (x.add y).toInt? = some (a + b) := by
  obtain ⟨s, m, rfl, rfl⟩ := JSNum.toInt_fin hx
  obtain ⟨t, n, rfl, rfl⟩ := JSNum.toInt_fin hy
  simp only [isSafeInteger, decide_eq_true_eq] at hs
  simp only [JSNum.add]
  generalize ((if s = true then -(m : Int) else m) + (if t = true then -(n : Int) else n)) = r
    at hs ⊢
  by_cases hz : r = 0
  · simp [JSNum.toInt?, hz]
  · rw [if_neg hz, JSNum.rounded_safe _ _ hs]
    simp only [JSNum.toInt?, Option.some.injEq]
    by_cases hneg : r < 0
    · simp only [hneg, decide_True, if_true]
      omega
    · simp only [hneg, decide_False, Bool.false_eq_true, if_false]
      omega

theorem JSNum.negate_toInt (y : JSNum) (b : Int) (hy : y.toInt? = some b) :
    y.negate.toInt? = some (-b) := by
  obtain ⟨t, n, rfl, rfl⟩ := JSNum.toInt_fin hy
  cases t <;> simp [JSNum.negate, JSNum.toInt?]

theorem JSNum.sub_toInt (x y : JSNum) (a b : Int) (hx : x.toInt? = some a)
    (hy : y.toInt? = some b) (hs : isSafeInteger (a - b) = true) :
    (x.sub y).toInt? = some (a - b) := by
  rw [Int.sub_eq_add_neg] at hs ⊢
  exact JSNum.add_toInt x y.negate a (-b) hx (JSNum.negate_toInt y b hy) hs

theorem JSNum.mul_toInt (x y : JSNum) (a b : Int) (hx : x.toInt? = some a)
    (hy : y.toInt? = some b) (hs : isSafeInteger (a * b) = true) :
    (x.mul y).toInt? = some (a * b) := by
  obtain ⟨s, m, rfl, rfl⟩ := JSNum.toInt_fin hx
  obtain ⟨t, n, rfl, rfl⟩ := JSNum.toInt_fin hy
  simp only [isSafeInteger, decide_eq_true_eq] at hs
  have hmn : m * n < 2 ^ 53 := by
    have : ((if s = true then -(m : Int) else m) * (if t = true then -(n : Int) else n)).natAbs =
        m * n := by
      cases s <;> cases t <;> simp [Int.natAbs_mul]
    omega
  simp only [JSNum.mul, JSNum.rounded_safe _ _ hmn]
  cases s <;> cases t <;> simp [JSNum.toInt?]

theorem isSafeInteger_natAbs {v : Int} (h : isSafeInteger v = true) : v.natAbs < 2 ^ 53 := by
  simpa [isSafeInteger] using h

/-- On safe operands with a safe result, the folding of `fullEvaluate` computes
the standard result of the operator. -/
theorem foldBinary_value (operator : String) (x y : JSNum) (a b v : Int)
    (hx : x.toInt? = some a) (hy : y.toInt? = some b)
    (ha : isSafeInteger a = true)
    (hv : applyOperator operator a b = some v) (hs : isSafeInteger v = true) :
    ∃ r, foldBinary operator x y = .number r ∧ r.toInt? = some v := by
  unfold applyOperator at hv
  unfold foldBinary
  split at hv
  · rename_i h
    cases hv
    exact ⟨_, by rw [if_pos h], JSNum.add_toInt x y a b hx hy hs⟩
  · rename_i h1
    split at hv
    · rename_i h
      cases hv
      exact ⟨_, by rw [if_neg h1, if_pos h], JSNum.sub_toInt x y a b hx hy hs⟩
    · rename_i h2
      split at hv
      · rename_i h
        cases hv
        exact ⟨_, by rw [if_neg h1, if_neg h2, if_pos h], JSNum.mul_toInt x y a b hx hy hs⟩
      · rename_i h3
        split at hv
        · rename_i h
          split at hv
          · cases hv
          · rename_i hb
            cases hv
            exact ⟨_, by rw [if_neg h1, if_neg h2, if_neg h3, if_pos h],
              JSNum.floorDiv_toInt x y a b hx hy hb (isSafeInteger_natAbs ha)⟩
        · cases hv

/-! ## Keys of folded numbers -/

theorem not_digit_of_alpha (c : Char) (h : c.isAlpha = true) : isDigitChar c = false := by
  simp only [isDigitChar, Char.isDigit, Char.isAlpha, Char.isUpper, Char.isLower,
    Bool.and_eq_true, Bool.or_eq_true, decide_eq_true_eq, Bool.and_eq_false_imp,
    decide_eq_false_iff_not, UInt32.le_def, Fin.le_def, BitVec.le_def] at h ⊢
  have e1 : (UInt32.toBitVec 65).toNat = 65 := rfl
  have e2 : (UInt32.toBitVec 90).toNat = 90 := rfl
  have e3 : (UInt32.toBitVec 97).toNat = 97 := rfl
  have e4 : (UInt32.toBitVec 122).toNat = 122 := rfl
  have e5 : (UInt32.toBitVec 48).toNat = 48 := rfl
  have e6 : (UInt32.toBitVec 57).toNat = 57 := rfl
  rw [e1, e2, e3, e4] at h
  rw [e5, e6]
  omega

theorem JSNum.toString_fin (s : Bool) (m : Nat) :
    (JSNum.fin s m).toString.toList =
      if m = 0 then ['0'] else (if s then ['-'] else []) ++ (Nat.repr m).toList := by
  simp only [JSNum.toString]
  by_cases hm : m = 0
  · simp [hm]
  · cases s <;> simp [hm]

/-- The text of a finite number starts with a digit or with `-`. -/
theorem JSNum.toString_head (s : Bool) (m : Nat) :
    ∃ c cs, (JSNum.fin s m).toString.toList = c :: cs ∧ (isDigitChar c = true ∨ c = '-') := by
  rw [JSNum.toString_fin]
  split
  · exact ⟨'0', [], rfl, Or.inl (by decide)⟩
  · cases s
    · have hdig := repr_digits m
      have hne := repr_ne_nil m
      generalize (Nat.repr m).toList = l at hdig hne ⊢
      cases l with
      | nil => exact absurd rfl hne
      | cons c cs => exact ⟨c, cs, rfl, Or.inl (hdig c (by simp))⟩
    · exact ⟨'-', (Nat.repr m).toList, rfl, Or.inr rfl⟩

/-- Finite numbers with the same text have the same integer value. -/
theorem JSNum.toString_value {s t : Bool} {m n : Nat}
    (h : (JSNum.fin s m).toString = (JSNum.fin t n).toString) :
    (JSNum.fin s m).toInt? = (JSNum.fin t n).toInt? := by
  have h2 := congrArg String.toList h
  rw [JSNum.toString_fin, JSNum.toString_fin] at h2
  have hzero : ∀ k : Nat, k ≠ 0 → (Nat.repr k).toList ≠ ['0'] := by
    intro k hk hr
    apply hk
    have : Nat.repr k = Nat.repr 0 := String.ext hr
    exact repr_injective this
  have hminus : ∀ k : Nat, ∀ cs, (Nat.repr k).toList ≠ '-' :: cs := by
    intro k cs hr
    have := repr_digits k '-' (by rw [hr]; simp)
    exact absurd this (by decide)
  by_cases hm : m = 0 <;> by_cases hn : n = 0
  · subst hm hn
    cases s <;> cases t <;> simp [JSNum.toInt?]
  · exfalso
    rw [if_pos hm, if_neg hn] at h2
    cases t
    · exact hzero n hn (by simpa using h2.symm)
    · simp at h2
  · exfalso
    rw [if_neg hm, if_pos hn] at h2
    cases s
    · exact hzero m hm (by simpa using h2)
    · simp at h2
  · rw [if_neg hm, if_neg hn] at h2
    cases s <;> cases t
    · have : m = n := repr_injective (String.ext (by simpa using h2))
      rw [this]
    · exfalso
      exact hminus m _ (by simpa using h2)
    · exfalso
      exact hminus n _ (by simpa using h2.symm)
    · have : m = n := repr_injective (String.ext (by simpa using h2))
      rw [this]

theorem JSNum.ofInt_toInt (v : Int) : (JSNum.ofInt v).toInt? = some v := by
  unfold JSNum.ofInt
  by_cases h : v < 0
  · simp only [h, decide_True, JSNum.toInt?, if_true, Option.some.injEq]
    omega
  · simp only [h, decide_False, JSNum.toInt?, Bool.false_eq_true, if_false, Option.some.injEq]
    omega

theorem Node.value_safe (env : List (String × Int)) (n : Node) (v : Int)
    (h : n.value env = some v) : isSafeInteger v = true := by
  cases n with
  | number r =>
    simp only [Node.value, Option.filter_eq_some] at h
    exact h.2
  | number_literal k =>
    simp only [Node.value, Option.filter_eq_some] at h
    exact h.2
  | identifier x =>
    simp only [Node.value, Option.filter_eq_some] at h
    exact h.2
  | binary_operation op l r =>
    simp only [Node.value] at h
    split at h
    · simp only [Option.filter_eq_some] at h
      exact h.2
    · cases h

theorem Node.isParsed_isOperand (n : Node) (h : n.isParsed = true) : n.isOperand = true := by
  cases n with
  | number r => rfl
  | number_literal k => rfl
  | identifier x => simpa [Node.isParsed, Node.isOperand] using h
  | binary_operation op l r => simpa [Node.isParsed, Node.isOperand] using h

theorem Node.isOperand_cases (n : Node) (h : n.isOperand = true) :
    (∃ r, n = .number r) ∨ n.isParsed = true := by
  cases n with
  | number r => exact Or.inl ⟨r, rfl⟩
  | number_literal k => exact Or.inr rfl
  | identifier x => exact Or.inr (by simpa [Node.isParsed, Node.isOperand] using h)
  | binary_operation op l r => exact Or.inr (by simpa [Node.isParsed, Node.isOperand] using h)

/-- The key of a parsed expression is not the text of a finite number. -/
theorem key_ne_number {n : Node} (hn : n.isParsed = true) (s : Bool) (m : Nat) :
    getExpressionKey n ≠ (JSNum.fin s m).toString := by
  intro h
  obtain ⟨c, cs, hc, hkind⟩ := key_head hn
  obtain ⟨d, ds, hd, hdig⟩ := JSNum.toString_head s m
  rw [h, hd] at hc
  simp only [List.cons.injEq] at hc
  obtain ⟨rfl, -⟩ := hc
  rcases hkind with ⟨v, -, hv⟩ | ⟨k, -, hv⟩ | ⟨op, l, r, -, hv⟩
  · rcases hv with hv | hv <;> rcases hdig with hdig | hdig
    · rw [not_digit_of_alpha _ hv] at hdig
      cases hdig
    · subst hdig
      exact absurd hv (by decide)
    · subst hv
      exact absurd hdig (by decide)
    · subst hv
      exact absurd hdig (by decide)
  · subst hv
    rcases hdig with hdig | hdig
    · exact absurd hdig (by decide)
    · exact absurd hdig (by decide)
  · subst hv
    rcases hdig with hdig | hdig
    · exact absurd hdig (by decide)
    · exact absurd hdig (by decide)

/-- Operands with the same key have the same value. -/
theorem key_value_unique (env : List (String × Int)) {n1 n2 : Node} {v1 v2 : Int}
    (h1 : n1.isOperand = true) (h2 : n2.isOperand = true)
    (hk : getExpressionKey n1 = getExpressionKey n2)
    (e1 : n1.value env = some v1) (e2 : n2.value env = some v2) : v1 = v2 := by
  rcases Node.isOperand_cases n1 h1 with ⟨r1, rfl⟩ | p1 <;>
    rcases Node.isOperand_cases n2 h2 with ⟨r2, rfl⟩ | p2
  · simp only [Node.value, Option.filter_eq_some] at e1 e2
    obtain ⟨s, m, rfl, -⟩ := JSNum.toInt_fin e1.1
    obtain ⟨t, n, rfl, -⟩ := JSNum.toInt_fin e2.1
    have := JSNum.toString_value (by simpa [getExpressionKey] using hk :
      (JSNum.fin s m).toString = (JSNum.fin t n).toString)
    rw [e1.1, e2.1] at this
    exact Option.some.inj this
  · exfalso
    simp only [Node.value, Option.filter_eq_some] at e1
    obtain ⟨s, m, rfl, -⟩ := JSNum.toInt_fin e1.1
    exact key_ne_number p2 s m (by simpa [getExpressionKey] using hk.symm)
  · exfalso
    simp only [Node.value, Option.filter_eq_some] at e2
    obtain ⟨t, n, rfl, -⟩ := JSNum.toInt_fin e2.1
    exact key_ne_number p1 t n (by simpa [getExpressionKey] using hk)
  · have := key_injective p1 p2 hk
    subst this
    rw [e1] at e2
    exact Option.some.inj e2

/-! ## The optimizer computes the standard values -/

/-- Operands with the same key that both have a value have the same value and
the same identifiers. -/
theorem key_operand_unique (env : List (String × Int)) {n1 n2 : Node} {v1 v2 : Int}
    (h1 : n1.isOperand = true) (h2 : n2.isOperand = true)
    (hk : getExpressionKey n1 = getExpressionKey n2)
    (e1 : n1.value env = some v1) (e2 : n2.value env = some v2) :
    v1 = v2 ∧ n1.identifiers = n2.identifiers := by
  refine ⟨key_value_unique env h1 h2 hk e1 e2, ?_⟩
  rcases Node.isOperand_cases n1 h1 with ⟨r1, rfl⟩ | p1 <;>
    rcases Node.isOperand_cases n2 h2 with ⟨r2, rfl⟩ | p2
  · rfl
  · exfalso
    simp only [Node.value, Option.filter_eq_some] at e1
    obtain ⟨s, m, rfl, -⟩ := JSNum.toInt_fin e1.1
    exact key_ne_number p2 s m (by simpa [getExpressionKey] using hk.symm)
  · exfalso
    simp only [Node.value, Option.filter_eq_some] at e2
    obtain ⟨t, n, rfl, -⟩ := JSNum.toInt_fin e2.1
    exact key_ne_number p1 t n (by simpa [getExpressionKey] using hk)
  · rw [key_injective p1 p2 hk]

theorem Agrees.of_used {st st1 : OptState} {env : List (String × Int)} (h : Agrees st env)
    (hs : st1.symbolTable = st.symbolTable) (hc : st1.expressionCache = st.expressionCache)
    (hu : ∀ y ∈ st.usedVariables, y ∈ st1.usedVariables) : Agrees st1 env := by
  refine ⟨?_, ?_⟩
  · rw [hs]; exact h.1
  · rw [hc]
    intro k c hk
    obtain ⟨r, v, n, a1, a2, a3, a4, a5, a6⟩ := h.2 k c hk
    exact ⟨r, v, n, a1, a2, a3, a4, a5, fun y hy => hu y (a6 y hy)⟩

theorem Agrees.after_store {st : OptState} {env : List (String × Int)} (h : Agrees st env)
    (n : Node) (r : JSNum) (v : Int) (hn : n.isOperand = true) (hv : n.value env = some v)
    (hr : r.toInt? = some v) (hu : ∀ y ∈ n.identifiers, y ∈ st.usedVariables) :
    Agrees { st with
      expressionCache := setKey (getExpressionKey n) (.number r) st.expressionCache } env := by
  refine ⟨h.1, ?_⟩
  intro k c hk
  simp only [lookupKey_setKey] at hk
  split at hk
  · rename_i hkey
    cases hk
    exact ⟨r, v, n, rfl, hr, hn, hkey, hv, hu⟩
  · exact h.2 k c hk

theorem fullEvaluate_number_value (env : List (String × Int)) (fuel : Nat) (r0 : JSNum)
    (st : OptState) (v : Int) (hst : Agrees st env) (hv : r0.toInt? = some v)
    (hs : isSafeInteger v = true) :
    ∃ r st1, fullEvaluate (fuel + 1) (.number r0) st = .ok (.number r, st1) ∧
      r.toInt? = some v ∧ Agrees st1 env ∧ st1.symbolTable = st.symbolTable ∧
      st1.optimizedCode = st.optimizedCode ∧ st1.usedVariables = st.usedVariables := by
  have hval : (Node.number r0).value env = some v := by
    simp [Node.value, Option.filter_eq_some, hv, hs]
  rw [fullEvaluate_succ]
  cases hl : lookupKey (getExpressionKey (.number r0)) st.expressionCache with
  | some c =>
    obtain ⟨r, v2, n, a1, a2, a3, a4, a5, -⟩ := hst.2 _ _ hl
    have := (key_operand_unique env a3 (by rfl : (Node.number r0).isOperand = true) a4 a5 hval).1
    subst this
    exact ⟨r, st, by rw [a1], a2, hst, rfl, rfl, rfl⟩
  | none =>
    simp only [evaluateMiss, Run.ok_andThen, storeResult]
    exact ⟨r0, _, rfl, hv, hst.after_store (.number r0) r0 v rfl hval hv (by simp [Node.identifiers]),
      rfl, rfl, rfl⟩

theorem lookupValue_of_value {env : List (String × Int)} {x : String} {v : Int}
    (h : (Node.identifier x).value env = some v) : lookupValue x env = some v := by
  simp only [Node.value, Option.filter_eq_some] at h
  exact h.1

theorem value_binary {env : List (String × Int)} {op : String} {l r : Node} {v : Int}
    (h : (Node.binary_operation op l r).value env = some v) :
    ∃ a b, l.value env = some a ∧ r.value env = some b ∧ applyOperator op a b = some v := by
  simp only [Node.value] at h
  cases hl : l.value env with
  | none => simp [hl] at h
  | some a =>
    cases hr : r.value env with
    | none => simp [hl, hr] at h
    | some b =>
      simp only [hl, hr, Option.filter_eq_some] at h
      exact ⟨a, b, rfl, rfl, h.1⟩

theorem fullEvaluate_value (env : List (String × Int)) : ∀ (n : Node) (fuel : Nat)
    (st : OptState) (v : Int), n.isOperand = true → Agrees st env → n.value env = some v →
    n.size + 1 ≤ fuel →
    ∃ r st1, fullEvaluate fuel n st = .ok (.number r, st1) ∧ r.toInt? = some v ∧
      Agrees st1 env ∧ st1.symbolTable = st.symbolTable ∧
      st1.optimizedCode = st.optimizedCode ∧
      (∀ y ∈ st.usedVariables, y ∈ st1.usedVariables) ∧
      (∀ y ∈ n.identifiers, y ∈ st1.usedVariables) := by
  intro n
  induction n with
  | number r0 =>
    intro fuel st v _ hst hv hf
    obtain ⟨f, rfl⟩ : ∃ f, fuel = f + 1 := ⟨fuel - 1, by omega⟩
    have hs := Node.value_safe env _ v hv
    simp only [Node.value, Option.filter_eq_some] at hv
    obtain ⟨r, st1, h1, h2, h3, h4, h5, h6⟩ :=
      fullEvaluate_number_value env f r0 st v hst hv.1 hs
    exact ⟨r, st1, h1, h2, h3, h4, h5, fun y hy => by rw [h6]; exact hy,
      by simp [Node.identifiers]⟩
  | number_literal k =>
    intro fuel st v hn hst hv hf
    obtain ⟨f, rfl⟩ : ∃ f, fuel = f + 1 := ⟨fuel - 1, by omega⟩
    rw [fullEvaluate_succ]
    cases hl : lookupKey (getExpressionKey (.number_literal k)) st.expressionCache with
    | some c =>
      obtain ⟨r, v2, n, a1, a2, a3, a4, a5, -⟩ := hst.2 _ _ hl
      have := (key_operand_unique env a3 hn a4 a5 hv).1
      subst this
      exact ⟨r, st, by rw [a1], a2, hst, rfl, rfl, fun y hy => hy, by simp [Node.identifiers]⟩
    | none =>
      have hk : (JSNum.ofNat k).toInt? = some v := by
        simp only [Node.value, Option.filter_eq_some] at hv
        simp only [JSNum.ofNat, JSNum.toInt?, Bool.false_eq_true, if_false]
        exact hv.1
      simp only [evaluateMiss, Run.ok_andThen, storeResult]
      exact ⟨_, _, rfl, hk, hst.after_store (.number_literal k) _ v hn hv hk
        (by simp [Node.identifiers]), rfl, rfl, fun y hy => hy, by simp [Node.identifiers]⟩
  | identifier x =>
    intro fuel st v hn hst hv hf
    obtain ⟨f, rfl⟩ : ∃ f, fuel = f + 2 := ⟨fuel - 2, by simp [Node.size] at hf; omega⟩
    rw [fullEvaluate_succ]
    cases hl : lookupKey (getExpressionKey (.identifier x)) st.expressionCache with
    | some c =>
      obtain ⟨r, v2, n, a1, a2, a3, a4, a5, a6⟩ := hst.2 _ _ hl
      obtain ⟨e1, e2⟩ := key_operand_unique env a3 hn a4 a5 hv
      subst e1
      exact ⟨r, st, by rw [a1], a2, hst, rfl, rfl, fun y hy => hy,
        fun y hy => a6 y (by rw [e2]; exact hy)⟩
    | none =>
      obtain ⟨r0, hb, hr0⟩ := hst.1 x v (lookupValue_of_value hv)
      have hst' : Agrees { st with usedVariables := addUsed x st.usedVariables } env :=
        hst.of_used rfl rfl (fun y hy => (mem_addUsed y x _).2 (Or.inr hy))
      obtain ⟨r, st1, h1, h2, h3, h4, h5, h6⟩ :=
        fullEvaluate_number_value env f r0 _ v hst' hr0 (Node.value_safe env _ v hv)
      have hx : x ∈ st1.usedVariables := by
        rw [h6]
        exact (mem_addUsed x x _).2 (Or.inl rfl)
      simp only [evaluateMiss, hb, h1, Run.ok_andThen, storeResult]
      have hids : ∀ y ∈ (Node.identifier x).identifiers, y ∈ st1.usedVariables := by
        intro y hy
        simp only [Node.identifiers, List.mem_singleton] at hy
        subst hy
        exact hx
      have hmono : ∀ y ∈ st.usedVariables, y ∈ st1.usedVariables := by
        intro y hy
        rw [h6]
        exact (mem_addUsed y x _).2 (Or.inr hy)
      exact ⟨r, _, rfl, h2, h3.after_store (.identifier x) r v hn hv h2 hids, h4, h5, hmono, hids⟩
  | binary_operation op l r ihl ihr =>
    intro fuel st v hn hst hv hf
    obtain ⟨f, rfl⟩ : ∃ f, fuel = f + 1 := ⟨fuel - 1, by omega⟩
    simp only [Node.size] at hf
    rw [fullEvaluate_succ]
    cases hl : lookupKey (getExpressionKey (.binary_operation op l r)) st.expressionCache with
    | some c =>
      obtain ⟨r, v2, n, a1, a2, a3, a4, a5, a6⟩ := hst.2 _ _ hl
      obtain ⟨e1, e2⟩ := key_operand_unique env a3 hn a4 a5 hv
      subst e1
      exact ⟨r, st, by rw [a1], a2, hst, rfl, rfl, fun y hy => hy,
        fun y hy => a6 y (by rw [e2]; exact hy)⟩
    | none =>
      have hn2 := hn
      simp only [Node.isOperand, Bool.and_eq_true] at hn2
      obtain ⟨a, b, ha, hb, hop⟩ := value_binary hv
      obtain ⟨ra, st1, h1, h2, h3, h4, h5, h6, h7⟩ := ihl f st a
        (Node.isParsed_isOperand _ hn2.1.2) hst ha (by omega)
      obtain ⟨rb, st2, k1, k2, k3, k4, k5, k6, k7⟩ := ihr f st1 b
        (Node.isParsed_isOperand _ hn2.2) h3 hb (by omega)
      obtain ⟨rv, hfold, hrv⟩ := foldBinary_value op ra rb a b v h2 k2
        (Node.value_safe env _ a ha) hop (Node.value_safe env _ v hv)
      have hcomb : combine op (.number ra) (.number rb) = .number rv := by
        simp only [combine]
        exact hfold
      have hids : ∀ y ∈ (Node.binary_operation op l r).identifiers, y ∈ st2.usedVariables := by
        intro y hy
        simp only [Node.identifiers, List.mem_append] at hy
        rcases hy with hy | hy
        · exact k6 y (h7 y hy)
        · exact k7 y hy
      simp only [evaluateMiss, h1, k1, Run.ok_andThen, storeResult, hcomb]
      exact ⟨rv, _, rfl, hrv, k3.after_store (.binary_operation op l r) rv v hn hv hrv hids,
        by rw [← h4, ← k4], by rw [← h5, ← k5], fun y hy => k6 y (h6 y hy), hids⟩

theorem Node.value_mono {env env1 : List (String × Int)}
    (hsub : ∀ y u, lookupValue y env = some u → lookupValue y env1 = some u) :
    ∀ (n : Node) (v : Int), n.value env = some v → n.value env1 = some v := by
  intro n
  induction n with
  | number r => intro v h; exact h
  | number_literal k => intro v h; exact h
  | identifier x =>
    intro v h
    have hs := Node.value_safe env _ v h
    have := hsub x v (lookupValue_of_value h)
    simp [Node.value, Option.filter_eq_some, this, hs]
  | binary_operation op l r ihl ihr =>
    intro v h
    obtain ⟨a, b, ha, hb, hop⟩ := value_binary h
    have hs := Node.value_safe env _ v h
    simp [Node.value, ihl a ha, ihr b hb, Option.filter_eq_some, hop, hs]

/-- After an assignment of a fresh variable the state agrees with the extended
environment. -/
theorem Agrees.after_assignment {st : OptState} {env : List (String × Int)} (h : Agrees st env)
    (x : String) (r : JSNum) (v : Int) (hr : r.toInt? = some v)
    (hfresh : lookupValue x env = none) :
    Agrees { st with symbolTable := setKey x (.number r) st.symbolTable } ((x, v) :: env) := by
  have hsub : ∀ y u, lookupValue y env = some u → lookupValue y ((x, v) :: env) = some u := by
    intro y u hy
    have : x ≠ y := by
      rintro rfl
      rw [hfresh] at hy
      cases hy
    simp [lookupValue, this, hy]
  refine ⟨?_, ?_⟩
  · intro y u hy
    simp only [lookupValue] at hy
    simp only [lookupKey_setKey]
    split at hy
    · rename_i hxy
      cases hy
      exact ⟨r, by simp [hxy], hr⟩
    · rename_i hxy
      simp only [hxy, if_false]
      exact h.1 y u hy
  · intro k c hk
    obtain ⟨r2, v2, n, a1, a2, a3, a4, a5, a6⟩ := h.2 k c hk
    exact ⟨r2, v2, n, a1, a2, a3, a4, Node.value_mono hsub n v2 a5, a6⟩

theorem EnvExtends.rfl_env (env : List (String × Int)) : EnvExtends env env :=
  fun _ _ h => h

theorem EnvExtends.trans_env {e1 e2 e3 : List (String × Int)} (h1 : EnvExtends e1 e2)
    (h2 : EnvExtends e2 e3) : EnvExtends e1 e3 :=
  fun y u h => h2 y u (h1 y u h)

theorem EnvExtends.cons_fresh (env : List (String × Int)) (x : String) (v : Int)
    (hfresh : lookupValue x env = none) : EnvExtends env ((x, v) :: env) := by
  intro y u hy
  have : x ≠ y := by
    rintro rfl
    rw [hfresh] at hy
    cases hy
  simp [lookupValue, this, hy]

mutual
/-- Standard execution only adds variables: those the statement assigns. -/
theorem run_extends : ∀ (s : Stmt) (env env1 : List (String × Int)) (out : List Int),
    s.run env = some (env1, out) → (∀ y ∈ s.assigned, lookupValue y env = none) →
    s.assigned.Nodup →
    EnvExtends env env1 ∧
      ∀ y, lookupValue y env1 ≠ none → lookupValue y env ≠ none ∨ y ∈ s.assigned
  | .assignment x e, env, env1, out, h, hfresh, _ => by
    simp only [Stmt.run] at h
    split at h
    · cases h
      refine ⟨EnvExtends.cons_fresh env x _ (hfresh x (by simp [Stmt.assigned])), ?_⟩
      intro y hy
      simp only [lookupValue] at hy
      split at hy
      · rename_i hxy
        exact Or.inr (by simp [Stmt.assigned, hxy])
      · exact Or.inl hy
    · cases h
  | .print e, env, env1, out, h, _, _ => by
    simp only [Stmt.run] at h
    split at h
    · cases h
      exact ⟨EnvExtends.rfl_env env, fun y hy => Or.inl hy⟩
    · cases h
  | .if_ c b, env, env1, out, h, hfresh, hnd => by
    simp only [Stmt.run] at h
    split at h
    · split at h
      · cases h
        exact ⟨EnvExtends.rfl_env env, fun y hy => Or.inl hy⟩
      · exact runProgram_extends b env env1 out h hfresh hnd
    · cases h
/-- Standard execution of a list only adds the variables its statements
assign. -/
theorem runProgram_extends : ∀ (b : List Stmt) (env env1 : List (String × Int))
    (out : List Int), runProgram b env = some (env1, out) →
    (∀ y ∈ programAssigned b, lookupValue y env = none) → (programAssigned b).Nodup →
    EnvExtends env env1 ∧
      ∀ y, lookupValue y env1 ≠ none → lookupValue y env ≠ none ∨ y ∈ programAssigned b
  | [], env, env1, out, h, _, _ => by
    simp only [runProgram] at h
    cases h
    exact ⟨EnvExtends.rfl_env env, fun y hy => Or.inl hy⟩
  | s :: more, env, env1, out, h, hfresh, hnd => by
    simp only [runProgram] at h
    cases hs : s.run env with
    | none => simp [hs] at h
    | some r1 =>
      obtain ⟨envm, outm⟩ := r1
      cases hm : runProgram more envm with
      | none => simp [hs, hm] at h
      | some r2 =>
        obtain ⟨env2, out2⟩ := r2
        simp only [hs, hm] at h
        cases h
        simp only [programAssigned] at hfresh hnd
        rw [List.nodup_append] at hnd
        obtain ⟨e1, d1⟩ := run_extends s env envm outm hs
          (fun y hy => hfresh y (List.mem_append_left _ hy)) hnd.1
        have hfm : ∀ y ∈ programAssigned more, lookupValue y envm = none := by
          intro y hy
          by_contra hne
          rcases d1 y hne with h1 | h1
          · exact h1 (hfresh y (List.mem_append_right _ hy))
          · exact hnd.2.2 h1 hy
        obtain ⟨e2, d2⟩ := runProgram_extends more envm env1 out2 hm hfm hnd.2.1
        refine ⟨e1.trans_env e2, ?_⟩
        intro y hy
        simp only [programAssigned, List.mem_append]
        rcases d2 y hy with h1 | h1
        · rcases d1 y h1 with h2 | h2
          · exact Or.inl h2
          · exact Or.inr (Or.inl h2)
        · exact Or.inr (Or.inr h1)
end

theorem Stmt.size_le_program {s : Stmt} {more : List Stmt} {fuel : Nat}
    (h : programSize (s :: more) ≤ fuel) : s.size ≤ fuel ∧ programSize more ≤ fuel := by
  simp only [programSize] at h
  omega

mutual
/-- The first pass follows the standard execution: afterwards the state agrees
with the environment the statement leaves. -/
theorem analyzeUsage_agrees (fuel : Nat) : ∀ (s : Stmt) (st : OptState)
    (env env1 : List (String × Int)) (out : List Int), s.isParsed = true → Agrees st env →
    s.run env = some (env1, out) → (∀ y ∈ s.assigned, lookupValue y env = none) →
    s.assigned.Nodup → s.size ≤ fuel →
    ∃ st1, analyzeUsage fuel s st = .ok st1 ∧ Agrees st1 env1 ∧
      st1.optimizedCode = st.optimizedCode
  | .assignment x e, st, env, env1, out, hp, hst, h, hfresh, _, hf => by
    simp only [Stmt.run] at h
    cases hv : e.value env with
    | none => simp [hv] at h
    | some v =>
      simp only [hv] at h
      cases h
      simp only [Stmt.size] at hf
      obtain ⟨r, st1, h1, t1, a1, -, o1, -, -⟩ := fullEvaluate_value env e fuel st v
        (Node.isParsed_isOperand e (by simpa [Stmt.isParsed] using hp)) hst hv hf
      simp only [analyzeUsage, h1, Run.ok_andThen]
      exact ⟨_, rfl, a1.after_assignment x r v t1 (hfresh x (by simp [Stmt.assigned])), o1⟩
  | .print e, st, env, env1, out, hp, hst, h, _, _, hf => by
    simp only [Stmt.run] at h
    cases hv : e.value env with
    | none => simp [hv] at h
    | some v =>
      simp only [hv] at h
      cases h
      simp only [Stmt.size] at hf
      obtain ⟨r, st1, h1, -, a1, -, o1, -, -⟩ := fullEvaluate_value env e fuel st v
        (Node.isParsed_isOperand e (by simpa [Stmt.isParsed] using hp)) hst hv hf
      simp only [analyzeUsage, h1, Run.ok_andThen]
      exact ⟨_, rfl, a1, o1⟩
  | .if_ c b, st, env, env1, out, hp, hst, h, hfresh, hnd, hf => by
    simp only [Stmt.run] at h
    simp only [Stmt.isParsed, Bool.and_eq_true] at hp
    cases hv : c.value env with
    | none => simp [hv] at h
    | some v =>
      simp only [hv] at h
      simp only [Stmt.size] at hf
      obtain ⟨r, st1, h1, t1, a1, -, o1, -, -⟩ := fullEvaluate_value env c fuel st v
        (Node.isParsed_isOperand c hp.1) hst hv (by omega)
      simp only [analyzeUsage, h1, Run.ok_andThen]
      by_cases hz : v = 0
      · rw [if_pos hz] at h
        cases h
        have : r.truthy = false := by
          have := (JSNum.truthy_iff r v t1).not
          simpa [hz] using this
        simp only [this, Bool.false_eq_true, if_false]
        exact ⟨_, rfl, a1, o1⟩
      · rw [if_neg hz] at h
        have : r.truthy = true := (JSNum.truthy_iff r v t1).2 hz
        simp only [this, if_true]
        obtain ⟨st2, h2, a2, o2⟩ := analyzeUsageEach_agrees fuel b st1 env env1 out hp.2 a1 h
          hfresh hnd (by omega)
        exact ⟨st2, h2, a2, by rw [o2, o1]⟩
/-- The first pass over a list of statements follows the standard
execution. -/
theorem analyzeUsageEach_agrees (fuel : Nat) : ∀ (b : List Stmt) (st : OptState)
    (env env1 : List (String × Int)) (out : List Int), programParsed b = true →
    Agrees st env → runProgram b env = some (env1, out) →
    (∀ y ∈ programAssigned b, lookupValue y env = none) → (programAssigned b).Nodup →
    programSize b ≤ fuel →
    ∃ st1, analyzeUsageEach fuel b st = .ok st1 ∧ Agrees st1 env1 ∧
      st1.optimizedCode = st.optimizedCode
  | [], st, env, env1, out, _, hst, h, _, _, _ => by
    simp only [runProgram] at h
    cases h
    exact ⟨st, rfl, hst, rfl⟩
  | s :: more, st, env, env1, out, hp, hst, h, hfresh, hnd, hf => by
    simp only [runProgram] at h
    simp only [programParsed, Bool.and_eq_true] at hp
    cases hs : s.run env with
    | none => simp [hs] at h
    | some r1 =>
      obtain ⟨envm, outm⟩ := r1
      cases hm : runProgram more envm with
      | none => simp [hs, hm] at h
      | some r2 =>
        obtain ⟨env2, out2⟩ := r2
        simp only [hs, hm] at h
        cases h
        simp only [programAssigned] at hfresh hnd
        rw [List.nodup_append] at hnd
        have hsz := Stmt.size_le_program hf
        have hfs : ∀ y ∈ s.assigned, lookupValue y env = none :=
          fun y hy => hfresh y (List.mem_append_left _ hy)
        obtain ⟨-, d1⟩ := run_extends s env envm outm hs hfs hnd.1
        have hfm : ∀ y ∈ programAssigned more, lookupValue y envm = none := by
          intro y hy
          by_contra hne
          rcases d1 y hne with h1 | h1
          · exact h1 (hfresh y (List.mem_append_right _ hy))
          · exact hnd.2.2 h1 hy
        obtain ⟨st1, h1, a1, o1⟩ := analyzeUsage_agrees fuel s st env envm outm hp.1 hst hs
          hfs hnd.1 hsz.1
        obtain ⟨st2, h2, a2, o2⟩ := analyzeUsageEach_agrees fuel more st1 envm env1 out2 hp.2
          a1 hm hfm hnd.2.1 hsz.2
        simp only [analyzeUsageEach, h1, Run.ok_andThen]
        exact ⟨st2, h2, a2, by rw [o2, o1]⟩
end

theorem Line.WrittenNumeric.mono_used {used used2 : List String} {l : Line}
    (h : l.WrittenNumeric used) (hmono : ∀ y ∈ used, y ∈ used2) : l.WrittenNumeric used2 := by
  rcases h with ⟨x, r, v, h1, h2, h3⟩ | h
  · exact Or.inl ⟨x, r, v, h1, h2, hmono x h3⟩
  · exact Or.inr h

mutual
/-- The second pass, in a state that agrees with the final environment, writes
one numeric line per print statement that the standard execution runs, showing
the value printed, and numeric assignment lines besides. -/
theorem generateOptimizedCode_agrees (fuel : Nat) (envF : List (String × Int)) :
    ∀ (s : Stmt) (st : OptState) (env env1 : List (String × Int)) (out : List Int),
    s.isParsed = true → Agrees st envF → s.run env = some (env1, out) →
    EnvExtends env1 envF → (∀ y ∈ s.assigned, lookupValue y env = none) →
    s.assigned.Nodup → s.size ≤ fuel →
    ∃ st1 lines, generateOptimizedCode fuel s st = .ok st1 ∧ Agrees st1 envF ∧
      st1.optimizedCode = st.optimizedCode ++ renderLines lines ∧
      (∀ y ∈ st.usedVariables, y ∈ st1.usedVariables) ∧
      (∀ l ∈ lines, l.WrittenNumeric st1.usedVariables) ∧ lines.filterMap Line.printed = out
  | .assignment x e, st, env, env1, out, hp, hst, h, hext, hfresh, _, hf => by
    simp only [Stmt.run] at h
    cases hv : e.value env with
    | none => simp [hv] at h
    | some v =>
      simp only [hv] at h
      cases h
      simp only [Stmt.size] at hf
      have hvF : e.value envF = some v := Node.value_mono
        ((EnvExtends.cons_fresh env x v (hfresh x (by simp [Stmt.assigned]))).trans_env hext)
        e v hv
      obtain ⟨r, st1, h1, t1, a1, -, o1, u1, -⟩ := fullEvaluate_value envF e fuel st v
        (Node.isParsed_isOperand e (by simpa [Stmt.isParsed] using hp)) hst hvF hf
      simp only [generateOptimizedCode, h1, Run.ok_andThen]
      split
      · rename_i hused
        refine ⟨_, [Line.assign x [Word.number r]], rfl, a1.of_used rfl rfl (fun y hy => hy),
          ?_, u1, ?_, by simp [Line.printed]⟩
        · simp [emit, o1, renderLines, Line.text, joinWords, Word.text]
        · intro l hl
          simp only [List.mem_singleton] at hl
          subst hl
          exact Or.inl ⟨x, r, v, rfl, t1, hused⟩
      · refine ⟨_, [], rfl, a1, ?_, u1, by simp, by simp⟩
        simp [o1, renderLines]
  | .print e, st, env, env1, out, hp, hst, h, hext, _, _, hf => by
    simp only [Stmt.run] at h
    cases hv : e.value env with
    | none => simp [hv] at h
    | some v =>
      simp only [hv] at h
      cases h
      simp only [Stmt.size] at hf
      have hvF : e.value envF = some v := Node.value_mono hext e v hv
      obtain ⟨r, st1, h1, t1, a1, -, o1, u1, -⟩ := fullEvaluate_value envF e fuel st v
        (Node.isParsed_isOperand e (by simpa [Stmt.isParsed] using hp)) hst hvF hf
      simp only [generateOptimizedCode, h1, Run.ok_andThen]
      refine ⟨_, [Line.print [Word.number r]], rfl, a1.of_used rfl rfl (fun y hy => hy),
        ?_, u1, ?_, by simp [Line.printed, t1]⟩
      · simp [emit, o1, renderLines, Line.text, joinWords, Word.text]
      · intro l hl
        simp only [List.mem_singleton] at hl
        subst hl
        exact Or.inr ⟨r, v, rfl, t1⟩
  | .if_ c b, st, env, env1, out, hp, hst, h, hext, hfresh, hnd, hf => by
    simp only [Stmt.run] at h
    simp only [Stmt.isParsed, Bool.and_eq_true] at hp
    cases hv : c.value env with
    | none => simp [hv] at h
    | some v =>
      simp only [hv] at h
      simp only [Stmt.size] at hf
      by_cases hz : v = 0
      · rw [if_pos hz] at h
        cases h
        have hvF : c.value envF = some v := Node.value_mono hext c v hv
        obtain ⟨r, st1, h1, t1, a1, -, o1, u1, -⟩ := fullEvaluate_value envF c fuel st v
          (Node.isParsed_isOperand c hp.1) hst hvF (by omega)
        have : r.truthy = false := by
          have := (JSNum.truthy_iff r v t1).not
          simpa [hz] using this
        simp only [generateOptimizedCode, h1, Run.ok_andThen, this, Bool.false_eq_true,
          if_false]
        exact ⟨_, [], rfl, a1, by simp [o1, renderLines], u1, by simp, by simp⟩
      · rw [if_neg hz] at h
        obtain ⟨e1, -⟩ := runProgram_extends b env env1 out h hfresh hnd
        have hvF : c.value envF = some v := Node.value_mono (e1.trans_env hext) c v hv
        obtain ⟨r, st1, h1, t1, a1, -, o1, u1, -⟩ := fullEvaluate_value envF c fuel st v
          (Node.isParsed_isOperand c hp.1) hst hvF (by omega)
        have : r.truthy = true := (JSNum.truthy_iff r v t1).2 hz
        simp only [generateOptimizedCode, h1, Run.ok_andThen, this, if_true]
        obtain ⟨st2, lines, h2, a2, o2, u2, n2, p2⟩ := generateOptimizedCodeEach_agrees fuel
          envF b st1 env env1 out hp.2 a1 h hext hfresh hnd (by omega)
        exact ⟨st2, lines, h2, a2, by rw [o2, o1], fun y hy => u2 y (u1 y hy), n2, p2⟩
/-- The second pass over a list of statements. -/
theorem generateOptimizedCodeEach_agrees (fuel : Nat) (envF : List (String × Int)) :
    ∀ (b : List Stmt) (st : OptState) (env env1 : List (String × Int)) (out : List Int),
    programParsed b = true → Agrees st envF → runProgram b env = some (env1, out) →
    EnvExtends env1 envF → (∀ y ∈ programAssigned b, lookupValue y env = none) →
    (programAssigned b).Nodup → programSize b ≤ fuel →
    ∃ st1 lines, generateOptimizedCodeEach fuel b st = .ok st1 ∧ Agrees st1 envF ∧
      st1.optimizedCode = st.optimizedCode ++ renderLines lines ∧
      (∀ y ∈ st.usedVariables, y ∈ st1.usedVariables) ∧
      (∀ l ∈ lines, l.WrittenNumeric st1.usedVariables) ∧ lines.filterMap Line.printed = out
  | [], st, env, env1, out, _, hst, h, _, _, _, _ => by
    simp only [runProgram] at h
    cases h
    exact ⟨st, [], rfl, hst, by simp [renderLines], fun y hy => hy, by simp, by simp⟩
  | s :: more, st, env, env1, out, hp, hst, h, hext, hfresh, hnd, hf => by
    simp only [runProgram] at h
    simp only [programParsed, Bool.and_eq_true] at hp
    cases hs : s.run env with
    | none => simp [hs] at h
    | some r1 =>
      obtain ⟨envm, outm⟩ := r1
      cases hm : runProgram more envm with
      | none => simp [hs, hm] at h
      | some r2 =>
        obtain ⟨env2, out2⟩ := r2
        simp only [hs, hm] at h
        cases h
        simp only [programAssigned] at hfresh hnd
        rw [List.nodup_append] at hnd
        have hsz := Stmt.size_le_program hf
        have hfs : ∀ y ∈ s.assigned, lookupValue y env = none :=
          fun y hy => hfresh y (List.mem_append_left _ hy)
        obtain ⟨-, d1⟩ := run_extends s env envm outm hs hfs hnd.1
        have hfm : ∀ y ∈ programAssigned more, lookupValue y envm = none := by
          intro y hy
          by_contra hne
          rcases d1 y hne with h1 | h1
          · exact h1 (hfresh y (List.mem_append_right _ hy))
          · exact hnd.2.2 h1 hy
        obtain ⟨em, -⟩ := runProgram_extends more envm env1 out2 hm hfm hnd.2.1
        obtain ⟨st1, l1, h1, a1, o1, u1, n1, p1⟩ := generateOptimizedCode_agrees fuel envF s st
          env envm outm hp.1 hst hs (em.trans_env hext) hfs hnd.1 hsz.1
        obtain ⟨st2, l2, h2, a2, o2, u2, n2, p2⟩ := generateOptimizedCodeEach_agrees fuel envF
          more st1 envm env1 out2 hp.2 a1 hm hext hfm hnd.2.1 hsz.2
        simp only [generateOptimizedCodeEach, h1, Run.ok_andThen]
        refine ⟨st2, l1 ++ l2, h2, a2, ?_, fun y hy => u2 y (u1 y hy), ?_, ?_⟩
        · rw [o2, o1, renderLines_append, String.append_assoc]
        · intro l hl
          rcases List.mem_append.1 hl with hl | hl
          · exact (n1 l hl).mono_used u2
          · exact n2 l hl
        · rw [List.filterMap_append, p1, p2]
end

mutual
/-- The integers printed by the standard execution are safe integers. -/
theorem run_safe : ∀ (s : Stmt) (env env1 : List (String × Int)) (out : List Int),
    s.run env = some (env1, out) → ∀ v ∈ out, isSafeInteger v = true
  | .assignment x e, env, env1, out, h => by
    simp only [Stmt.run] at h
    split at h
    · cases h; simp
    · cases h
  | .print e, env, env1, out, h => by
    simp only [Stmt.run] at h
    split at h
    · rename_i v hv
      cases h
      intro w hw
      simp only [List.mem_singleton] at hw
      subst hw
      exact Node.value_safe env e _ hv
    · cases h
  | .if_ c b, env, env1, out, h => by
    simp only [Stmt.run] at h
    split at h
    · split at h
      · cases h; simp
      · exact runProgram_safe b env env1 out h
    · cases h
/-- The integers printed by the standard execution of a list are safe
integers. -/
theorem runProgram_safe : ∀ (b : List Stmt) (env env1 : List (String × Int))
    (out : List Int), runProgram b env = some (env1, out) → ∀ v ∈ out, isSafeInteger v = true
  | [], env, env1, out, h => by
    simp only [runProgram] at h
    cases h; simp
  | s :: more, env, env1, out, h => by
    simp only [runProgram] at h
    cases hs : s.run env with
    | none => simp [hs] at h
    | some r1 =>
      obtain ⟨envm, outm⟩ := r1
      cases hm : runProgram more envm with
      | none => simp [hs, hm] at h
      | some r2 =>
        obtain ⟨env2, out2⟩ := r2
        simp only [hs, hm] at h
        cases h
        intro v hv
        rcases List.mem_append.1 hv with hv | hv
        · exact run_safe s env envm outm hs v hv
        · exact runProgram_safe more envm env1 out2 hm v hv
end

end OptiCompiler
